import Mathlib

/-!
prosper-pool: the miner and the share accounting

A shallow embedding of `mining/miner.go` (the nonce incrementer, the command
handler and the mining step) and of `accounting/share.go` (share aggregation
and the payout calculator), followed by the properties proved about them.

Conventions of the embedding

* A Go `byte` is a `Nat` below 256; every byte operation reduces modulo 256.
* A Go `int64` is an `Int`; every arithmetic result is passed through `wrap64`.
* A Go panic (index out of range, division by zero, ...) is the value `none`.
* A Go `float64` is a value of a type parameter `F` with the operations of
  `Float64Ops`; where a bound needs more than that, the properties of IEEE 754
  it rests on are the fields of `Float64Sound`.
-/

namespace ProsperPool

/-! ## mining/miner.go : NonceIncrementer -/

/-- The four bytes written by `binary.BigEndian.PutUint32(buf, v)`:
`byte(v >> 24), byte(v >> 16), byte(v >> 8), byte(v)`. -/
def PutUint32 (v : Nat) : List Nat :=
  [v / 16777216 % 256, v / 65536 % 256, v / 256 % 256, v % 256]

/-- NonceIncrementer of miner.go: the nonce bytes and the two index fields. -/
structure NonceIncrementer where
  Nonce : List Nat
  lastNonceByte : Int
  lastPrefixByte : Int
  deriving DecidableEq, Repr

/-- NewNonceIncrementer of miner.go: `buf` is the big-endian `id` followed by
`byte(personalid)`; the nonce is `buf` followed by one zero byte. -/
def NewNonceIncrementer (id personalid : Nat) : NonceIncrementer :=
  let buf := PutUint32 id
  let buf := buf ++ [personalid % 256]
  { lastPrefixByte := (buf.length : Int) - 1
    Nonce := buf ++ [0]
    lastNonceByte := 1 }

/-- The `for` loop of NextNonce, started at index `idx`.  Each round increments
the byte at `idx`; when it wraps to zero the index moves one to the left, and
when that reaches `lastPrefixByte` a byte `1` is spliced in right after the
prefix.  An index outside the slice is a panic (`none`). -/
def NonceIncrementer.nextLoop (lastPrefixByte : Int) : List Nat → Nat → Option (List Nat)
  | nonce, idx =>
    if idx < nonce.length then
      let nonce := nonce.set idx ((nonce.getD idx 0 + 1) % 256)
      if nonce.getD idx 0 = 0 then
        if (idx : Int) - 1 = lastPrefixByte then
          let k := (lastPrefixByte + 1).toNat
          let rest := [1] ++ nonce.drop k
          some (nonce.take k ++ rest)
        else
          match idx with
          | 0 => none
          | j + 1 => NonceIncrementer.nextLoop lastPrefixByte nonce j
      else some nonce
    else none

/-- NextNonce of miner.go: `idx := len(i.Nonce) - i.lastNonceByte`, then the loop. -/
def NonceIncrementer.NextNonce (i : NonceIncrementer) : Option NonceIncrementer :=
  let idx : Int := (i.Nonce.length : Int) - i.lastNonceByte
  if idx < 0 then none
  else
    match NonceIncrementer.nextLoop i.lastPrefixByte i.Nonce idx.toNat with
    | none => none
    | some nonce => some { i with Nonce := nonce }

/-- The incrementer after `n` successive calls of NextNonce. -/
def NonceIncrementer.iterate : Nat → NonceIncrementer → Option NonceIncrementer
  | 0, i => some i
  | n + 1, i =>
    match NonceIncrementer.iterate n i with
    | none => none
    | some j => j.NextNonce

/-- The five prefix bytes of a nonce: big-endian pool id, then `personal_id & 0xFF`. -/
def noncePrefixBytes (id personalid : Nat) : List Nat :=
  PutUint32 id ++ [personalid % 256]


/-! ## Machine integers and the collaborators of accounting/share.go -/

/-- Two's-complement reduction of an integer to the int64 range. -/
def wrap64 (x : Int) : Int := (x + 9223372036854775808) % 18446744073709551616 - 9223372036854775808

/-- Go's `time.Duration`: a count of nanoseconds, an int64. -/
abbrev Duration := Int

/-- Go's `time.Second * 20` in nanoseconds. -/
def twentySeconds : Duration := 20 * 1000000000

/-- `t.Sub(u)` of Go's time package on instants given in nanoseconds; the
difference saturates at the largest and smallest Duration. -/
def timeSub (t u : Int) : Duration :=
  if t - u > 9223372036854775807 then 9223372036854775807
  else if t - u < -9223372036854775808 then -9223372036854775808
  else t - u

/-- A shopspring `decimal.Decimal`: the number `value * 10 ^ exp`.  The library
keeps `exp` in an int32 and panics when it leaves that range; the exponent is
unbounded here. -/
structure Decimal where
  value : Int
  exp : Int
  deriving DecidableEq, Repr

/-- `decimal.New(value, exp)`. -/
def Decimal.New (value : Int) (exp : Int) : Decimal := { value := value, exp := exp }

/-- `d.IsZero()`: the sign of the coefficient is zero. -/
def Decimal.IsZero (d : Decimal) : Bool := decide (d.value = 0)

/-- `d.rescale(exp)`: the same number at exponent `exp`; going to a larger
exponent divides the coefficient with truncation toward zero (`big.Int.Quo`). -/
def Decimal.rescale (d : Decimal) (exp : Int) : Decimal :=
  if d.exp = exp then d
  else
    let expScale : Int := 10 ^ (exp - d.exp).natAbs
    if exp > d.exp then { value := d.value.tdiv expScale, exp := exp }
    else { value := d.value * expScale, exp := exp }

/-- `RescalePair(d1, d2)`: both numbers at the smaller of the two exponents. -/
def Decimal.RescalePair (d1 d2 : Decimal) : Decimal × Decimal :=
  if d1.exp = d2.exp then (d1, d2)
  else
    let baseScale := min d1.exp d2.exp
    if baseScale ≠ d1.exp then (d1.rescale baseScale, d2) else (d1, d2.rescale baseScale)

/-- `d.Add(d2)`. -/
def Decimal.Add (d d2 : Decimal) : Decimal :=
  let rp := Decimal.RescalePair d d2
  { value := rp.1.value + rp.2.value, exp := rp.1.exp }

/-- `d.Sub(d2)`. -/
def Decimal.Sub (d d2 : Decimal) : Decimal :=
  let rp := Decimal.RescalePair d d2
  { value := rp.1.value - rp.2.value, exp := rp.1.exp }

/-- `d.Abs()`. -/
def Decimal.Abs (d : Decimal) : Decimal := { value := |d.value|, exp := d.exp }

/-- `d.Cmp(d2)`: -1, 0 or 1. -/
def Decimal.Cmp (d d2 : Decimal) : Int :=
  let rp := Decimal.RescalePair d d2
  if rp.1.value < rp.2.value then -1 else if rp.1.value = rp.2.value then 0 else 1

/-- `d.Mul(d2)`: exact product. -/
def Decimal.Mul (d d2 : Decimal) : Decimal :=
  { value := d.value * d2.value, exp := d.exp + d2.exp }

/-- `d.QuoRem(d2, precision)`: quotient with `precision` decimal places,
truncated toward zero, and the remainder; division by zero panics. -/
def Decimal.QuoRem (d d2 : Decimal) (precision : Int) : Option (Decimal × Decimal) :=
  if d2.value = 0 then none
  else
    let scale := -precision
    let e := d.exp - d2.exp - scale
    let aa : Int := if e < 0 then d.value else d.value * 10 ^ e.toNat
    let bb : Int := if e < 0 then d2.value * 10 ^ (-e).toNat else d2.value
    let scalerest : Int := if e < 0 then d.exp else scale + d2.exp
    some ({ value := aa.tdiv bb, exp := scale }, { value := aa.tmod bb, exp := scalerest })

/-- `d.DivRound(d2, precision)`: the quotient rounded half away from zero at
`precision` decimal places. -/
def Decimal.DivRound (d d2 : Decimal) (precision : Int) : Option Decimal :=
  match Decimal.QuoRem d d2 precision with
  | none => none
  | some (q, r) =>
    let r2 : Decimal := { value := |r.value| * 2, exp := r.exp + precision }
    let c := Decimal.Cmp r2 (Decimal.Abs d2)
    if c < 0 then some q
    else if d.value.sign * d2.value.sign < 0 then some (q.Sub (Decimal.New 1 (-precision)))
    else some (q.Add (Decimal.New 1 (-precision)))

/-- The library default `decimal.DivisionPrecision`. -/
def DivisionPrecision : Int := 16

/-- `d.Div(d2)`. -/
def Decimal.Div (d d2 : Decimal) : Option Decimal := Decimal.DivRound d d2 DivisionPrecision

/-- `d.Truncate(precision)`: digits beyond `precision` decimal places are cut off. -/
def Decimal.Truncate (d : Decimal) (precision : Int) : Decimal :=
  if precision ≥ 0 ∧ -precision > d.exp then d.rescale (-precision) else d

/-- `d.IntPart()`: the integer part as an int64 (`big.Int.Int64` keeps the low
64 bits when the value does not fit). -/
def Decimal.IntPart (d : Decimal) : Int := wrap64 (d.rescale 0).value

/-- The float64 operations that share.go and its collaborators apply to
difficulties and hash rates.  They are a parameter of the embedding: every
general theorem below holds for whatever these operations compute.
`NewFromFloat` is `decimal.NewFromFloat` (it panics on NaN and on infinities),
`Seconds` is `Duration.Seconds`, and `EffectiveHashRate` is the function of that
name of the `difficulty` package, which is not among the source files. -/
structure Float64Ops (F : Type) where
  zero : F
  add : F → F → F
  NewFromFloat : F → Option Decimal
  Seconds : Duration → F
  EffectiveHashRate : Nat → Int → F → F

/-- Modelled from the spec: the constant `AccountingPrecision`, declared outside
the source files; the spec gives the scale of proportions as 8 decimal places. -/
def AccountingPrecision : Int := 8

/-! ## accounting/share.go : shares -/

/-- Share of share.go. -/
structure Share (F : Type) where
  JobID : Int
  Nonce : List Nat
  Difficulty : F
  Target : Nat
  Accepted : Bool
  MinerID : String
  UserID : String
  deriving DecidableEq, Repr

/-- ShareSum of share.go.  Instants are nanoseconds since Go's zero `time.Time`,
so `IsZero` is equality with 0; `Targets` is the array `[20]uint64`. -/
structure ShareSum (F : Type) where
  TotalDifficulty : F
  TotalShares : Int
  FirstShare : Int
  LastShare : Int
  Targets : List Nat
  deriving DecidableEq, Repr

/-- The zero value `new(ShareSum)`. -/
def ShareSum.new {F : Type} (ops : Float64Ops F) : ShareSum F :=
  { TotalDifficulty := ops.zero, TotalShares := 0, FirstShare := 0, LastShare := 0,
    Targets := List.replicate 20 0 }

/-- The loop of Go's `sort.Search`: binary search between `i` and `j`. -/
def sortSearchLoop (f : Nat → Bool) : Nat → Nat → Nat → Nat
  | 0, i, _ => i
  | fuel + 1, i, j =>
    if i < j then
      let h := (i + j) / 2
      if !f h then sortSearchLoop f fuel (h + 1) j else sortSearchLoop f fuel i h
    else i

/-- Go's `sort.Search(n, f)`; a non-positive `n` gives 0. -/
def sortSearch (n : Int) (f : Nat → Bool) : Nat := sortSearchLoop f n.toNat 0 n.toNat

/-- Go's built-in `copy(dst, src)`, as the new contents of `dst`. -/
def goCopy {α : Type} (dst src : List α) : List α :=
  src.take dst.length ++ dst.drop src.length

/-- InsertTarget of share.go, returning the new contents of the array `a`. -/
def InsertTarget (t : Nat) (a : List Nat) (total : Int) : List Nat :=
  let total := if total > 20 then 20 else total
  let index := sortSearch total (fun i => decide (a.getD i 0 < t))
  if index = 20 then a
  else
    let a := a.take (index + 1) ++ goCopy (a.drop (index + 1)) (a.drop index)
    a.set index t

/-- AddShare of ShareSum in share.go; `now1` and `now2` are the two readings of
`time.Now()`. -/
def ShareSum.AddShare {F : Type} (ops : Float64Ops F) (now1 now2 : Int)
    (sum : ShareSum F) (s : Share F) : ShareSum F :=
  let first := if sum.FirstShare = 0 then now1 else sum.FirstShare
  let total := wrap64 (sum.TotalShares + 1)
  { TotalDifficulty := ops.add sum.TotalDifficulty s.Difficulty
    TotalShares := total
    FirstShare := first
    LastShare := now2
    Targets := InsertTarget s.Target sum.Targets total }

/-- One recorded call of AddShare: the two clock readings and the share. -/
structure AddCall (F : Type) where
  now1 : Int
  now2 : Int
  share : Share F

/-- A sequence of AddShare calls applied to a ShareSum, first call first. -/
def ShareSum.addAll {F : Type} (ops : Float64Ops F) (calls : List (AddCall F))
    (sum : ShareSum F) : ShareSum F :=
  calls.foldl (fun acc c => ShareSum.AddShare ops c.now1 c.now2 acc c.share) sum

/-- Insertion of `t` in front of the first entry that is strictly smaller. -/
def insertDesc (t : Nat) : List Nat → List Nat
  | [] => [t]
  | b :: l => if b < t then t :: b :: l else b :: insertDesc t l

/-- ShareMap of share.go.  The Go map `Sums` is an association list with one
entry per key; ranging over the map visits the entries in list order, which
stands for the unspecified order of Go. -/
structure ShareMap (F : Type) where
  Sealed : Bool
  TotalDiff : F
  Sums : List (String × ShareSum F)
  deriving DecidableEq, Repr

/-- NewShareMap of share.go. -/
def NewShareMap {F : Type} (ops : Float64Ops F) : ShareMap F :=
  { Sealed := false, TotalDiff := ops.zero, Sums := [] }

/-- Seal of share.go. -/
def ShareMap.Seal {F : Type} (m : ShareMap F) : ShareMap F := { m with Sealed := true }

/-- The map lookup `m.Sums[key]`. -/
def lookupSum {F : Type} (key : String) : List (String × ShareSum F) → Option (ShareSum F)
  | [] => none
  | (k, v) :: rest => if k = key then some v else lookupSum key rest

/-- The entry of `key` replaced by `f` of it. -/
def updateSum {F : Type} (key : String) (f : ShareSum F → ShareSum F) :
    List (String × ShareSum F) → List (String × ShareSum F)
  | [] => []
  | (k, v) :: rest => if k = key then (k, f v) :: rest else (k, v) :: updateSum key f rest

/-- AddShare of ShareMap in share.go. -/
def ShareMap.AddShare {F : Type} (ops : Float64Ops F) (now1 now2 : Int)
    (m : ShareMap F) (key : String) (s : Share F) : ShareMap F :=
  if m.Sealed then m
  else
    let totalDiff := ops.add m.TotalDiff s.Difficulty
    let sums := if (lookupSum key m.Sums).isNone then m.Sums ++ [(key, ShareSum.new ops)]
      else m.Sums
    { m with
      TotalDiff := totalDiff
      Sums := updateSum key (fun sum => ShareSum.AddShare ops now1 now2 sum s) sums }

/-! ## accounting/share.go : payouts -/

/-- Reward of share.go. -/
structure Reward where
  JobID : Int
  PoolReward : Int
  Winning : Int
  Graded : Int
  deriving DecidableEq, Repr

/-- UserPayout of share.go. -/
structure UserPayout (F : Type) where
  JobID : Int
  UserID : String
  UserDifficuty : F
  TotalSubmissions : Int
  Proportion : Decimal
  Payout : Int
  HashRate : F
  deriving DecidableEq, Repr

/-- Payouts of share.go. -/
structure Payouts (F : Type) where
  Reward : Reward
  PoolFeeRate : Decimal
  PoolFee : Int
  Dust : Int
  PoolDifficuty : F
  TotalHashrate : F
  UserPayouts : List (UserPayout F)
  deriving DecidableEq, Repr

/-- The zero value `new(Payouts)`. -/
def Payouts.new {F : Type} (ops : Float64Ops F) : Payouts F :=
  { Reward := { JobID := 0, PoolReward := 0, Winning := 0, Graded := 0 }
    PoolFeeRate := { value := 0, exp := 0 }
    PoolFee := 0
    Dust := 0
    PoolDifficuty := ops.zero
    TotalHashrate := ops.zero
    UserPayouts := [] }

/-- The function cut of share.go. -/
def cut (total : Int) (prop : Decimal) : Int :=
  let amt := Decimal.New total 0
  let c := amt.Mul prop
  c.IntPart

/-- TakePoolCut of share.go: the updated record and the returned remainder. -/
def Payouts.TakePoolCut {F : Type} (p : Payouts F) (remaining : Int) : Payouts F × Int :=
  if p.PoolFeeRate.IsZero then (p, remaining)
  else
    let p := { p with PoolFee := cut remaining p.PoolFeeRate }
    (p, wrap64 (remaining - p.PoolFee))

/-- The body of the `for ... range work.Sums` loop of Payouts for one entry;
`totalPayout` is the running sum. -/
def Payouts.payoutsStep {F : Type} (ops : Float64Ops F) (remaining : Int)
    (acc : Payouts F × Int) (entry : String × ShareSum F) : Option (Payouts F × Int) :=
  let p := acc.1
  let totalPayout := acc.2
  let user := entry.1
  let work := entry.2
  match ops.NewFromFloat work.TotalDifficulty, ops.NewFromFloat p.PoolDifficuty with
  | some a, some b =>
    match a.Div b with
    | none => none
    | some prop =>
      let prop := prop.Truncate AccountingPrecision
      let last : Int := if work.TotalShares < 20 then work.TotalShares else 20
      if last - 1 < 0 then none
      else
        match work.Targets[(last - 1).toNat]? with
        | none => none
        | some target =>
          let hashrate := ops.EffectiveHashRate target last
            (ops.Seconds (timeSub work.LastShare work.FirstShare))
          let pay : UserPayout F :=
            { JobID := 0
              UserID := user
              UserDifficuty := work.TotalDifficulty
              TotalSubmissions := work.TotalShares
              Proportion := prop
              Payout := cut remaining prop
              HashRate := hashrate }
          let p := { p with UserPayouts := p.UserPayouts ++ [pay] }
          let totalPayout := wrap64 (totalPayout + pay.Payout)
          let p := if timeSub work.LastShare work.FirstShare > twentySeconds
            then { p with TotalHashrate := ops.add p.TotalHashrate pay.HashRate } else p
          some (p, totalPayout)
  | _, _ => none

/-- The `for` loop of Payouts over the entries of `work.Sums`. -/
def Payouts.payoutsLoop {F : Type} (ops : Float64Ops F) (remaining : Int) :
    List (String × ShareSum F) → Payouts F × Int → Option (Payouts F × Int)
  | [], acc => some acc
  | entry :: rest, acc =>
    match Payouts.payoutsStep ops remaining acc entry with
    | none => none
    | some acc => Payouts.payoutsLoop ops remaining rest acc

/-- The method Payouts of share.go. -/
def Payouts.Payouts {F : Type} (ops : Float64Ops F) (p : Payouts F) (work : ShareMap F)
    (remaining : Int) : Option (Payouts F) :=
  let p := { p with PoolDifficuty := work.TotalDiff }
  match Payouts.payoutsLoop ops remaining work.Sums (p, 0) with
  | none => none
  | some (p, totalPayout) => some { p with Dust := wrap64 (remaining - totalPayout) }

/-- NewPayout of share.go. -/
def NewPayout {F : Type} (ops : Float64Ops F) (r : Reward) (poolFeeRate : Decimal)
    (work : ShareMap F) : Option (Payouts F) :=
  let p := Payouts.new ops
  let p := { p with PoolFeeRate := poolFeeRate }
  let p := { p with Reward := r }
  let pr := p.TakePoolCut p.Reward.PoolReward
  Payouts.Payouts ops pr.1 work pr.2

/-! ## Auxiliary definitions for the statements -/

/-- Addition of int64 values as Go computes it. -/
def add64 (a b : Int) : Int := wrap64 (a + b)

/-- The int64 sum of the Payout fields, accumulated left to right. -/
def sumPayouts {F : Type} (l : List (UserPayout F)) : Int :=
  l.foldl (fun acc u => add64 acc u.Payout) 0

/-! ## Concrete data for closed examples -/

/-- Modelled from the spec: `difficulty.EffectiveHashRate`, which is not among
the source files.  The spec describes it as the expected number of trials to
reach the target, times the number of shares, per second, and 0 when no time
has elapsed; this is that description in integer arithmetic. -/
def effectiveHashRateInt (target : Nat) (last : Int) (secs : Int) : Int :=
  if secs = 0 then 0
  else (18446744073709551616 * last) / ((18446744073709551616 - (target : Int)) * secs)

/-- A float64 instance for closed examples: the integers, on which float64
addition is exact below 2^53 in magnitude; `Seconds` counts whole seconds. -/
def intFloat64 : Float64Ops Int :=
  { zero := 0
    add := fun a b => a + b
    NewFromFloat := fun a => some { value := a, exp := 0 }
    Seconds := fun d => d / 1000000000
    EffectiveHashRate := effectiveHashRateInt }

/-- A share of the given user, difficulty and target, with the other fields blank. -/
def mkShare (user : String) (difficulty : Int) (target : Nat) (accepted : Bool) : Share Int :=
  { JobID := 0, Nonce := [], Difficulty := difficulty, Target := target, Accepted := accepted,
    MinerID := "", UserID := user }

/-- The proportion the payout loop computes for one user: the quotient of the
decimal values of the user's and the pool's difficulty, truncated. -/
def userProportion {F : Type} (ops : Float64Ops F) (poolDiff : F) (work : ShareSum F) :
    Option Decimal :=
  match ops.NewFromFloat work.TotalDifficulty, ops.NewFromFloat poolDiff with
  | some a, some b =>
    match a.Div b with
    | none => none
    | some q => some (q.Truncate AccountingPrecision)
  | _, _ => none

/-- How a UserPayout relates to the map entry it was computed from. -/
def PayoutOf {F : Type} (ops : Float64Ops F) (poolDiff : F) (remaining : Int)
    (entry : String × ShareSum F) (pay : UserPayout F) : Prop :=
  userProportion ops poolDiff entry.2 = some pay.Proportion ∧
  pay.Payout = cut remaining pay.Proportion ∧
  pay.UserID = entry.1 ∧
  1 ≤ entry.2.TotalShares

/-- The fee TakePoolCut stores in PoolFee (the field stays 0 for a zero rate). -/
def poolFeeOf (reward : Int) (rate : Decimal) : Int :=
  if rate.IsZero then 0 else cut reward rate

/-- The remainder TakePoolCut returns. -/
def remainingOf (reward : Int) (rate : Decimal) : Int :=
  if rate.IsZero then reward else wrap64 (reward - cut reward rate)

/-- The map built by one share of difficulty 1 for user "A" and one of
difficulty 2 for user "B" (the two-user scenario of the spec). -/
def mapAB : ShareMap Int :=
  ((NewShareMap intFloat64).AddShare intFloat64 1 1 "A" (mkShare "A" 1 7 true)).AddShare
    intFloat64 2 2 "B" (mkShare "B" 2 9 true)

/-- The payouts of `mapAB`, sealed, for a reward of 1000000 at a fee rate of 0.01. -/
def payoutsAB : Payouts Int :=
  { Reward := { JobID := 0, PoolReward := 1000000, Winning := 0, Graded := 0 }
    PoolFeeRate := { value := 1, exp := -2 }
    PoolFee := 10000
    Dust := 2
    PoolDifficuty := 3
    TotalHashrate := 0
    UserPayouts :=
      [{ JobID := 0, UserID := "A", UserDifficuty := 1, TotalSubmissions := 1,
         Proportion := { value := 33333333, exp := -8 }, Payout := 329999, HashRate := 0 },
       { JobID := 0, UserID := "B", UserDifficuty := 2, TotalSubmissions := 1,
         Proportion := { value := 66666666, exp := -8 }, Payout := 659999, HashRate := 0 }] }

/-- A map with the single user "u", whose first and last share are exactly
20 seconds apart. -/
def mapTwentySeconds : ShareMap Int :=
  { Sealed := true
    TotalDiff := 1
    Sums := [("u", { TotalDifficulty := 1, TotalShares := 1, FirstShare := 1,
                     LastShare := 20000000001,
                     Targets := 18446744073709551615 :: List.replicate 19 0 })] }

/-- The payouts of `mapTwentySeconds` for a reward of 1000 and no fee: the
user's hash rate is recorded, TotalHashrate stays 0. -/
def payoutsTwentySeconds : Payouts Int :=
  { Reward := { JobID := 0, PoolReward := 1000, Winning := 0, Graded := 0 }
    PoolFeeRate := { value := 0, exp := 0 }
    PoolFee := 0
    Dust := 0
    PoolDifficuty := 1
    TotalHashrate := 0
    UserPayouts :=
      [{ JobID := 0, UserID := "u", UserDifficuty := 1, TotalSubmissions := 1,
         Proportion := { value := 100000000, exp := -8 }, Payout := 1000,
         HashRate := 922337203685477580 }] }

/-- Thirty AddShare calls with the targets 1, 2, ..., 30 in this order. -/
def calls30 : List (AddCall Int) :=
  (List.range 30).map (fun i => { now1 := 1, now2 := 1, share := mkShare "u" 1 (i + 1) true })

/-- The ShareSum after the calls of `calls30` on a zero ShareSum. -/
def sum30 : ShareSum Int := ShareSum.addAll intFloat64 calls30 (ShareSum.new intFloat64)

/-- The rational number a Decimal stands for. -/
def Decimal.toRat (d : Decimal) : ℚ := (d.value : ℚ) * (10 : ℚ) ^ d.exp

/-- The decimal value of a float64 as `NewFromFloat` gives it (0 where it panics). -/
def decimalValue {F : Type} (ops : Float64Ops F) (x : F) : ℚ :=
  match ops.NewFromFloat x with
  | some d => d.toRat
  | none => 0

/-- The payouts of `mapAB`, sealed, for a reward of 300 and no fee. -/
def payoutsAB300 : Payouts Int :=
  { Reward := { JobID := 0, PoolReward := 300, Winning := 0, Graded := 0 }
    PoolFeeRate := { value := 0, exp := 0 }
    PoolFee := 0
    Dust := 2
    PoolDifficuty := 3
    TotalHashrate := 0
    UserPayouts :=
      [{ JobID := 0, UserID := "A", UserDifficuty := 1, TotalSubmissions := 1,
         Proportion := { value := 33333333, exp := -8 }, Payout := 99, HashRate := 0 },
       { JobID := 0, UserID := "B", UserDifficuty := 2, TotalSubmissions := 1,
         Proportion := { value := 66666666, exp := -8 }, Payout := 199, HashRate := 0 }] }

/-- The counter of NextNonce read from its last byte backwards: add one to the
first byte, and on a wrap to zero carry into the next; a carry past the end
appends a byte 1. -/
def incLE : List Nat → List Nat
  | [] => [1]
  | d :: ds => if (d + 1) % 256 = 0 then 0 :: incLE ds else (d + 1) % 256 :: ds

/-- The counter after `n` increments of the initial counter `[0]`, last byte first. -/
def counterLE : Nat → List Nat
  | 0 => [0]
  | n + 1 => incLE (counterLE n)

/-! ## mining/miner.go : commands, the miner and the difficulty -/

/-- The command tags of miner.go (`iota` starting after the blank 0). -/
def BatchCommand : Int := 1

/-- Tag 2 of the command enumeration. -/
def NewNoncePrefix : Int := 2

/-- Tag 3 of the command enumeration. -/
def NewOPRHash : Int := 3

/-- Tag 4 of the command enumeration. -/
def ResetRecords : Int := 4

/-- Tag 5 of the command enumeration. -/
def MinimumAccept : Int := 5

/-- Tag 6 of the command enumeration. -/
def SubmitStats : Int := 6

/-- Tag 7 of the command enumeration. -/
def PauseMining : Int := 7

/-- Tag 8 of the command enumeration. -/
def ResumeMining : Int := 8

/-- The state in which a `select` statement with a send case finds the
channel: the nil channel (a send on it never proceeds), a closed channel (a
send on it panics), an open channel with room in its buffer or a receiver
waiting (the send proceeds), or an open channel on which a send would block. -/
inductive ChanState : Type
  | nilChan
  | closed
  | ready
  | blocked
  deriving DecidableEq, Repr

mutual
/-- MinerCommand of miner.go: a tag and a dynamically typed payload. -/
inductive MinerCommand : Type
  | mk (Command : Int) (Data : Payload)
/-- The dynamic value of `Data interface{}`: the nil interface, a value of one
of the types HandleCommand asserts, or a value of any other type.  A channel
of `*SingleMinerStats` is given by a number that identifies it and by the state
in which the command that carries it finds it. -/
inductive Payload : Type
  | nil
  | uint32 (v : Nat)
  | uint64 (v : Nat)
  | bytes (b : List Nat)
  | commands (cs : CommandSlice)
  | statsChan (ch : Nat) (st : ChanState)
  | other (tag : Nat)
/-- A slice `[]*MinerCommand`; `consNil` is an element that is the nil pointer. -/
inductive CommandSlice : Type
  | empty
  | cons (c : MinerCommand) (rest : CommandSlice)
  | consNil (rest : CommandSlice)
end

/-- The elements of a command slice, `none` for a nil pointer. -/
def CommandSlice.toList : CommandSlice → List (Option MinerCommand)
  | .empty => []
  | .cons c rest => some c :: rest.toList
  | .consNil rest => none :: rest.toList

/-- Winner of miner.go. -/
structure Winner where
  OPRHash : String
  Nonce : String
  Target : String
  deriving DecidableEq, Repr

/-- Modelled from the spec: the type `SingleMinerStats`, declared outside the
source files; the spec lists its running counters `total_hashes`,
`total_submissions`, `best_difficulty` and the instants `start` and `stop`. -/
structure SingleMinerStats where
  ID : Nat
  TotalHashes : Nat
  TotalSubmissions : Nat
  BestDifficulty : Nat
  Start : Int
  Stop : Int
  deriving DecidableEq, Repr

/-- Modelled from the spec: `NewSingleMinerStats`, declared outside the source
files; a fresh stats block for the given miner with all counters at zero. -/
def NewSingleMinerStats (id : Nat) : SingleMinerStats :=
  { ID := id, TotalHashes := 0, TotalSubmissions := 0, BestDifficulty := 0, Start := 0, Stop := 0 }

/-- Modelled from the spec: the method `NewDifficulty` of SingleMinerStats,
declared outside the source files: `best_difficulty = max(best, diff)`. -/
def SingleMinerStats.NewDifficulty (s : SingleMinerStats) (diff : Nat) : SingleMinerStats :=
  if diff > s.BestDifficulty then { s with BestDifficulty := diff } else s

/-- The struct oprMiningState of miner.go.  The two pointer fields hold what
they point to: NewPegnetMiner sets both, and no statement of miner.go sets
either of them to nil. -/
structure oprMiningState where
  oprhash : List Nat
  NonceIncrementer : NonceIncrementer
  stats : SingleMinerStats
  minimumDifficulty : Nat
  deriving DecidableEq, Repr

/-- PegnetMiner of miner.go, without its two channel endpoints: what the miner
sends is returned by the functions below. -/
structure PegnetMiner where
  ID : Nat
  PersonalID : Nat
  MiningState : oprMiningState
  paused : Bool
  deriving DecidableEq, Repr

/-- ResetNonce of miner.go. -/
def PegnetMiner.ResetNonce (p : PegnetMiner) : PegnetMiner :=
  { p with MiningState :=
      { p.MiningState with NonceIncrementer := NewNonceIncrementer p.ID p.PersonalID } }

/-- NewPegnetMiner of miner.go. -/
def NewPegnetMiner (id : Nat) : PegnetMiner :=
  let p : PegnetMiner :=
    { ID := id
      PersonalID := id
      MiningState :=
        { oprhash := []
          NonceIncrementer := NewNonceIncrementer id id
          stats := NewSingleMinerStats 0
          minimumDifficulty := 0 }
      paused := false }
  let p := p.ResetNonce
  { p with MiningState := { p.MiningState with stats := NewSingleMinerStats p.PersonalID } }

/-- The miner together with what its commands read and write outside it: the
number of `time.Now()` readings taken so far, and the stats blocks that
SubmitStats has sent on reply channels (newest last). -/
structure MinerWorld where
  miner : PegnetMiner
  clock : Nat
  offered : List (Nat × SingleMinerStats)
  deriving DecidableEq, Repr

/-- The statement `select { case w <- v: default: }` of the SubmitStats case,
on a channel `ch` found in state `st`: the list of values sent afterwards, or
the panic of a send on a closed channel. -/
def selectSend (st : ChanState) (ch : Nat) (v : SingleMinerStats)
    (sent : List (Nat × SingleMinerStats)) : Option (List (Nat × SingleMinerStats)) :=
  match st with
  | .closed => none
  | .ready => some (sent ++ [(ch, v)])
  | .nilChan => some sent
  | .blocked => some sent

mutual
/-- HandleCommand of miner.go; `now k` is the k-th reading of the clock.  A
failed type assertion on `Data` is a panic, and so is a send on a closed
channel. -/
def PegnetMiner.HandleCommand (now : Nat → Int) : MinerWorld → MinerCommand → Option MinerWorld
  | w, .mk tag data =>
    if tag = BatchCommand then
      match data with
      | .commands cs => PegnetMiner.handleAll now w cs
      | _ => none
    else if tag = NewNoncePrefix then
      match data with
      | .uint32 v => some { w with miner := ({ w.miner with ID := v } : PegnetMiner).ResetNonce }
      | _ => none
    else if tag = NewOPRHash then
      match data with
      | .bytes b =>
        some { w with miner :=
          { w.miner with MiningState := { w.miner.MiningState with oprhash := b } } }
      | _ => none
    else if tag = ResetRecords then
      let p := w.miner.ResetNonce
      let stats := NewSingleMinerStats p.PersonalID
      let stats := { stats with Start := now w.clock }
      some { w with
        miner := { p with MiningState := { p.MiningState with stats := stats } }
        clock := w.clock + 1 }
    else if tag = SubmitStats then
      let stats := { w.miner.MiningState.stats with Stop := now w.clock }
      let p : PegnetMiner :=
        { w.miner with MiningState := { w.miner.MiningState with stats := stats } }
      match data with
      | .statsChan ch st =>
        match selectSend st ch stats w.offered with
        | some sent => some { miner := p, clock := w.clock + 1, offered := sent }
        | none => none
      | _ => none
    else if tag = MinimumAccept then
      match data with
      | .uint64 v =>
        some { w with miner :=
          { w.miner with MiningState := { w.miner.MiningState with minimumDifficulty := v } } }
      | _ => none
    else if tag = PauseMining then
      some { w with miner := { w.miner with paused := true } }
    else if tag = ResumeMining then
      some { w with miner := { w.miner with paused := false } }
    else some w
/-- The loop `for _, c := range commands { p.HandleCommand(c) }`. -/
def PegnetMiner.handleAll (now : Nat → Int) : MinerWorld → CommandSlice → Option MinerWorld
  | w, .empty => some w
  | w, .cons c rest =>
    match PegnetMiner.HandleCommand now w c with
    | none => none
    | some w2 => PegnetMiner.handleAll now w2 rest
  | _, .consNil _ => none
end

/-- One element of a batch applied: a nil pointer panics. -/
def PegnetMiner.handleElem (now : Nat → Int) (w : MinerWorld) :
    Option MinerCommand → Option MinerWorld
  | none => none
  | some c => PegnetMiner.HandleCommand now w c

mutual
/-- The payload has the dynamic type that HandleCommand asserts for the tag
(any payload for a tag that asserts none) and, for SubmitStats, the channel is
not closed; also inside batches. -/
def MinerCommand.wellFormed : MinerCommand → Bool
  | .mk tag data =>
    if tag = BatchCommand then
      match data with
      | .commands cs => cs.wellFormed
      | _ => false
    else if tag = NewNoncePrefix then
      match data with
      | .uint32 _ => true
      | _ => false
    else if tag = NewOPRHash then
      match data with
      | .bytes _ => true
      | _ => false
    else if tag = SubmitStats then
      match data with
      | .statsChan _ st => decide (st ≠ ChanState.closed)
      | _ => false
    else if tag = MinimumAccept then
      match data with
      | .uint64 _ => true
      | _ => false
    else true
/-- Every element is a non-nil, well-typed command. -/
def CommandSlice.wellFormed : CommandSlice → Bool
  | .empty => true
  | .cons c rest => c.wellFormed && rest.wellFormed
  | .consNil _ => false
end

/-- The elements of a command slice with every nested batch replaced, in
place, by its own elements (recursively). -/
def CommandSlice.flatten : CommandSlice → List (Option MinerCommand)
  | .empty => []
  | .cons (.mk tag (.commands inner)) rest =>
    if tag = BatchCommand then inner.flatten ++ rest.flatten
    else some (.mk tag (.commands inner)) :: rest.flatten
  | .cons c rest => some c :: rest.flatten
  | .consNil rest => none :: rest.flatten

/-- The batch of the spec's reconfiguration sequence: new nonce prefix 7, new
OPR hash, reset records, minimum difficulty 0, resume. -/
def exampleBatch : MinerCommand :=
  .mk BatchCommand (.commands
    (.cons (.mk NewNoncePrefix (.uint32 7))
    (.cons (.mk NewOPRHash (.bytes [1, 2]))
    (.cons (.mk ResetRecords .nil)
    (.cons (.mk MinimumAccept (.uint64 0))
    (.cons (.mk ResumeMining .nil) .empty))))))

/-- The world of a miner fresh from NewPegnetMiner(3): no clock reading taken,
nothing sent. -/
def exampleWorld : MinerWorld := { miner := NewPegnetMiner 3, clock := 0, offered := [] }

/-- The shift `x << k` on a uint64. -/
def shl64 (x k : Nat) : Nat := (x <<< k) % 18446744073709551616

/-- The return expression of ComputeDifficulty on the hash `b`:
`uint64(b[7]) | uint64(b[6])<<8 | ... | uint64(b[0])<<56`; an index beyond the
hash is a panic. -/
def highEight (b : List Nat) : Option Nat :=
  match b[7]?, b[6]?, b[5]?, b[4]?, b[3]?, b[2]?, b[1]?, b[0]? with
  | some b7, some b6, some b5, some b4, some b3, some b2, some b1, some b0 =>
    some (b7 ||| shl64 b6 8 ||| shl64 b5 16 ||| shl64 b4 24 |||
      shl64 b3 32 ||| shl64 b2 40 ||| shl64 b1 48 ||| shl64 b0 56)
  | _, _, _, _, _, _, _, _ => none

/-- ComputeDifficulty of miner.go; `H` is the hash `LX.Hash`, a parameter.  The
buffer `no` is filled by the two `copy` calls. -/
def ComputeDifficulty (H : List Nat → List Nat) (oprhash nonce : List Nat) : Option Nat :=
  let no := List.replicate (oprhash.length + nonce.length) 0
  let i := min no.length oprhash.length
  let no := goCopy no oprhash
  let no := no.take i ++ goCopy (no.drop i) nonce
  let b := H no
  highEight b

/-- The characters of Go's `hex.EncodeToString`: two lowercase hex digits a byte. -/
def hexChars : List Nat → List Char
  | [] => []
  | x :: xs => Nat.digitChar (x / 16) :: Nat.digitChar (x % 16) :: hexChars xs

/-- Go's `hex.EncodeToString`. -/
def hexEncodeToString (b : List Nat) : String := String.mk (hexChars b)

/-- Go's `fmt.Sprintf("%x", v)` for a uint64: lowercase hex without leading zeros. -/
def sprintfHex (v : Nat) : String := String.mk (Nat.toDigits 16 v)

/-- One round of the `for` loop of Mine after the command check: with an empty
oprhash the miner pauses; a paused miner hashes nothing (it waits for a resume
command); otherwise the nonce advances, the difficulty is computed and counted,
and a Winner is sent when it exceeds the minimum.  The second component is the
Winner sent on `successes`, if any. -/
def PegnetMiner.mineIteration (H : List Nat → List Nat) (p : PegnetMiner) :
    Option (PegnetMiner × Option Winner) :=
  let p := if p.MiningState.oprhash.length = 0 then { p with paused := true } else p
  if p.paused then some (p, none)
  else
    match p.MiningState.NonceIncrementer.NextNonce with
    | none => none
    | some inc =>
      match ComputeDifficulty H p.MiningState.oprhash inc.Nonce with
      | none => none
      | some diff =>
        let stats := { p.MiningState.stats with
          TotalHashes := p.MiningState.stats.TotalHashes + 1 }
        let stats := stats.NewDifficulty diff
        if diff > p.MiningState.minimumDifficulty then
          let success : Winner :=
            { OPRHash := hexEncodeToString p.MiningState.oprhash
              Nonce := hexEncodeToString inc.Nonce
              Target := sprintfHex diff }
          let stats := { stats with TotalSubmissions := stats.TotalSubmissions + 1 }
          some ({ p with MiningState :=
                    { p.MiningState with NonceIncrementer := inc, stats := stats } },
                some success)
        else
          some ({ p with MiningState :=
                    { p.MiningState with NonceIncrementer := inc, stats := stats } },
                none)

/-- A stand-in hash for closed examples: the first eight bytes of the input
followed by zeros (it returns 32 bytes). -/
def exampleHash (no : List Nat) : List Nat := (no ++ List.replicate 32 0).take 32

/-- A miner with oprhash [171, 205], nonce prefix 0 0 0 1 1, counter 255,
minimum difficulty 5 and 10 hashes counted so far. -/
def exampleMiner : PegnetMiner :=
  { ID := 1
    PersonalID := 1
    MiningState :=
      { oprhash := [171, 205]
        NonceIncrementer := { Nonce := [0, 0, 0, 1, 1, 255], lastNonceByte := 1,
                              lastPrefixByte := 4 }
        stats := { ID := 1, TotalHashes := 10, TotalSubmissions := 2, BestDifficulty := 7,
                   Start := 0, Stop := 0 }
        minimumDifficulty := 5 }
    paused := false }

/-- InsertSorted of share.go.  The slice expression `s[i+1:]` panics when
`i + 1` exceeds the length of `s`; the later store `s[i] = e` is then in range. -/
def InsertSorted (s : List Int) (e : Int) : Option (List Int) :=
  let s := s ++ [0]
  let i := sortSearch (s.length : Int) (fun i => decide (s.getD i 0 > e))
  if i + 1 > s.length then none
  else
    let s := s.take (i + 1) ++ goCopy (s.drop (i + 1)) (s.drop i)
    some (s.set i e)

/-- One call on a ShareMap: AddShare with its two clock readings, or Seal. -/
inductive MapOp (F : Type) where
  | add (now1 now2 : Int) (key : String) (s : Share F)
  | sealOp

/-- The effect of one call on the map. -/
def ShareMap.apply {F : Type} (ops : Float64Ops F) (m : ShareMap F) : MapOp F → ShareMap F
  | .add now1 now2 key s => m.AddShare ops now1 now2 key s
  | .sealOp => m.Seal

/-- The map built from NewShareMap by a sequence of calls, first call first. -/
def ShareMap.run {F : Type} (ops : Float64Ops F) (l : List (MapOp F)) : ShareMap F :=
  l.foldl (ShareMap.apply ops) (NewShareMap ops)

/-- The AddShare calls under `key` that come before the first Seal. -/
def callsFor {F : Type} (key : String) : List (MapOp F) → List (AddCall F)
  | [] => []
  | .sealOp :: _ => []
  | .add now1 now2 k s :: rest =>
    if k = key then { now1 := now1, now2 := now2, share := s } :: callsFor key rest
    else callsFor key rest

/-- Calls on two users around a Seal: "A", "B", "A", Seal, "A". -/
def exampleOps : List (MapOp Int) :=
  [.add 1 1 "A" (mkShare "A" 1 7 true), .add 2 2 "B" (mkShare "B" 2 9 true),
   .add 3 3 "A" (mkShare "A" 4 8 true), .sealOp, .add 5 5 "A" (mkShare "A" 1 3 true)]

/-- The entry of user "A" after `exampleOps`. -/
def exampleSumA : ShareSum Int :=
  { TotalDifficulty := 5, TotalShares := 2, FirstShare := 1, LastShare := 3,
    Targets := 8 :: 7 :: List.replicate 18 0 }

/-- The entry of user "B" after `exampleOps`. -/
def exampleSumB : ShareSum Int :=
  { TotalDifficulty := 2, TotalShares := 1, FirstShare := 2, LastShare := 2,
    Targets := 9 :: List.replicate 19 0 }

/-- The smallest positive normal float64, 2^-1022. -/
def minNormal : ℚ := 1 / 2 ^ 1022

/-- The facts about float64 on which the bounds on payouts rest, for a reading
`val` of the floats as numbers: `val x` is the real number that `x` stands
for, with 2^1024 for +Inf and a negative number for -Inf and NaN.  Addition is
IEEE 754 addition rounded to nearest, which is monotone and never rounds a sum
of non-negative terms below either term; and `decimal.NewFromFloat` yields the
shortest decimal that parses back to the same float, which for a normal float
lies within half a unit in the last place, hence within `x / 2^53`, of `x`. -/
structure Float64Sound {F : Type} (ops : Float64Ops F) (val : F → ℚ) : Prop where
  zero_val : val ops.zero = 0
  add_ge : ∀ a b, 0 ≤ val a → 0 ≤ val b →
    val a ≤ val (ops.add a b) ∧ val b ≤ val (ops.add a b)
  add_mono : ∀ a a2 b, 0 ≤ val a → val a ≤ val a2 → 0 ≤ val b →
    val (ops.add a b) ≤ val (ops.add a2 b)
  decimal_close : ∀ x d, minNormal ≤ val x → ops.NewFromFloat x = some d →
    |d.toRat - val x| * 2 ^ 53 ≤ val x

/-- The shares passed to AddShare in a sequence of calls. -/
def sharesOf {F : Type} : List (MapOp F) → List (Share F)
  | [] => []
  | .sealOp :: rest => sharesOf rest
  | .add _ _ _ s :: rest => s :: sharesOf rest

/-- The totals of a map read as numbers: TotalDiff is non-negative, and every
user's TotalDifficulty is a normal positive number that is at most TotalDiff. -/
def ShareMap.totalsOrdered {F : Type} (val : F → ℚ) (m : ShareMap F) : Prop :=
  0 ≤ val m.TotalDiff ∧
  ∀ k sum, lookupSum k m.Sums = some sum →
    minNormal ≤ val sum.TotalDifficulty ∧ val sum.TotalDifficulty ≤ val m.TotalDiff

/-- The calls that build `mapAB` and seal it. -/
def opsAB : List (MapOp Int) :=
  [.add 1 1 "A" (mkShare "A" 1 7 true), .add 2 2 "B" (mkShare "B" 2 9 true), .sealOp]

/-! ## Theorems -/

/-! ### The nonce incrementer -/

theorem PutUint32_length (v : Nat) : (PutUint32 v).length = 4 := rfl

theorem noncePrefixBytes_length (id pid : Nat) : (noncePrefixBytes id pid).length = 5 := rfl

theorem PutUint32_injective (a b : Nat) (ha : a < 4294967296) (hb : b < 4294967296)
    (h : PutUint32 a = PutUint32 b) : a = b := by
  simp only [PutUint32, List.cons.injEq, and_true] at h
  omega

theorem getD_set_self (l : List Nat) (i v : Nat) (h : i < l.length) :
    (l.set i v).getD i 0 = v := by
  simp [List.getD_eq_getElem?_getD, h]

theorem set_ne_nil (l : List Nat) (i v : Nat) (h : 0 < l.length) : l.set i v ≠ [] := by
  intro hnil
  have hlen := congrArg List.length hnil
  rw [List.length_set, List.length_nil] at hlen
  omega

/-- The loop body when the incremented byte does not wrap. -/
theorem nextLoop_nowrap (lpb : Int) (nonce : List Nat) (idx : Nat) (h : idx < nonce.length)
    (hv : (nonce.getD idx 0 + 1) % 256 ≠ 0) :
    NonceIncrementer.nextLoop lpb nonce idx
      = some (nonce.set idx ((nonce.getD idx 0 + 1) % 256)) := by
  unfold NonceIncrementer.nextLoop
  simp only [h, if_true, getD_set_self _ _ _ h, hv, if_false]

/-- The loop body when the byte wraps and the index reaches the prefix. -/
theorem nextLoop_grow (lpb : Int) (nonce : List Nat) (idx : Nat) (h : idx < nonce.length)
    (hv : (nonce.getD idx 0 + 1) % 256 = 0) (hl : (idx : Int) - 1 = lpb) :
    NonceIncrementer.nextLoop lpb nonce idx
      = some ((nonce.set idx 0).take (lpb + 1).toNat
          ++ ([1] ++ (nonce.set idx 0).drop (lpb + 1).toNat)) := by
  unfold NonceIncrementer.nextLoop
  simp only [h, if_true, getD_set_self _ _ _ h, hv, hl]

/-- The loop body when the byte wraps and the carry moves one byte to the left. -/
theorem nextLoop_carry (lpb : Int) (nonce : List Nat) (j : Nat) (h : j + 1 < nonce.length)
    (hv : (nonce.getD (j + 1) 0 + 1) % 256 = 0) (hl : ((j + 1 : Nat) : Int) - 1 ≠ lpb) :
    NonceIncrementer.nextLoop lpb nonce (j + 1)
      = NonceIncrementer.nextLoop lpb (nonce.set (j + 1) 0) j := by
  rw [NonceIncrementer.nextLoop]
  simp only [h, if_true, getD_set_self _ _ _ h, hv, hl, if_false]

/-- One run of the loop on `p ++ ctr`, started inside the counter region, keeps
the five bytes `p` and leaves a non-empty counter region. -/
theorem nextLoop_keeps (p : List Nat) (hp : p.length = 5) :
    ∀ (j : Nat) (ctr : List Nat), j < ctr.length →
      ∃ ctr2, ctr2 ≠ [] ∧
        NonceIncrementer.nextLoop 4 (p ++ ctr) (5 + j) = some (p ++ ctr2) := by
  intro j
  induction j with
  | zero =>
    intro ctr hj
    have hlt : 5 + 0 < (p ++ ctr).length := by simp [hp]; omega
    have hset : ∀ v, (p ++ ctr).set (5 + 0) v = p ++ ctr.set 0 v := by
      intro v
      rw [List.set_append_right _ _ (by omega)]
      simp [hp]
    have hne : ∀ v, ctr.set 0 v ≠ [] := fun v => set_ne_nil ctr 0 v hj
    by_cases hv : ((p ++ ctr).getD (5 + 0) 0 + 1) % 256 = 0
    · rw [nextLoop_grow _ _ _ hlt hv (by norm_num), hset]
      refine ⟨1 :: ctr.set 0 0, by simp, ?_⟩
      have h5 : ((4 : Int) + 1).toNat = 5 := rfl
      rw [h5, List.take_left' hp, List.drop_left' hp]
      rfl
    · rw [nextLoop_nowrap _ _ _ hlt hv, hset]
      exact ⟨_, hne _, rfl⟩
  | succ j ih =>
    intro ctr hj
    have hlt : 5 + (j + 1) < (p ++ ctr).length := by simp [hp]; omega
    have hset : ∀ v, (p ++ ctr).set (5 + (j + 1)) v = p ++ ctr.set (j + 1) v := by
      intro v
      rw [List.set_append_right _ _ (by omega)]
      simp [hp]
    by_cases hv : ((p ++ ctr).getD (5 + (j + 1)) 0 + 1) % 256 = 0
    · have h56 : 5 + (j + 1) = (5 + j) + 1 := by omega
      rw [h56] at hlt hv hset ⊢
      rw [nextLoop_carry _ _ _ hlt hv (by push_cast; omega), hset]
      exact ih _ (by simp; omega)
    · rw [nextLoop_nowrap _ _ _ hlt hv, hset]
      exact ⟨_, set_ne_nil ctr (j + 1) _ (by omega), rfl⟩

/-- Invariant of every incrementer reachable from NewNonceIncrementer. -/
theorem iterate_shape (id pid : Nat) (n : Nat) :
    ∃ ctr, ctr ≠ [] ∧
      NonceIncrementer.iterate n (NewNonceIncrementer id pid)
        = some { Nonce := noncePrefixBytes id pid ++ ctr, lastNonceByte := 1,
                 lastPrefixByte := 4 } := by
  induction n with
  | zero => exact ⟨[0], by simp, rfl⟩
  | succ n ih =>
    obtain ⟨ctr, hne, hs⟩ := ih
    have hlen : 0 < ctr.length := List.length_pos.mpr hne
    obtain ⟨ctr2, hne2, h2⟩ :=
      nextLoop_keeps (noncePrefixBytes id pid) rfl (ctr.length - 1) ctr (by omega)
    refine ⟨ctr2, hne2, ?_⟩
    simp only [NonceIncrementer.iterate, hs, NonceIncrementer.NextNonce]
    have hidx : (((noncePrefixBytes id pid ++ ctr).length : Int) - 1).toNat
        = 5 + (ctr.length - 1) := by
      simp [noncePrefixBytes_length]
      omega
    have hnn : ¬ (((noncePrefixBytes id pid ++ ctr).length : Int) - 1 < 0) := by
      simp [noncePrefixBytes_length]
      omega
    simp only [hnn, if_false, hidx, h2]

theorem noncePrefixBytes_injective (id1 pid1 id2 pid2 : Nat)
    (h1 : id1 < 4294967296) (h2 : id2 < 4294967296)
    (h : noncePrefixBytes id1 pid1 = noncePrefixBytes id2 pid2) :
    id1 = id2 ∧ pid1 % 256 = pid2 % 256 := by
  simp only [noncePrefixBytes, PutUint32, List.cons_append, List.nil_append,
    List.cons.injEq, and_true] at h
  omega

/-- A list that extends `p ++ c` starts with the same `p.length` elements. -/
theorem take_of_append_isPrefix (p q c d : List Nat) (hlen : p.length = q.length)
    (h : p ++ c <+: q ++ d) : p = q := by
  obtain ⟨t, ht⟩ := h
  have h1 : (p ++ c ++ t).take p.length = p := by
    rw [List.append_assoc]
    exact List.take_left' rfl
  have h2 : (q ++ d).take p.length = q := List.take_left' hlen.symm
  rw [ht] at h1
  rw [← h1, h2]

/-- C3 (nonce incrementer, prefix invariant): for every pool id, personal id and
every number `n` of NextNonce calls on a fresh incrementer, the calls all return
and bytes 0..4 of the nonce are still the big-endian pool id followed by
`personal_id & 0xFF`. -/
theorem C3_prefix_never_mutates (id pid n : Nat) :
    ∃ s, NonceIncrementer.iterate n (NewNonceIncrementer id pid) = some s ∧
      s.Nonce.take 5
        = [id / 16777216 % 256, id / 65536 % 256, id / 256 % 256, id % 256, pid % 256] := by
  obtain ⟨ctr, _, hs⟩ := iterate_shape id pid n
  refine ⟨_, hs, ?_⟩
  show (noncePrefixBytes id pid ++ ctr).take 5 = _
  rw [List.take_left' (noncePrefixBytes_length id pid)]
  rfl

/-- C2 (counterexample): the pairs (1, 1) and (1, 257) are distinct, yet after one
NextNonce each both incrementers hold the same nonce, because only the low byte
of the personal id enters the nonce. -/
theorem C2_counterexample :
    ((1 : Nat), (1 : Nat)) ≠ (1, 257) ∧
    (NonceIncrementer.iterate 1 (NewNonceIncrementer 1 1)).map (fun s => s.Nonce)
      = some [0, 0, 0, 1, 1, 1] ∧
    (NonceIncrementer.iterate 1 (NewNonceIncrementer 1 257)).map (fun s => s.Nonce)
      = some [0, 0, 0, 1, 1, 1] := by
  decide

/-- C2 (amended): two incrementers whose pool ids (uint32) differ, or whose
personal ids differ modulo 256, never hold equal nonces, and neither nonce is a
leading segment of the other, after any numbers `m`, `n` of NextNonce calls. -/
theorem C2_nonces_disjoint (id1 pid1 id2 pid2 : Nat)
    (h1 : id1 < 4294967296) (h2 : id2 < 4294967296)
    (hne : (id1, pid1 % 256) ≠ (id2, pid2 % 256)) (m n : Nat) :
    ∃ a b, NonceIncrementer.iterate m (NewNonceIncrementer id1 pid1) = some a ∧
      NonceIncrementer.iterate n (NewNonceIncrementer id2 pid2) = some b ∧
      a.Nonce ≠ b.Nonce ∧ ¬ (a.Nonce <+: b.Nonce) ∧ ¬ (b.Nonce <+: a.Nonce) := by
  obtain ⟨c1, _, hs1⟩ := iterate_shape id1 pid1 m
  obtain ⟨c2, _, hs2⟩ := iterate_shape id2 pid2 n
  have hP : noncePrefixBytes id1 pid1 ≠ noncePrefixBytes id2 pid2 := by
    intro h
    obtain ⟨e1, e2⟩ := noncePrefixBytes_injective id1 pid1 id2 pid2 h1 h2 h
    exact hne (by rw [e1, e2])
  have hlen : (noncePrefixBytes id1 pid1).length = (noncePrefixBytes id2 pid2).length := rfl
  have hA : ¬ (noncePrefixBytes id1 pid1 ++ c1 <+: noncePrefixBytes id2 pid2 ++ c2) :=
    fun h => hP (take_of_append_isPrefix _ _ _ _ hlen h)
  have hB : ¬ (noncePrefixBytes id2 pid2 ++ c2 <+: noncePrefixBytes id1 pid1 ++ c1) :=
    fun h => hP (take_of_append_isPrefix _ _ _ _ hlen.symm h).symm
  refine ⟨_, _, hs1, hs2, ?_, hA, hB⟩
  intro heq
  apply hA
  show noncePrefixBytes id1 pid1 ++ c1 <+: noncePrefixBytes id2 pid2 ++ c2
  have heq2 : noncePrefixBytes id1 pid1 ++ c1 = noncePrefixBytes id2 pid2 ++ c2 := heq
  rw [heq2]

theorem C2_nonces_disjoint_witness :
    ∃ a b, NonceIncrementer.iterate 300 (NewNonceIncrementer 1 1) = some a ∧
      NonceIncrementer.iterate 300 (NewNonceIncrementer 1 2) = some b ∧
      a.Nonce ≠ b.Nonce ∧ ¬ (a.Nonce <+: b.Nonce) ∧ ¬ (b.Nonce <+: a.Nonce) :=
  C2_nonces_disjoint 1 1 1 2 (by decide) (by decide) (by decide) 300 300

/-! ### The payout loop, step by step -/

/-- What one successful round of the payout loop did. -/
theorem payoutsStep_inv {F : Type} (ops : Float64Ops F) (remaining : Int)
    (p : Payouts F) (t : Int) (user : String) (work : ShareSum F)
    (p2 : Payouts F) (t2 : Int)
    (h : Payouts.payoutsStep ops remaining (p, t) (user, work) = some (p2, t2)) :
    ∃ a b q target,
      ops.NewFromFloat work.TotalDifficulty = some a ∧
      ops.NewFromFloat p.PoolDifficuty = some b ∧
      a.Div b = some q ∧
      1 ≤ work.TotalShares ∧
      work.Targets[((if work.TotalShares < 20 then work.TotalShares else 20) - 1).toNat]?
        = some target ∧
      p2 = { p with
        UserPayouts := p.UserPayouts ++
          [{ JobID := 0
             UserID := user
             UserDifficuty := work.TotalDifficulty
             TotalSubmissions := work.TotalShares
             Proportion := q.Truncate AccountingPrecision
             Payout := cut remaining (q.Truncate AccountingPrecision)
             HashRate := ops.EffectiveHashRate target
               (if work.TotalShares < 20 then work.TotalShares else 20)
               (ops.Seconds (timeSub work.LastShare work.FirstShare)) }]
        TotalHashrate :=
          if timeSub work.LastShare work.FirstShare > twentySeconds then
            ops.add p.TotalHashrate (ops.EffectiveHashRate target
               (if work.TotalShares < 20 then work.TotalShares else 20)
               (ops.Seconds (timeSub work.LastShare work.FirstShare)))
          else p.TotalHashrate } ∧
      t2 = wrap64 (t + cut remaining (q.Truncate AccountingPrecision)) := by
  unfold Payouts.payoutsStep at h
  simp only at h
  generalize hlast_def : (if work.TotalShares < 20 then work.TotalShares else 20) = last
    at h ⊢
  split at h
  · rename_i a b ha hb
    split at h
    · exact absurd h (by simp)
    · rename_i q hq
      split at h
      · exact absurd h (by simp)
      · rename_i hlast
        split at h
        · exact absurd h (by simp)
        · rename_i target htarget
          refine ⟨a, b, q, target, ha, hb, hq, ?_, htarget, ?_, ?_⟩
          · split at hlast_def <;> omega
          · simp only [Option.some.injEq, Prod.mk.injEq] at h
            rw [← h.1]
            split <;> rfl
          · simp only [Option.some.injEq, Prod.mk.injEq] at h
            exact h.2.symm
  · exact absurd h (by simp)

theorem payoutsStep_payoutOf {F : Type} (ops : Float64Ops F) (remaining : Int)
    (p : Payouts F) (t : Int) (entry : String × ShareSum F)
    (p2 : Payouts F) (t2 : Int)
    (h : Payouts.payoutsStep ops remaining (p, t) entry = some (p2, t2)) :
    ∃ pay, PayoutOf ops p.PoolDifficuty remaining entry pay ∧
      p2.UserPayouts = p.UserPayouts ++ [pay] ∧ t2 = add64 t pay.Payout ∧
      p2.Reward = p.Reward ∧ p2.PoolFee = p.PoolFee ∧ p2.PoolFeeRate = p.PoolFeeRate ∧
      p2.PoolDifficuty = p.PoolDifficuty := by
  obtain ⟨user, work⟩ := entry
  obtain ⟨a, b, q, target, ha, hb, hq, hshares, _, hp2, ht2⟩ :=
    payoutsStep_inv ops remaining p t user work p2 t2 h
  subst hp2
  refine ⟨_, ⟨?_, rfl, rfl, hshares⟩, rfl, ht2, rfl, rfl, rfl, rfl⟩
  simp only [userProportion, ha, hb, hq]

/-- What a successful run of the payout loop did: it appended one UserPayout
for each entry, in order, and accumulated their int64 sum. -/
theorem payoutsLoop_inv {F : Type} (ops : Float64Ops F) (remaining : Int) :
    ∀ (l : List (String × ShareSum F)) (p : Payouts F) (t : Int) (p2 : Payouts F) (t2 : Int),
      Payouts.payoutsLoop ops remaining l (p, t) = some (p2, t2) →
      ∃ pays, List.Forall₂ (PayoutOf ops p.PoolDifficuty remaining) l pays ∧
        p2.UserPayouts = p.UserPayouts ++ pays ∧
        t2 = pays.foldl (fun acc u => add64 acc u.Payout) t ∧
        p2.Reward = p.Reward ∧ p2.PoolFee = p.PoolFee ∧ p2.PoolFeeRate = p.PoolFeeRate ∧
        p2.PoolDifficuty = p.PoolDifficuty := by
  intro l
  induction l with
  | nil =>
    intro p t p2 t2 h
    simp only [Payouts.payoutsLoop, Option.some.injEq, Prod.mk.injEq] at h
    obtain ⟨rfl, rfl⟩ := h
    exact ⟨[], List.Forall₂.nil, by simp, rfl, rfl, rfl, rfl, rfl⟩
  | cons e rest ih =>
    intro p t p2 t2 h
    simp only [Payouts.payoutsLoop] at h
    split at h
    · exact absurd h (by simp)
    · rename_i acc hstep
      obtain ⟨p1, t1⟩ := acc
      obtain ⟨pay, hpay, hups, ht1, hR, hF, hFR, hD⟩ :=
        payoutsStep_payoutOf ops remaining p t e p1 t1 hstep
      obtain ⟨pays, hall, hups2, ht2, hR2, hF2, hFR2, hD2⟩ := ih p1 t1 p2 t2 h
      refine ⟨pay :: pays, List.Forall₂.cons hpay ?_, ?_, ?_, hR2.trans hR, hF2.trans hF,
        hFR2.trans hFR, hD2.trans hD⟩
      · rw [hD] at hall
        exact hall
      · rw [hups2, hups]
        simp
      · rw [ht2, ht1]
        rfl

/-- TakePoolCut changes only PoolFee, and returns the remainder. -/
theorem TakePoolCut_spec {F : Type} (p : Payouts F) (remaining : Int) :
    (p.TakePoolCut remaining).2 = remainingOf remaining p.PoolFeeRate ∧
    (p.TakePoolCut remaining).1
      = { p with PoolFee := if p.PoolFeeRate.IsZero then p.PoolFee
                             else cut remaining p.PoolFeeRate } := by
  unfold Payouts.TakePoolCut remainingOf
  split <;> exact ⟨rfl, rfl⟩

/-- What a returning call of NewPayout computed. -/
theorem NewPayout_inv {F : Type} (ops : Float64Ops F) (r : Reward) (rate : Decimal)
    (work : ShareMap F) (p : Payouts F) (h : NewPayout ops r rate work = some p) :
    List.Forall₂ (PayoutOf ops work.TotalDiff (remainingOf r.PoolReward rate)) work.Sums
        p.UserPayouts ∧
      p.PoolFee = poolFeeOf r.PoolReward rate ∧
      p.Dust = wrap64 (remainingOf r.PoolReward rate - sumPayouts p.UserPayouts) ∧
      p.Reward = r ∧ p.PoolFeeRate = rate ∧ p.PoolDifficuty = work.TotalDiff := by
  unfold NewPayout Payouts.Payouts at h
  simp only at h
  obtain ⟨hsnd, hfst⟩ := TakePoolCut_spec
    ({ ({ (Payouts.new ops) with PoolFeeRate := rate } : Payouts F) with Reward := r })
    r.PoolReward
  rw [hsnd, hfst] at h
  split at h
  · exact absurd h (by simp)
  · rename_i p1 t1 hloop
    simp only [Option.some.injEq] at h
    subst h
    obtain ⟨pays, hall, hups, ht, hR, hF, hFR, hD⟩ := payoutsLoop_inv ops _ _ _ _ _ _ hloop
    simp only [Payouts.new, List.nil_append] at hall hups hR hF hFR hD
    refine ⟨?_, ?_, ?_, hR, hFR, hD⟩
    · show List.Forall₂ _ work.Sums p1.UserPayouts
      rw [hups]
      exact hall
    · show p1.PoolFee = _
      rw [hF]
      rfl
    · show wrap64 (_ - t1) = wrap64 (_ - sumPayouts p1.UserPayouts)
      rw [ht, hups]
      rfl

/-- C1 (conservation): whenever NewPayout returns, PoolFee + Dust + the sum of
the user payouts, computed in int64 arithmetic, is the reward's PoolReward. -/
theorem C1_conservation {F : Type} (ops : Float64Ops F) (r : Reward) (rate : Decimal)
    (work : ShareMap F) (p : Payouts F)
    (hr : -9223372036854775808 ≤ r.PoolReward ∧ r.PoolReward ≤ 9223372036854775807)
    (h : NewPayout ops r rate work = some p) :
    add64 (add64 p.PoolFee p.Dust) (sumPayouts p.UserPayouts) = r.PoolReward := by
  obtain ⟨_, hfee, hdust, _, _, _⟩ := NewPayout_inv ops r rate work p h
  rw [hfee, hdust]
  generalize sumPayouts p.UserPayouts = s
  unfold poolFeeOf remainingOf
  split
  · simp only [add64, wrap64]
    omega
  · generalize cut r.PoolReward rate = c
    simp only [add64, wrap64]
    omega

theorem NewPayout_mapAB :
    NewPayout intFloat64 { JobID := 0, PoolReward := 1000000, Winning := 0, Graded := 0 }
      { value := 1, exp := -2 } mapAB.Seal = some payoutsAB := by
  decide

theorem C1_conservation_witness :
    NewPayout intFloat64 { JobID := 0, PoolReward := 1000000, Winning := 0, Graded := 0 }
      { value := 1, exp := -2 } mapAB.Seal = some payoutsAB ∧
    add64 (add64 payoutsAB.PoolFee payoutsAB.Dust) (sumPayouts payoutsAB.UserPayouts)
      = 1000000 :=
  ⟨NewPayout_mapAB,
   C1_conservation intFloat64 { JobID := 0, PoolReward := 1000000, Winning := 0, Graded := 0 }
     { value := 1, exp := -2 } mapAB.Seal payoutsAB (by decide) NewPayout_mapAB⟩

/-! ### The share map -/

theorem lookupSum_updateSum {F : Type} (key : String) (f : ShareSum F → ShareSum F) :
    ∀ l : List (String × ShareSum F),
      lookupSum key (updateSum key f l) = (lookupSum key l).map f := by
  intro l
  induction l with
  | nil => rfl
  | cons e rest ih =>
    obtain ⟨k, v⟩ := e
    by_cases hk : k = key
    · simp [lookupSum, updateSum, hk]
    · simp [lookupSum, updateSum, hk, ih]

theorem lookupSum_append_new {F : Type} (key : String) (v : ShareSum F) :
    ∀ l : List (String × ShareSum F), lookupSum key l = none →
      lookupSum key (l ++ [(key, v)]) = some v := by
  intro l
  induction l with
  | nil => intro _; simp [lookupSum]
  | cons e rest ih =>
    obtain ⟨k, w⟩ := e
    intro h
    by_cases hk : k = key
    · simp [lookupSum, hk] at h
    · simp only [lookupSum, hk, if_false] at h
      simp [lookupSum, hk, ih h]

/-- C7 (counterexample): a share with Accepted = false added to the empty,
unsealed map is aggregated: TotalDiff and Sums both change. -/
theorem C7_counterexample :
    (NewShareMap intFloat64).Sealed = false ∧
    (mkShare "u" 1 5 false).Accepted = false ∧
    (NewShareMap intFloat64).AddShare intFloat64 1 1 "u" (mkShare "u" 1 5 false)
      = { Sealed := false
          TotalDiff := 1
          Sums := [("u", { TotalDifficulty := 1, TotalShares := 1, FirstShare := 1,
                           LastShare := 1, Targets := 5 :: List.replicate 19 0 })] } := by
  decide

/-- C7 (amended): on an unsealed map AddShare aggregates every share, whatever
its Accepted flag: the result is the one for the same share with Accepted set,
TotalDiff has the share's difficulty added, and the entry of the key is the
previous entry (a zero ShareSum when there was none) after ShareSum.AddShare. -/
theorem C7_addShare_ignores_accepted {F : Type} (ops : Float64Ops F) (now1 now2 : Int)
    (m : ShareMap F) (key : String) (s : Share F) (hm : m.Sealed = false) :
    m.AddShare ops now1 now2 key s
        = m.AddShare ops now1 now2 key { s with Accepted := true } ∧
      (m.AddShare ops now1 now2 key s).TotalDiff = ops.add m.TotalDiff s.Difficulty ∧
      lookupSum key (m.AddShare ops now1 now2 key s).Sums
        = some (ShareSum.AddShare ops now1 now2
            ((lookupSum key m.Sums).getD (ShareSum.new ops)) s) := by
  refine ⟨rfl, ?_, ?_⟩
  · simp [ShareMap.AddShare, hm]
  · simp only [ShareMap.AddShare, hm, Bool.false_eq_true, if_false]
    rw [lookupSum_updateSum]
    cases hl : lookupSum key m.Sums with
    | none => simp [lookupSum_append_new key _ m.Sums hl]
    | some v => simp [hl]

theorem C7_addShare_ignores_accepted_witness :
    (NewShareMap intFloat64).AddShare intFloat64 1 1 "u" (mkShare "u" 1 5 false)
        = (NewShareMap intFloat64).AddShare intFloat64 1 1 "u"
            { mkShare "u" 1 5 false with Accepted := true } ∧
      ((NewShareMap intFloat64).AddShare intFloat64 1 1 "u" (mkShare "u" 1 5 false)).TotalDiff
        = intFloat64.add (NewShareMap intFloat64).TotalDiff (mkShare "u" 1 5 false).Difficulty ∧
      lookupSum "u"
          ((NewShareMap intFloat64).AddShare intFloat64 1 1 "u" (mkShare "u" 1 5 false)).Sums
        = some (ShareSum.AddShare intFloat64 1 1
            ((lookupSum "u" (NewShareMap intFloat64).Sums).getD (ShareSum.new intFloat64))
            (mkShare "u" 1 5 false)) :=
  C7_addShare_ignores_accepted intFloat64 1 1 (NewShareMap intFloat64) "u"
    (mkShare "u" 1 5 false) (by decide)

/-- C8 (seal idempotence): sealing twice is sealing once, and on a sealed map
AddShare returns the map unchanged, for every key, share and clock reading. -/
theorem C8_seal_idempotent {F : Type} (ops : Float64Ops F) (m : ShareMap F) :
    m.Seal.Seal = m.Seal ∧
    ∀ (now1 now2 : Int) (key : String) (s : Share F),
      m.Seal.AddShare ops now1 now2 key s = m.Seal := by
  refine ⟨rfl, ?_⟩
  intro now1 now2 key s
  simp [ShareMap.AddShare, ShareMap.Seal]

/-- C9 (counterexample): on the unsealed two-user map NewPayout returns a
record with two user payouts instead of refusing. -/
theorem C9_counterexample :
    mapAB.Sealed = false ∧
    (NewPayout intFloat64 { JobID := 0, PoolReward := 1000, Winning := 0, Graded := 0 }
        { value := 0, exp := 0 } mapAB).map (fun p => p.UserPayouts.map (fun u => u.Payout))
      = some [333, 666] := by
  decide

/-- C9 (amended): NewPayout never looks at Sealed: for every reward, fee rate
and map, the outcome for the map with any value of Sealed is the outcome for
the map as given, so an unsealed map is paid out like the sealed one. -/
theorem C9_newPayout_ignores_sealed {F : Type} (ops : Float64Ops F) (r : Reward)
    (rate : Decimal) (m : ShareMap F) (b : Bool) :
    NewPayout ops r rate { m with Sealed := b } = NewPayout ops r rate m := by
  rfl

/-- C10 (code at the failing input): for a map with one user whose LastShare and
FirstShare are exactly 20 seconds apart, a returning NewPayout leaves
TotalHashrate at its zero value although the user has a UserPayout carrying the
hash rate; the source compares with `>` where its comment says "at least". -/
theorem C10_twenty_seconds_not_counted {F : Type} (ops : Float64Ops F) (r : Reward)
    (rate : Decimal) (sealed : Bool) (totalDiff : F) (user : String) (work : ShareSum F)
    (p : Payouts F)
    (h20 : timeSub work.LastShare work.FirstShare = twentySeconds)
    (h : NewPayout ops r rate
      { Sealed := sealed, TotalDiff := totalDiff, Sums := [(user, work)] } = some p) :
    p.TotalHashrate = ops.zero ∧
    ∃ target, p.UserPayouts.map (fun u => u.HashRate)
      = [ops.EffectiveHashRate target (if work.TotalShares < 20 then work.TotalShares else 20)
          (ops.Seconds twentySeconds)] := by
  unfold NewPayout Payouts.Payouts at h
  simp only at h
  obtain ⟨_, hfst⟩ := TakePoolCut_spec
    ({ ({ (Payouts.new ops) with PoolFeeRate := rate } : Payouts F) with Reward := r })
    r.PoolReward
  rw [hfst] at h
  simp only [Payouts.payoutsLoop] at h
  split at h
  · exact absurd h (by simp)
  · rename_i p1 t1 hloop
    split at hloop
    · exact absurd hloop (by simp)
    · rename_i acc hstep
      obtain ⟨p0, t0⟩ := acc
      simp only [Option.some.injEq, Prod.mk.injEq] at hloop h
      obtain ⟨rfl, rfl⟩ := hloop
      subst h
      obtain ⟨a, b, q, target, _, _, _, _, _, hp, _⟩ :=
        payoutsStep_inv ops _ _ _ _ _ _ _ hstep
      subst hp
      rw [h20]
      refine ⟨?_, target, ?_⟩
      · simp [Payouts.new]
      · simp [Payouts.new]

theorem NewPayout_mapTwentySeconds :
    NewPayout intFloat64 { JobID := 0, PoolReward := 1000, Winning := 0, Graded := 0 }
      { value := 0, exp := 0 } mapTwentySeconds = some payoutsTwentySeconds := by
  decide

theorem C10_twenty_seconds_not_counted_witness :
    timeSub 20000000001 1 = twentySeconds ∧
    NewPayout intFloat64 { JobID := 0, PoolReward := 1000, Winning := 0, Graded := 0 }
      { value := 0, exp := 0 } mapTwentySeconds = some payoutsTwentySeconds ∧
    payoutsTwentySeconds.TotalHashrate = intFloat64.zero ∧
    ∃ target, payoutsTwentySeconds.UserPayouts.map (fun u => u.HashRate)
      = [intFloat64.EffectiveHashRate target (if (1 : Int) < 20 then 1 else 20)
          (intFloat64.Seconds twentySeconds)] :=
  ⟨by decide, NewPayout_mapTwentySeconds,
   C10_twenty_seconds_not_counted intFloat64
     { JobID := 0, PoolReward := 1000, Winning := 0, Graded := 0 } { value := 0, exp := 0 }
     true 1 "u"
     { TotalDifficulty := 1, TotalShares := 1, FirstShare := 1, LastShare := 20000000001,
       Targets := 18446744073709551615 :: List.replicate 19 0 }
     payoutsTwentySeconds (by decide) NewPayout_mapTwentySeconds⟩

/-! ### The target ring -/

/-- The binary search stays between its bounds; the entry before the result
fails the test and the entry at the result passes it, unless at a bound. -/
theorem sortSearchLoop_spec (f : Nat → Bool) :
    ∀ (fuel i j : Nat), i ≤ j → j - i ≤ fuel →
      i ≤ sortSearchLoop f fuel i j ∧ sortSearchLoop f fuel i j ≤ j ∧
      (sortSearchLoop f fuel i j = i ∨ f (sortSearchLoop f fuel i j - 1) = false) ∧
      (sortSearchLoop f fuel i j = j ∨ f (sortSearchLoop f fuel i j) = true) := by
  intro fuel
  induction fuel with
  | zero =>
    intro i j hij hfuel
    have : i = j := by omega
    subst this
    simp [sortSearchLoop]
  | succ fuel ih =>
    intro i j hij hfuel
    unfold sortSearchLoop
    by_cases hlt : i < j
    · simp only [hlt, if_true]
      have hh1 : i ≤ (i + j) / 2 := by omega
      have hh2 : (i + j) / 2 < j := by omega
      cases hf : f ((i + j) / 2) with
      | false =>
        simp only [Bool.not_false, if_true]
        obtain ⟨h1, h2, h3, h4⟩ := ih ((i + j) / 2 + 1) j (by omega) (by omega)
        refine ⟨by omega, h2, ?_, h4⟩
        right
        rcases h3 with h3 | h3
        · rw [h3]
          simpa using hf
        · exact h3
      | true =>
        simp only [Bool.not_true, Bool.false_eq_true, if_false]
        obtain ⟨h1, h2, h3, h4⟩ := ih i ((i + j) / 2) (by omega) (by omega)
        refine ⟨h1, by omega, h3, ?_⟩
        right
        rcases h4 with h4 | h4
        · rw [h4]
          exact hf
        · exact h4
    · simp only [hlt, if_false]
      have : i = j := by omega
      subst this
      simp

/-- On a test that stays true once it is true, `sort.Search` returns the first
index that passes, or `n` when none does. -/
theorem sortSearch_spec (f : Nat → Bool) (n : Nat)
    (hmono : ∀ a b, a ≤ b → b < n → f a = true → f b = true) :
    sortSearch (n : Int) f ≤ n ∧
    (∀ i, i < sortSearch (n : Int) f → f i = false) ∧
    (sortSearch (n : Int) f < n → f (sortSearch (n : Int) f) = true) := by
  have hn : ((n : Int)).toNat = n := Int.toNat_ofNat n
  unfold sortSearch
  rw [hn]
  obtain ⟨_, h2, h3, h4⟩ := sortSearchLoop_spec f n 0 n (Nat.zero_le n) (by omega)
  refine ⟨h2, ?_, ?_⟩
  · intro i hi
    rcases h3 with h3 | h3
    · omega
    · cases hfi : f i with
      | false => rfl
      | true =>
        have := hmono i (sortSearchLoop f n 0 n - 1) (by omega) (by omega) hfi
        rw [h3] at this
        exact absurd this (by simp)
  · intro hlt
    rcases h4 with h4 | h4
    · omega
    · exact h4

/-- The shift-and-store of InsertTarget on `pre ++ x :: suf` at index
`pre.length`: the new value goes in and the last entry drops out. -/
theorem shift_store (pre suf : List Nat) (x t : Nat) :
    ((pre ++ x :: suf).take (pre.length + 1)
        ++ goCopy ((pre ++ x :: suf).drop (pre.length + 1)) ((pre ++ x :: suf).drop pre.length)).set
        pre.length t
      = (pre ++ t :: x :: suf).take (pre ++ x :: suf).length := by
  have h1 : (pre ++ x :: suf).take (pre.length + 1) = pre ++ [x] := by
    rw [List.take_append_eq_append_take]
    simp
  have h2 : (pre ++ x :: suf).drop (pre.length + 1) = suf := by
    rw [List.drop_append_eq_append_drop]
    simp
  have h3 : (pre ++ x :: suf).drop pre.length = x :: suf := by
    rw [List.drop_append_eq_append_drop]
    simp
  rw [h1, h2, h3]
  unfold goCopy
  have h4 : suf.drop (x :: suf).length = [] := by
    apply List.drop_eq_nil_of_le
    simp
  rw [h4, List.append_nil, List.append_assoc, List.set_append_right _ _ (le_refl _)]
  simp only [Nat.sub_self, List.singleton_append, List.set_cons_zero, List.length_append,
    List.length_cons]
  rw [List.take_append_eq_append_take]
  have h5 : pre.take (pre.length + (suf.length + 1)) = pre := List.take_of_length_le (by omega)
  have h6 : pre.length + (suf.length + 1) - pre.length = suf.length + 1 := by omega
  rw [h5, h6]
  rfl

theorem sortSearch_le (n : Int) (f : Nat → Bool) : sortSearch n f ≤ n.toNat := by
  unfold sortSearch
  exact (sortSearchLoop_spec f n.toNat 0 n.toNat (Nat.zero_le _) (by omega)).2.1

theorem split_at_index (A : List Nat) (idx : Nat) (h : idx < A.length) :
    ∃ pre x suf, A = pre ++ x :: suf ∧ pre.length = idx := by
  refine ⟨A.take idx, A[idx], A.drop (idx + 1), ?_, ?_⟩
  · rw [← List.drop_eq_getElem_cons h, List.take_append_drop]
  · rw [List.length_take]
    omega

/-- InsertTarget on an array of 20 entries: the target is inserted at the index
found by the search and the result is cut back to 20 entries. -/
theorem InsertTarget_eq (t : Nat) (A : List Nat) (hlen : A.length = 20) (total : Int) :
    InsertTarget t A total
      = (A.take (sortSearch (if total > 20 then 20 else total)
            (fun i => decide (A.getD i 0 < t)))
          ++ t :: A.drop (sortSearch (if total > 20 then 20 else total)
            (fun i => decide (A.getD i 0 < t)))).take 20 := by
  unfold InsertTarget
  simp only
  generalize hidx : sortSearch (if total > 20 then 20 else total)
    (fun i => decide (A.getD i 0 < t)) = idx
  have hle : idx ≤ 20 := by
    have := sortSearch_le (if total > 20 then 20 else total) (fun i => decide (A.getD i 0 < t))
    rw [hidx] at this
    split at this <;> omega
  by_cases h20 : idx = 20
  · simp only [h20, if_true]
    have hA20 : A.take 20 = A := List.take_of_length_le (by omega)
    have hd : A.drop 20 = [] := List.drop_eq_nil_of_le (by omega)
    rw [hA20, hd]
    exact (List.take_left' hlen).symm
  · simp only [h20, if_false]
    obtain ⟨pre, x, suf, hA, hpre⟩ := split_at_index A idx (by omega)
    subst hA
    subst hpre
    rw [shift_store, hlen]
    have h3 : (pre ++ x :: suf).drop pre.length = x :: suf := by
      rw [List.drop_append_eq_append_drop]
      simp
    have h5 : (pre ++ x :: suf).take pre.length = pre := by
      rw [List.take_append_eq_append_take]
      simp
    rw [h3, h5]

/-- Inserting at an index with only entries at least `t` before it and only
entries at most `t` from it on is the insertion `insertDesc`. -/
theorem insertDesc_eq_of_index : ∀ (A : List Nat) (t idx : Nat), idx ≤ A.length →
    (∀ i, i < idx → t ≤ A.getD i 0) → (∀ i, idx ≤ i → A.getD i 0 ≤ t) →
    A.take idx ++ t :: A.drop idx = insertDesc t A := by
  intro A
  induction A with
  | nil =>
    intro t idx hle _ _
    have : idx = 0 := by simpa using hle
    subst this
    rfl
  | cons b l ih =>
    intro t idx hle hbefore hafter
    cases idx with
    | zero =>
      have hb : b ≤ t := by simpa using hafter 0 (le_refl _)
      by_cases hlt : b < t
      · simp [insertDesc, hlt]
      · have hbt : b = t := by omega
        subst hbt
        simp only [insertDesc, hlt, if_false, List.take_zero, List.drop_zero, List.nil_append,
          List.cons.injEq, true_and]
        have := ih b 0 (Nat.zero_le _) (fun i hi => absurd hi (Nat.not_lt_zero i))
          (fun i _ => by simpa using hafter (i + 1) (Nat.zero_le _))
        simpa using this
    | succ k =>
      have hb : ¬ b < t := by
        have := hbefore 0 (by omega)
        simp at this
        omega
      simp only [insertDesc, hb, if_false, List.take_succ_cons, List.drop_succ_cons,
        List.cons_append, List.cons.injEq, true_and]
      apply ih t k (by simpa using hle)
      · intro i hi
        have := hbefore (i + 1) (by omega)
        simpa using this
      · intro i hi
        have := hafter (i + 1) (by omega)
        simpa using this

theorem insertDesc_length (t : Nat) : ∀ l : List Nat, (insertDesc t l).length = l.length + 1 := by
  intro l
  induction l with
  | nil => rfl
  | cons b l ih =>
    unfold insertDesc
    split
    · rfl
    · simp [ih]

theorem insertDesc_perm (t : Nat) : ∀ l : List Nat, (insertDesc t l).Perm (t :: l) := by
  intro l
  induction l with
  | nil => exact List.Perm.refl _
  | cons b l ih =>
    unfold insertDesc
    split
    · exact List.Perm.refl _
    · exact (List.Perm.cons b ih).trans (List.Perm.swap t b l)

theorem insertDesc_sorted (t : Nat) : ∀ l : List Nat, l.Sorted (· ≥ ·) →
    (insertDesc t l).Sorted (· ≥ ·) := by
  intro l
  induction l with
  | nil => intro _; simp [insertDesc]
  | cons b l ih =>
    intro hs
    have hs2 := List.sorted_cons.mp hs
    unfold insertDesc
    split
    · rename_i hb
      refine List.sorted_cons.mpr ⟨?_, hs⟩
      intro y hy
      rcases List.mem_cons.mp hy with rfl | hy
      · show t ≥ y
        omega
      · have := hs2.1 y hy
        show t ≥ y
        omega
    · rename_i hb
      refine List.sorted_cons.mpr ⟨?_, ih hs2.2⟩
      intro y hy
      have hy2 := (insertDesc_perm t l).mem_iff.mp hy
      rcases List.mem_cons.mp hy2 with rfl | hy3
      · show b ≥ y
        omega
      · exact hs2.1 y hy3

/-- Cutting a list before inserting does not change the first `m` entries. -/
theorem insertDesc_take (t m : Nat) : ∀ X : List Nat,
    (insertDesc t (X.take m)).take m = (insertDesc t X).take m := by
  intro X
  induction X generalizing m with
  | nil => simp
  | cons b l ih =>
    cases m with
    | zero => simp
    | succ k =>
      simp only [List.take_succ_cons, insertDesc]
      split
      · simp only [List.take_succ_cons, List.cons.injEq, true_and]
        cases k with
        | zero => rfl
        | succ j => simp [List.take_succ_cons, List.take_take]
      · simp only [List.take_succ_cons, ih k]

/-- Inserting into a sorted list followed by zeros is inserting into the list. -/
theorem insertDesc_append_zeros (t k : Nat) : ∀ S : List Nat,
    insertDesc t (S ++ List.replicate (k + 1) 0) = insertDesc t S ++ List.replicate (k + 1) 0 := by
  intro S
  induction S with
  | nil =>
    simp only [List.nil_append, insertDesc, List.replicate_succ]
    by_cases ht : 0 < t
    · simp [ht]
    · have : t = 0 := by omega
      subst this
      simp only [Nat.lt_irrefl, if_false, List.singleton_append, List.cons.injEq, true_and]
      clear ht
      induction k with
      | zero => rfl
      | succ k ih => simp [List.replicate_succ, insertDesc, ih]
  | cons b l ih =>
    simp only [List.cons_append, insertDesc]
    split
    · rfl
    · change b :: insertDesc t (l ++ List.replicate (k + 1) 0) = _
      rw [ih]
      rfl

theorem ring_length (S : List Nat) : ((S ++ List.replicate 20 0).take 20).length = 20 := by
  simp

theorem ring_sorted (S : List Nat) (hs : S.Sorted (· ≥ ·)) :
    ((S ++ List.replicate 20 0).take 20).Pairwise (· ≥ ·) := by
  have h : (S ++ List.replicate 20 0).Pairwise (· ≥ ·) := by
    rw [List.pairwise_append]
    refine ⟨hs, ?_, ?_⟩
    · rw [List.pairwise_replicate]
      right
      exact le_refl _
    · intro a _ b hb
      have : b = 0 := (List.mem_replicate.mp hb).2
      show a ≥ b
      omega
  exact h.sublist (List.take_sublist _ _)

theorem ring_getD_zero (S : List Nat) (i : Nat) (hi : S.length ≤ i) :
    ((S ++ List.replicate 20 0).take 20).getD i 0 = 0 := by
  rw [List.getD_eq_getElem?_getD, List.getElem?_take]
  split
  · rw [List.getElem?_append_right hi]
    cases hx : (List.replicate 20 0)[i - S.length]? with
    | none => rfl
    | some x =>
      have hmem : x ∈ List.replicate 20 0 := List.getElem?_mem hx
      exact (List.mem_replicate.mp hmem).2
  · rfl

/-- One InsertTarget on the ring that holds the sorted list `S` of `S.length`
targets, then zeros: the ring holds `insertDesc t S` afterwards. -/
theorem InsertTarget_step (S : List Nat) (hs : S.Sorted (· ≥ ·)) (t : Nat) :
    InsertTarget t ((S ++ List.replicate 20 0).take 20) ((S.length : Int) + 1)
      = (insertDesc t S ++ List.replicate 20 0).take 20 := by
  have hlen := ring_length S
  have hsorted := ring_sorted S hs
  rw [InsertTarget_eq t _ hlen]
  have hkk : (if (S.length : Int) + 1 > 20 then (20 : Int) else (S.length : Int) + 1)
      = ((min (S.length + 1) 20 : Nat) : Int) := by
    split <;> omega
  rw [hkk]
  generalize hA : (S ++ List.replicate 20 0).take 20 = A at hlen hsorted ⊢
  have hmono : ∀ a b, a ≤ b → b < min (S.length + 1) 20 →
      (fun i => decide (A.getD i 0 < t)) a = true → (fun i => decide (A.getD i 0 < t)) b = true := by
    intro a b hab hb ha
    simp only [decide_eq_true_eq] at ha ⊢
    rcases Nat.eq_or_lt_of_le hab with rfl | hlt
    · exact ha
    · have hb20 : b < A.length := by omega
      have ha20 : a < A.length := by omega
      have := (List.pairwise_iff_getElem.mp hsorted) a b ha20 hb20 hlt
      rw [List.getD_eq_getElem _ _ hb20]
      rw [List.getD_eq_getElem _ _ ha20] at ha
      omega
  obtain ⟨h1, h2, h3⟩ := sortSearch_spec (fun i => decide (A.getD i 0 < t)) _ hmono
  generalize sortSearch ((min (S.length + 1) 20 : Nat) : Int)
    (fun i => decide (A.getD i 0 < t)) = idx at h1 h2 h3 ⊢
  have hbefore : ∀ i, i < idx → t ≤ A.getD i 0 := by
    intro i hi
    have := h2 i hi
    simp only [decide_eq_false_iff_not] at this
    omega
  have hafter : ∀ i, idx ≤ i → A.getD i 0 ≤ t := by
    intro i hi
    by_cases hi20 : i < A.length
    · by_cases hk : idx < min (S.length + 1) 20
      · have h4 := h3 hk
        simp only [decide_eq_true_eq] at h4
        rcases Nat.eq_or_lt_of_le hi with rfl | hlt
        · omega
        · have hidx20 : idx < A.length := by omega
          have := (List.pairwise_iff_getElem.mp hsorted) idx i hidx20 hi20 hlt
          rw [List.getD_eq_getElem _ _ hi20]
          rw [List.getD_eq_getElem _ _ hidx20] at h4
          omega
      · have : S.length ≤ i := by omega
        rw [← hA, ring_getD_zero S i this]
        exact Nat.zero_le _
    · rw [List.getD_eq_getElem?_getD, List.getElem?_eq_none (by omega)]
      exact Nat.zero_le _
  rw [insertDesc_eq_of_index A t idx (by omega) hbefore hafter, ← hA, insertDesc_take,
    insertDesc_append_zeros t 19 S]

theorem wrap64_of_range (x : Int) (h1 : -9223372036854775808 ≤ x)
    (h2 : x ≤ 9223372036854775807) : wrap64 x = x := by
  unfold wrap64
  omega

/-- After any sequence of fewer than 2^63 AddShare calls on a zero ShareSum the
ring holds the sorted list of all targets, then zeros, cut to 20 entries. -/
theorem addAll_ring {F : Type} (ops : Float64Ops F) (calls : List (AddCall F))
    (hlen : calls.length < 9223372036854775808) :
    ∃ S : List Nat, S.Sorted (· ≥ ·) ∧ S.Perm (calls.map (fun c => c.share.Target)) ∧
      (ShareSum.addAll ops calls (ShareSum.new ops)).Targets
        = (S ++ List.replicate 20 0).take 20 ∧
      (ShareSum.addAll ops calls (ShareSum.new ops)).TotalShares = (calls.length : Int) := by
  induction calls using List.reverseRecOn with
  | nil =>
    exact ⟨[], List.sorted_nil, List.Perm.refl _, rfl, rfl⟩
  | append_singleton init c ih =>
    have hlen2 : init.length + 1 < 9223372036854775808 := by
      simpa using hlen
    obtain ⟨S, hs, hperm, hT, hn⟩ := ih (by omega)
    have hSlen : S.length = init.length := by
      rw [hperm.length_eq, List.length_map]
    have hfold : ShareSum.addAll ops (init ++ [c]) (ShareSum.new ops)
        = ShareSum.AddShare ops c.now1 c.now2
            (ShareSum.addAll ops init (ShareSum.new ops)) c.share := by
      simp [ShareSum.addAll, List.foldl_append]
    have hw : wrap64 ((init.length : Int) + 1) = (init.length : Int) + 1 :=
      wrap64_of_range _ (by omega) (by omega)
    refine ⟨insertDesc c.share.Target S, insertDesc_sorted _ S hs, ?_, ?_, ?_⟩
    · refine (insertDesc_perm _ S).trans ?_
      rw [List.map_append, List.map_singleton]
      exact ((List.Perm.cons _ hperm).trans (List.perm_append_singleton _ _).symm)
    · rw [hfold]
      show InsertTarget c.share.Target _ (wrap64 (_ + 1)) = _
      rw [hT, hn, hw, ← hSlen]
      exact InsertTarget_step S hs _
    · rw [hfold]
      show wrap64 (_ + 1) = _
      rw [hn, hw]
      simp

/-- C4 (target ring): after any sequence of AddShare calls (fewer than 2^63, the
range of the Go int counter) on a zero ShareSum, with k = min(TotalShares, 20):
TotalShares is the number of calls, the first k entries of Targets are sorted
non-increasing and are, as a multiset, the k largest of all targets added: with
the other targets `rest` they make up all targets, and none of `rest` exceeds
any of them. -/
theorem C4_target_ring {F : Type} (ops : Float64Ops F) (calls : List (AddCall F))
    (hlen : calls.length < 9223372036854775808) :
    (ShareSum.addAll ops calls (ShareSum.new ops)).TotalShares = (calls.length : Int) ∧
    (ShareSum.addAll ops calls (ShareSum.new ops)).Targets.length = 20 ∧
    ((ShareSum.addAll ops calls (ShareSum.new ops)).Targets.take
        (min (ShareSum.addAll ops calls (ShareSum.new ops)).TotalShares 20).toNat).Sorted
      (· ≥ ·) ∧
    ∃ rest : List Nat,
      (((ShareSum.addAll ops calls (ShareSum.new ops)).Targets.take
          (min (ShareSum.addAll ops calls (ShareSum.new ops)).TotalShares 20).toNat)
        ++ rest).Perm (calls.map (fun c => c.share.Target)) ∧
      ∀ x ∈ (ShareSum.addAll ops calls (ShareSum.new ops)).Targets.take
          (min (ShareSum.addAll ops calls (ShareSum.new ops)).TotalShares 20).toNat,
        ∀ y ∈ rest, y ≤ x := by
  obtain ⟨S, hs, hperm, hT, hn⟩ := addAll_ring ops calls hlen
  have hSlen : S.length = calls.length := by
    rw [hperm.length_eq, List.length_map]
  have hk : (min (ShareSum.addAll ops calls (ShareSum.new ops)).TotalShares 20).toNat
      = min calls.length 20 := by
    rw [hn]
    omega
  have htake : (ShareSum.addAll ops calls (ShareSum.new ops)).Targets.take
      (min calls.length 20) = S.take (min calls.length 20) := by
    rw [hT, List.take_take, List.take_append_of_le_length (by omega)]
    congr 1
    omega
  rw [hk, htake]
  have hsplit : S.take (min calls.length 20) ++ S.drop (min calls.length 20) = S :=
    List.take_append_drop _ _
  refine ⟨hn, ?_, hs.sublist (List.take_sublist _ _), S.drop (min calls.length 20), ?_, ?_⟩
  · rw [hT]
    exact ring_length S
  · rw [hsplit]
    exact hperm
  · have hp : (S.take (min calls.length 20) ++ S.drop (min calls.length 20)).Pairwise
        (· ≥ ·) := by
      rw [hsplit]
      exact hs
    intro x hx y hy
    exact (List.pairwise_append.mp hp).2.2 x hx y hy

set_option maxRecDepth 100000 in
theorem calls30_targets :
    (ShareSum.addAll intFloat64 calls30 (ShareSum.new intFloat64)).Targets
      = [30, 29, 28, 27, 26, 25, 24, 23, 22, 21, 20, 19, 18, 17, 16, 15, 14, 13, 12, 11] := by
  decide

theorem C4_target_ring_witness :
    calls30.length < 9223372036854775808 ∧
    sum30.Targets
      = [30, 29, 28, 27, 26, 25, 24, 23, 22, 21, 20, 19, 18, 17, 16, 15, 14, 13, 12, 11] ∧
    (sum30.TotalShares = (calls30.length : Int) ∧
     sum30.Targets.length = 20 ∧
     (sum30.Targets.take (min sum30.TotalShares 20).toNat).Sorted (· ≥ ·) ∧
     ∃ rest : List Nat,
       ((sum30.Targets.take (min sum30.TotalShares 20).toNat) ++ rest).Perm
         (calls30.map (fun c => c.share.Target)) ∧
       ∀ x ∈ sum30.Targets.take (min sum30.TotalShares 20).toNat, ∀ y ∈ rest, y ≤ x) :=
  ⟨by decide, calls30_targets, C4_target_ring intFloat64 calls30 (by decide)⟩

/-! ### Decimal arithmetic -/

theorem ten_zpow_pos (e : ℤ) : (0 : ℚ) < (10 : ℚ) ^ e := zpow_pos (by norm_num) e

theorem cast_ten_pow_toNat (e : ℤ) (he : 0 ≤ e) :
    (((10 : ℤ) ^ e.toNat : ℤ) : ℚ) = (10 : ℚ) ^ e := by
  have h : ((e.toNat : ℕ) : ℤ) = e := Int.toNat_of_nonneg he
  rw [Int.cast_pow, ← zpow_natCast, h]
  norm_num

theorem ten_zpow_add (m n : ℤ) : (10 : ℚ) ^ (m + n) = (10 : ℚ) ^ m * (10 : ℚ) ^ n :=
  zpow_add₀ (by norm_num) m n

theorem rescale_exp (d : Decimal) (e : ℤ) : (d.rescale e).exp = e := by
  unfold Decimal.rescale
  split
  · assumption
  · split <;> rfl

/-- Moving a Decimal to a smaller exponent keeps its value. -/
theorem rescale_toRat_of_le (d : Decimal) (e : ℤ) (h : e ≤ d.exp) :
    (d.rescale e).toRat = d.toRat := by
  unfold Decimal.rescale
  by_cases heq : d.exp = e
  · simp [heq]
  · have hlt : ¬ e > d.exp := by omega
    simp only [heq, if_false, hlt, Decimal.toRat]
    have hn : (e - d.exp).natAbs = (d.exp - e).toNat := by omega
    rw [hn]
    push_cast
    have h1 := cast_ten_pow_toNat (d.exp - e) (by omega)
    push_cast at h1
    rw [h1, mul_assoc, ← ten_zpow_add]
    congr 2
    ring

theorem RescalePair_spec (d1 d2 : Decimal) :
    (Decimal.RescalePair d1 d2).1.toRat = d1.toRat ∧
    (Decimal.RescalePair d1 d2).2.toRat = d2.toRat ∧
    (Decimal.RescalePair d1 d2).1.exp = (Decimal.RescalePair d1 d2).2.exp := by
  unfold Decimal.RescalePair
  by_cases heq : d1.exp = d2.exp
  · simp [heq]
  · simp only [heq, if_false]
    split
    · rename_i hmin
      have : min d1.exp d2.exp = d2.exp := by omega
      rw [this]
      exact ⟨rescale_toRat_of_le d1 d2.exp (by omega), rfl, rescale_exp _ _⟩
    · rename_i hmin
      have : min d1.exp d2.exp = d1.exp := by omega
      rw [this]
      exact ⟨rfl, rescale_toRat_of_le d2 d1.exp (by omega), (rescale_exp _ _).symm⟩

/-- `Cmp` is negative exactly when the first number is the smaller. -/
theorem Cmp_neg_iff (d1 d2 : Decimal) : Decimal.Cmp d1 d2 < 0 ↔ d1.toRat < d2.toRat := by
  obtain ⟨h1, h2, h3⟩ := RescalePair_spec d1 d2
  unfold Decimal.Cmp
  simp only
  rw [← h1, ← h2]
  generalize (Decimal.RescalePair d1 d2).1 = x at h3 ⊢
  generalize (Decimal.RescalePair d1 d2).2 = y at h3 ⊢
  unfold Decimal.toRat
  rw [h3]
  have hpos := ten_zpow_pos y.exp
  constructor
  · intro h
    have hv : x.value < y.value := by
      by_contra hcon
      simp only [hcon, if_false] at h
      split at h <;> omega
    have : (x.value : ℚ) < (y.value : ℚ) := by exact_mod_cast hv
    exact mul_lt_mul_of_pos_right this hpos
  · intro h
    have : (x.value : ℚ) < (y.value : ℚ) := lt_of_mul_lt_mul_right h hpos.le
    have hv : x.value < y.value := by exact_mod_cast this
    simp [hv]

/-- `QuoRem` on a non-negative dividend and a positive divisor: the quotient has
exponent `-precision`, both parts are non-negative, and
dividend = quotient * divisor + remainder. -/
theorem QuoRem_spec (a d : Decimal) (p : ℤ) (ha : 0 ≤ a.value) (hd : 0 < d.value) :
    ∃ q r, Decimal.QuoRem a d p = some (q, r) ∧ q.exp = -p ∧ 0 ≤ q.value ∧ 0 ≤ r.value ∧
      a.toRat = q.toRat * d.toRat + r.toRat := by
  unfold Decimal.QuoRem
  have hd0 : ¬ d.value = 0 := by omega
  simp only [hd0, if_false]
  by_cases he : a.exp - d.exp - -p < 0
  · simp only [he, if_true]
    have hbb : 0 < d.value * 10 ^ (-(a.exp - d.exp - -p)).toNat :=
      Int.mul_pos hd (pow_pos (by norm_num) _)
    refine ⟨_, _, rfl, rfl, Int.tdiv_nonneg ha hbb.le, Int.tmod_nonneg _ ha, ?_⟩
    have h1 := Int.tdiv_add_tmod a.value (d.value * 10 ^ (-(a.exp - d.exp - -p)).toNat)
    generalize a.value.tdiv (d.value * 10 ^ (-(a.exp - d.exp - -p)).toNat) = T at h1 ⊢
    generalize a.value.tmod (d.value * 10 ^ (-(a.exp - d.exp - -p)).toNat) = M at h1 ⊢
    have h2 : ((d.value : ℚ) * (10 : ℚ) ^ (-(a.exp - d.exp - -p))) * T + M = a.value := by
      rw [← cast_ten_pow_toNat _ (by omega)]
      exact_mod_cast h1
    have hrel : (10 : ℚ) ^ (-(a.exp - d.exp - -p)) * (10 : ℚ) ^ a.exp
        = (10 : ℚ) ^ (-p) * (10 : ℚ) ^ d.exp := by
      rw [← ten_zpow_add, ← ten_zpow_add]
      congr 1
      ring
    simp only [Decimal.toRat]
    linear_combination (-(10 : ℚ) ^ a.exp) * h2 + ((d.value : ℚ) * T) * hrel
  · simp only [he, if_false]
    have haa : 0 ≤ a.value * 10 ^ (a.exp - d.exp - -p).toNat :=
      Int.mul_nonneg ha (pow_pos (by norm_num) _).le
    refine ⟨_, _, rfl, rfl, Int.tdiv_nonneg haa hd.le, Int.tmod_nonneg _ haa, ?_⟩
    have h1 := Int.tdiv_add_tmod (a.value * 10 ^ (a.exp - d.exp - -p).toNat) d.value
    generalize (a.value * 10 ^ (a.exp - d.exp - -p).toNat).tdiv d.value = T at h1 ⊢
    generalize (a.value * 10 ^ (a.exp - d.exp - -p).toNat).tmod d.value = M at h1 ⊢
    have h2 : (d.value : ℚ) * T + M = a.value * (10 : ℚ) ^ (a.exp - d.exp - -p) := by
      rw [← cast_ten_pow_toNat _ (by omega)]
      exact_mod_cast h1
    have hrel : (10 : ℚ) ^ (a.exp - d.exp - -p) * (10 : ℚ) ^ (-p + d.exp)
        = (10 : ℚ) ^ a.exp := by
      rw [← ten_zpow_add]
      congr 1
      ring
    have hrel2 : (10 : ℚ) ^ (-p + d.exp) = (10 : ℚ) ^ (-p) * (10 : ℚ) ^ d.exp :=
      ten_zpow_add _ _
    simp only [Decimal.toRat]
    rw [hrel2] at hrel ⊢
    linear_combination (-((10 : ℚ) ^ (-p) * (10 : ℚ) ^ d.exp)) * h2 - (a.value : ℚ) * hrel

/-- `Div` on a non-negative dividend and a positive divisor returns a quotient
at exponent -16 that exceeds the exact quotient by at most half a unit of the
last place. -/
theorem Div_spec (a d : Decimal) (ha : 0 ≤ a.value) (hd : 0 < d.value) :
    ∃ q, a.Div d = some q ∧ q.exp = -16 ∧ 0 ≤ q.value ∧
      (2 * (q.value : ℚ) - 1) * d.toRat ≤ 2 * 10 ^ 16 * a.toRat := by
  obtain ⟨q, r, hqr, hqe, hq0, hr0, hsplit⟩ := QuoRem_spec a d 16 ha hd
  unfold Decimal.Div Decimal.DivRound DivisionPrecision
  rw [hqr]
  simp only
  have hdpos : 0 < d.toRat := by
    unfold Decimal.toRat
    exact mul_pos (by exact_mod_cast hd) (ten_zpow_pos _)
  have hrpos : 0 ≤ r.toRat := by
    unfold Decimal.toRat
    exact mul_nonneg (by exact_mod_cast hr0) (ten_zpow_pos _).le
  have hqrat : q.toRat = (q.value : ℚ) * (10 : ℚ) ^ (-16 : ℤ) := by
    unfold Decimal.toRat
    rw [hqe]
  have h16 : (10 : ℚ) ^ (-16 : ℤ) * 10 ^ 16 = 1 := by norm_num
  have hu : (10 : ℚ) ^ (-16 : ℤ) = 1 / 10 ^ 16 := by norm_num
  by_cases hc : Decimal.Cmp { value := |r.value| * 2, exp := r.exp + 16 } (Decimal.Abs d) < 0
  · simp only [hc, if_true]
    refine ⟨q, rfl, hqe, hq0, ?_⟩
    rw [hsplit, hqrat, hu]
    have : (0 : ℚ) ≤ (q.value : ℚ) := by exact_mod_cast hq0
    field_simp
    nlinarith
  · simp only [hc, if_false]
    have hsign : ¬ (a.value.sign * d.value.sign < 0) := by
      rw [Int.sign_eq_one_of_pos hd, mul_one]
      have := Int.sign_nonneg.mpr ha
      omega
    simp only [hsign, if_false]
    have hadd : q.Add (Decimal.New 1 (-16)) = { value := q.value + 1, exp := -16 } := by
      unfold Decimal.Add Decimal.RescalePair Decimal.New
      simp [hqe]
    rw [hadd]
    refine ⟨_, rfl, rfl, by show (0 : ℤ) ≤ q.value + 1; omega, ?_⟩
    rw [Cmp_neg_iff] at hc
    have habs : |r.value| = r.value := abs_of_nonneg hr0
    have hdabs : (Decimal.Abs d).toRat = d.toRat := by
      unfold Decimal.Abs Decimal.toRat
      simp only
      rw [abs_of_pos hd]
    rw [hdabs] at hc
    have hr2 : ({ value := |r.value| * 2, exp := r.exp + 16 } : Decimal).toRat
        = 2 * 10 ^ 16 * r.toRat := by
      unfold Decimal.toRat
      simp only
      rw [habs, ten_zpow_add]
      push_cast
      have : (10 : ℚ) ^ (16 : ℤ) = 10 ^ 16 := by norm_num
      rw [this]
      ring
    rw [hr2] at hc
    push_neg at hc
    show (2 * ((q.value + 1 : ℤ) : ℚ) - 1) * d.toRat ≤ 2 * 10 ^ 16 * a.toRat
    rw [hsplit, hqrat, hu]
    push_cast
    field_simp
    nlinarith

/-- Truncating a non-negative quotient of `Div` to the accounting precision
divides its coefficient by 10^8, rounding down. -/
theorem Truncate_spec (q : Decimal) (hqe : q.exp = -16) (hq0 : 0 ≤ q.value) :
    q.Truncate AccountingPrecision = { value := q.value / 100000000, exp := -8 } := by
  unfold Decimal.Truncate AccountingPrecision Decimal.rescale
  rw [hqe]
  have h1 : ((8 : ℤ) ≥ 0 ∧ -(8 : ℤ) > -16) := by omega
  have h2 : ¬ ((-16 : ℤ) = -8) := by omega
  have h3 : (-(8 : ℤ) > -16) := by omega
  have h4 : (10 : ℤ) ^ (-(8 : ℤ) - -16).natAbs = 100000000 := by decide
  simp only [h1, and_self, if_true, h2, if_false, h3, h4]
  rw [Int.tdiv_eq_ediv hq0 (by omega)]

/-- The function cut on a proportion at exponent -8. -/
theorem cut_spec (total P : ℤ) (ht : 0 ≤ total) (hP : 0 ≤ P) :
    cut total { value := P, exp := -8 } = wrap64 (total * P / 100000000) := by
  unfold cut Decimal.IntPart Decimal.Mul Decimal.New Decimal.rescale
  have h2 : ¬ ((0 : ℤ) + -8 = 0) := by omega
  have h3 : ((0 : ℤ) > 0 + -8) := by omega
  have h4 : (10 : ℤ) ^ ((0 : ℤ) - (0 + -8)).natAbs = 100000000 := by decide
  simp only [h2, if_false, h3, if_true, h4]
  rw [Int.tdiv_eq_ediv (Int.mul_nonneg ht hP) (by omega)]

/-- The function cut on a rate between 0 and 1 returns between 0 and the total. -/
theorem cut_rate_bounds (total : ℤ) (rate : Decimal) (ht : 0 ≤ total)
    (ht2 : total ≤ 9223372036854775807) (h0 : 0 ≤ rate.toRat) (h1 : rate.toRat ≤ 1) :
    0 ≤ cut total rate ∧ cut total rate ≤ total := by
  have hv : 0 ≤ rate.value := by
    unfold Decimal.toRat at h0
    have := nonneg_of_mul_nonneg_left h0 (ten_zpow_pos rate.exp)
    exact_mod_cast this
  have key : 0 ≤ (((Decimal.New total 0).Mul rate).rescale 0).value ∧
      (((Decimal.New total 0).Mul rate).rescale 0).value ≤ total := by
    unfold Decimal.Mul Decimal.New Decimal.rescale
    simp only [zero_add, zero_sub]
    by_cases he0 : rate.exp = 0
    · simp only [he0, if_true]
      have : (rate.value : ℚ) ≤ 1 := by
        unfold Decimal.toRat at h1
        rw [he0] at h1
        simpa using h1
      have hv1 : rate.value ≤ 1 := by exact_mod_cast this
      constructor
      · exact Int.mul_nonneg ht hv
      · nlinarith
    · simp only [he0, if_false]
      by_cases hneg : (0 : ℤ) > rate.exp
      · simp only [hneg, if_true]
        have hn : (-rate.exp).natAbs = (-rate.exp).toNat := by omega
        rw [hn]
        have hpow : (0 : ℤ) < 10 ^ (-rate.exp).toNat := pow_pos (by norm_num) _
        rw [Int.tdiv_eq_ediv (Int.mul_nonneg ht hv) hpow.le]
        have hle : rate.value ≤ 10 ^ (-rate.exp).toNat := by
          have hc := cast_ten_pow_toNat (-rate.exp) (by omega)
          unfold Decimal.toRat at h1
          have hz : (10 : ℚ) ^ rate.exp = ((10 : ℚ) ^ (-rate.exp))⁻¹ := by
            rw [zpow_neg, inv_inv]
          rw [hz, ← div_eq_mul_inv, div_le_one (ten_zpow_pos _), ← hc] at h1
          exact_mod_cast h1
        constructor
        · exact Int.ediv_nonneg (Int.mul_nonneg ht hv) hpow.le
        · apply Int.ediv_le_of_le_mul hpow
          nlinarith
      · simp only [hneg, if_false]
        have hpos : 0 < rate.exp := by omega
        have hv0 : rate.value = 0 := by
          by_contra hne
          have hv1 : (1 : ℚ) ≤ (rate.value : ℚ) := by
            have : 1 ≤ rate.value := by omega
            exact_mod_cast this
          have hten : (1 : ℚ) < (10 : ℚ) ^ rate.exp :=
            one_lt_zpow₀ (by norm_num) hpos
          unfold Decimal.toRat at h1
          nlinarith
        rw [hv0]
        simp only [mul_zero, zero_mul, le_refl, true_and]
        exact ht
  unfold cut Decimal.IntPart
  rw [wrap64_of_range _ (by omega) (by omega)]
  exact key

/-! ### Bounds on fee, payouts and dust -/

theorem Div_zero_divisor (a d : Decimal) (hd : d.value = 0) : a.Div d = none := by
  unfold Decimal.Div Decimal.DivRound Decimal.QuoRem
  simp [hd]

theorem toRat_nonneg_iff (d : Decimal) : 0 ≤ d.toRat ↔ 0 ≤ d.value := by
  unfold Decimal.toRat
  constructor
  · intro h
    have := nonneg_of_mul_nonneg_left h (ten_zpow_pos d.exp)
    exact_mod_cast this
  · intro h
    exact mul_nonneg (by exact_mod_cast h) (ten_zpow_pos _).le

/-- The proportion of one user: a non-negative number of units of 10^-8 that
exceeds the exact share of the pool difficulty by less than the rounding of
`Div` allows. -/
theorem payoutOf_proportion {F : Type} (ops : Float64Ops F) (poolDiff : F) (remaining : Int)
    (e : String × ShareSum F) (pay : UserPayout F)
    (h : PayoutOf ops poolDiff remaining e pay)
    (hpos : 0 ≤ decimalValue ops e.2.TotalDifficulty)
    (hD : 0 ≤ decimalValue ops poolDiff) :
    pay.Proportion.exp = -8 ∧ 0 ≤ pay.Proportion.value ∧ 0 < decimalValue ops poolDiff ∧
    (2 * 10 ^ 8 - 1) * (pay.Proportion.value : ℚ) * decimalValue ops poolDiff
      ≤ 2 * 10 ^ 16 * decimalValue ops e.2.TotalDifficulty := by
  obtain ⟨hprop, _, _, _⟩ := h
  unfold userProportion at hprop
  unfold decimalValue at hpos hD ⊢
  cases ha : ops.NewFromFloat e.2.TotalDifficulty with
  | none => simp [ha] at hprop
  | some a =>
    cases hd : ops.NewFromFloat poolDiff with
    | none => simp [ha, hd] at hprop
    | some d =>
      simp only [ha, hd] at hprop hpos hD ⊢
      have ha0 : 0 ≤ a.value := (toRat_nonneg_iff a).mp hpos
      have hd0 : 0 ≤ d.value := (toRat_nonneg_iff d).mp hD
      have hdne : d.value ≠ 0 := by
        intro hz
        rw [Div_zero_divisor a d hz] at hprop
        simp at hprop
      have hdpos : 0 < d.value := by omega
      obtain ⟨q, hq, hqe, hq0, hbound⟩ := Div_spec a d ha0 hdpos
      rw [hq] at hprop
      simp only [Option.some.injEq] at hprop
      rw [Truncate_spec q hqe hq0] at hprop
      rw [← hprop]
      have hdrat : 0 < d.toRat := by
        unfold Decimal.toRat
        exact mul_pos (by exact_mod_cast hdpos) (ten_zpow_pos _)
      refine ⟨rfl, Int.ediv_nonneg hq0 (by omega), hdrat, ?_⟩
      show (2 * 10 ^ 8 - 1) * ((q.value / 100000000 : ℤ) : ℚ) * d.toRat ≤ 2 * 10 ^ 16 * a.toRat
      have hP0 : 0 ≤ q.value / 100000000 := Int.ediv_nonneg hq0 (by omega)
      have hPle : q.value / 100000000 * 100000000 ≤ q.value := Int.ediv_mul_le _ (by omega)
      generalize q.value / 100000000 = P at hP0 hPle ⊢
      rcases hP0.eq_or_lt with hP | hP
      · rw [← hP]
        simp only [Int.cast_zero, mul_zero, zero_mul]
        exact mul_nonneg (by norm_num) hpos
      · have h1 : (2 * 10 ^ 8 - 1) * (P : ℚ) ≤ 2 * (q.value : ℚ) - 1 := by
          have hh : (2 * 10 ^ 8 - 1) * P ≤ 2 * q.value - 1 := by omega
          exact_mod_cast hh
        calc (2 * 10 ^ 8 - 1) * (P : ℚ) * d.toRat
            ≤ (2 * (q.value : ℚ) - 1) * d.toRat := mul_le_mul_of_nonneg_right h1 hdrat.le
          _ ≤ 2 * 10 ^ 16 * a.toRat := hbound

/-- Summed over the users: all proportions are non-negative multiples of
10^-8, and (2 * 10^8 - 1) * (their sum) * pool value is at most
2 * 10^16 * (sum of the user values). -/
theorem proportions_sum {F : Type} (ops : Float64Ops F) (poolDiff : F) (remaining : Int)
    (hD : 0 ≤ decimalValue ops poolDiff) :
    ∀ (sums : List (String × ShareSum F)) (pays : List (UserPayout F)),
      List.Forall₂ (PayoutOf ops poolDiff remaining) sums pays →
      (∀ e ∈ sums, 0 ≤ decimalValue ops e.2.TotalDifficulty) →
      (∀ u ∈ pays, u.Proportion.exp = -8 ∧ 0 ≤ u.Proportion.value) ∧
      (pays ≠ [] → 0 < decimalValue ops poolDiff) ∧
      (2 * 10 ^ 8 - 1) * (((pays.map (fun u => u.Proportion.value)).sum : ℤ) : ℚ)
          * decimalValue ops poolDiff
        ≤ 2 * 10 ^ 16 * (sums.map (fun e => decimalValue ops e.2.TotalDifficulty)).sum := by
  intro sums pays hall
  induction hall with
  | nil =>
    intro _
    simp
  | @cons e pay sums pays hhead _ ih =>
    intro hpos
    obtain ⟨h1, h2, h3⟩ := ih (fun x hx => hpos x (List.mem_cons_of_mem _ hx))
    obtain ⟨p1, p2, p3, p4⟩ :=
      payoutOf_proportion ops poolDiff remaining e pay hhead (hpos e (List.mem_cons_self _ _)) hD
    refine ⟨?_, fun _ => p3, ?_⟩
    · intro u hu
      rcases List.mem_cons.mp hu with rfl | hu
      · exact ⟨p1, p2⟩
      · exact h1 u hu
    · simp only [List.map_cons, List.sum_cons]
      rw [Int.cast_add]
      linarith

theorem forall₂_exists_left {α β : Type} {R : α → β → Prop} {l1 : List α} {l2 : List β}
    (h : List.Forall₂ R l1 l2) : ∀ u ∈ l2, ∃ e ∈ l1, R e u := by
  induction h with
  | nil =>
    intro u hu
    exact absurd hu (List.not_mem_nil u)
  | @cons a b l1 l2 hhead _ ih =>
    intro u hu
    rcases List.mem_cons.mp hu with rfl | hu
    · exact ⟨a, List.mem_cons_self _ _, hhead⟩
    · obtain ⟨e, he, hr⟩ := ih u hu
      exact ⟨e, List.mem_cons_of_mem _ he, hr⟩

/-- Payouts computed as `remaining * P / 10^8` from non-negative `P`: they are
non-negative, and 10^8 times their sum lies within `10^8 - 1` per user below
`remaining` times the sum of the `P`. -/
theorem payouts_sum_bounds {F : Type} (remaining : Int) (hrem : 0 ≤ remaining) :
    ∀ pays : List (UserPayout F),
      (∀ u ∈ pays, 0 ≤ u.Proportion.value ∧
        u.Payout = remaining * u.Proportion.value / 100000000) →
      (∀ u ∈ pays, 0 ≤ u.Payout) ∧
      100000000 * (pays.map (fun u => u.Payout)).sum
        ≤ remaining * (pays.map (fun u => u.Proportion.value)).sum ∧
      remaining * (pays.map (fun u => u.Proportion.value)).sum
        ≤ 100000000 * (pays.map (fun u => u.Payout)).sum + 99999999 * (pays.length : Int) := by
  intro pays
  induction pays with
  | nil =>
    intro _
    simp
  | cons u rest ih =>
    intro h
    obtain ⟨hP, hpay⟩ := h u (List.mem_cons_self _ _)
    obtain ⟨h1, h2, h3⟩ := ih (fun x hx => h x (List.mem_cons_of_mem _ hx))
    have hprod : 0 ≤ remaining * u.Proportion.value := Int.mul_nonneg hrem hP
    have hu0 : 0 ≤ u.Payout := by
      rw [hpay]
      exact Int.ediv_nonneg hprod (by omega)
    have hlow : u.Payout * 100000000 ≤ remaining * u.Proportion.value := by
      rw [hpay]
      exact Int.ediv_mul_le _ (by omega)
    have hhigh : remaining * u.Proportion.value < (u.Payout + 1) * 100000000 := by
      rw [hpay]
      exact Int.lt_ediv_add_one_mul_self _ (by omega)
    refine ⟨?_, ?_, ?_⟩
    · intro x hx
      rcases List.mem_cons.mp hx with rfl | hx
      · exact hu0
      · exact h1 x hx
    · simp only [List.map_cons, List.sum_cons]
      rw [mul_add, mul_add]
      omega
    · simp only [List.map_cons, List.sum_cons, List.length_cons]
      push_cast
      rw [mul_add, mul_add]
      omega

/-- The int64 accumulation of non-negative payouts that stay below 2^63 is
their plain sum. -/
theorem sumPayouts_eq_sum {F : Type} :
    ∀ (pays : List (UserPayout F)) (acc : Int), 0 ≤ acc →
      (∀ u ∈ pays, 0 ≤ u.Payout) →
      acc + (pays.map (fun u => u.Payout)).sum ≤ 9223372036854775807 →
      pays.foldl (fun a u => add64 a u.Payout) acc = acc + (pays.map (fun u => u.Payout)).sum := by
  intro pays
  induction pays with
  | nil =>
    intro acc _ _ _
    simp
  | cons u rest ih =>
    intro acc hacc hnn hle
    simp only [List.map_cons, List.sum_cons, List.foldl_cons] at hle ⊢
    have hu := hnn u (List.mem_cons_self _ _)
    have hrest : 0 ≤ (rest.map (fun u => u.Payout)).sum := by
      apply List.sum_nonneg
      intro x hx
      obtain ⟨v, hv, rfl⟩ := List.mem_map.mp hx
      exact hnn v (List.mem_cons_of_mem _ hv)
    have hw : add64 acc u.Payout = acc + u.Payout :=
      wrap64_of_range _ (by omega) (by omega)
    rw [hw, ih (acc + u.Payout) (by omega) (fun x hx => hnn x (List.mem_cons_of_mem _ hx))
      (by omega)]
    omega

/-- The pool fee and the remainder for a reward in [0, 2^63) and a rate in [0, 1]. -/
theorem fee_bounds (reward : Int) (rate : Decimal) (hr0 : 0 ≤ reward)
    (hr1 : reward ≤ 9223372036854775807) (h0 : 0 ≤ rate.toRat) (h1 : rate.toRat ≤ 1) :
    0 ≤ poolFeeOf reward rate ∧ poolFeeOf reward rate ≤ reward ∧
    remainingOf reward rate = reward - poolFeeOf reward rate := by
  unfold poolFeeOf remainingOf
  split
  · omega
  · obtain ⟨c0, c1⟩ := cut_rate_bounds reward rate hr0 hr1 h0 h1
    refine ⟨c0, c1, ?_⟩
    exact wrap64_of_range _ (by omega) (by omega)

/-- C6 (counterexample): reward 300, no fee, users of difficulty 1 and 2: the
proportions are 0.33333333 and 0.66666666, the payouts 99 and 199, and Dust is
2, which is not below max(1, 2) = 2. -/
theorem C6_counterexample :
    NewPayout intFloat64 { JobID := 0, PoolReward := 300, Winning := 0, Graded := 0 }
      { value := 0, exp := 0 } mapAB.Seal = some payoutsAB300 ∧
    ¬ (payoutsAB300.Dust < max 1 (payoutsAB300.UserPayouts.length : Int)) := by
  decide

theorem mapAB_seal_eq :
    mapAB.Seal =
      { Sealed := true
        TotalDiff := 3
        Sums := [("A", { TotalDifficulty := 1, TotalShares := 1, FirstShare := 1,
                         LastShare := 1, Targets := 7 :: List.replicate 19 0 }),
                 ("B", { TotalDifficulty := 2, TotalShares := 1, FirstShare := 2,
                         LastShare := 2, Targets := 9 :: List.replicate 19 0 })] } := by
  decide

/-! ### The function cut and TakePoolCut -/

/-- The integer part of the exact product: for a non-negative total and a
non-negative proportion, the rescaled coefficient of `total * prop` is the
floor of the product of the two numbers. -/
theorem mul_rescale_floor (total : ℤ) (prop : Decimal) (ht : 0 ≤ total)
    (hp : 0 ≤ prop.toRat) :
    (((Decimal.New total 0).Mul prop).rescale 0).value = ⌊(total : ℚ) * prop.toRat⌋ := by
  have hv : 0 ≤ prop.value := (toRat_nonneg_iff prop).mp hp
  unfold Decimal.Mul Decimal.New Decimal.rescale Decimal.toRat
  simp only [zero_add, zero_sub]
  by_cases he0 : prop.exp = 0
  · simp only [he0, if_true, zpow_zero, mul_one]
    rw [← Int.cast_mul, Int.floor_intCast]
  · simp only [he0, if_false]
    by_cases hneg : (0 : ℤ) > prop.exp
    · simp only [hneg, if_true]
      have hn : (-prop.exp).natAbs = (-prop.exp).toNat := by omega
      rw [hn]
      have hpow : (0 : ℤ) < 10 ^ (-prop.exp).toNat := pow_pos (by norm_num) _
      rw [Int.tdiv_eq_ediv (Int.mul_nonneg ht hv) hpow.le]
      have hz : (10 : ℚ) ^ prop.exp = (((10 ^ (-prop.exp).toNat : ℕ) : ℚ))⁻¹ := by
        have hc := cast_ten_pow_toNat (-prop.exp) (by omega)
        push_cast at hc ⊢
        rw [hc, zpow_neg, inv_inv]
      rw [hz, ← mul_assoc, ← div_eq_mul_inv, ← Int.cast_mul, Rat.floor_intCast_div_natCast]
      push_cast
      rfl
    · simp only [hneg, if_false]
      have hn : (-prop.exp).natAbs = prop.exp.toNat := by omega
      rw [hn]
      have hc := cast_ten_pow_toNat prop.exp (by omega)
      rw [← hc, ← Int.cast_mul, ← Int.cast_mul, Int.floor_intCast]
      ring

/-- C11 (cut and the pool fee): for a total in [0, 2^63) and a non-negative
decimal proportion whose product with the total fits in int64,
cut(total, prop) is the floor of the exact product; with that proportion as a
zero fee rate TakePoolCut returns its argument and leaves PoolFee at 0, and as
a non-zero rate it stores the floor in PoolFee and returns total minus it. -/
theorem C11_cut_is_floor {F : Type} (p : Payouts F) (total : ℤ) (prop : Decimal)
    (ht : 0 ≤ total) (ht2 : total ≤ 9223372036854775807) (hp : 0 ≤ prop.toRat)
    (hfit : ⌊(total : ℚ) * prop.toRat⌋ ≤ 9223372036854775807) :
    cut total prop = ⌊(total : ℚ) * prop.toRat⌋ ∧
    (prop.toRat = 0 →
      ({ p with PoolFeeRate := prop, PoolFee := 0 } : Payouts F).TakePoolCut total
        = ({ p with PoolFeeRate := prop, PoolFee := 0 }, total)) ∧
    (prop.toRat ≠ 0 →
      (({ p with PoolFeeRate := prop } : Payouts F).TakePoolCut total).2
          = total - ⌊(total : ℚ) * prop.toRat⌋ ∧
      (({ p with PoolFeeRate := prop } : Payouts F).TakePoolCut total).1.PoolFee
          = ⌊(total : ℚ) * prop.toRat⌋) := by
  have hfloor0 : 0 ≤ ⌊(total : ℚ) * prop.toRat⌋ :=
    Int.floor_nonneg.mpr (mul_nonneg (by exact_mod_cast ht) hp)
  have hcut : cut total prop = ⌊(total : ℚ) * prop.toRat⌋ := by
    unfold cut Decimal.IntPart
    simp only
    rw [mul_rescale_floor total prop ht hp]
    exact wrap64_of_range _ (by omega) (by omega)
  have hzero : prop.toRat = 0 ↔ prop.value = 0 := by
    unfold Decimal.toRat
    constructor
    · intro h
      rcases mul_eq_zero.mp h with h | h
      · exact_mod_cast h
      · exact absurd h (ten_zpow_pos _).ne'
    · intro h
      rw [h]
      simp
  refine ⟨hcut, ?_, ?_⟩
  · intro h0
    have hv := hzero.mp h0
    simp [Payouts.TakePoolCut, Decimal.IsZero, hv]
  · intro h0
    have hv : ¬ prop.value = 0 := fun h => h0 (hzero.mpr h)
    simp only [Payouts.TakePoolCut, Decimal.IsZero, hv, decide_False, Bool.false_eq_true,
      if_false, hcut]
    exact ⟨wrap64_of_range _ (by omega) (by omega), trivial⟩

theorem C11_cut_is_floor_witness :
    ((0 : ℤ) ≤ 1000000 ∧ (1000000 : ℤ) ≤ 9223372036854775807 ∧
      0 ≤ Decimal.toRat { value := 1, exp := -2 } ∧
      ⌊((1000000 : ℤ) : ℚ) * Decimal.toRat { value := 1, exp := -2 }⌋ ≤ 9223372036854775807) ∧
    (cut 1000000 { value := 1, exp := -2 }
        = ⌊((1000000 : ℤ) : ℚ) * Decimal.toRat { value := 1, exp := -2 }⌋ ∧
    (Decimal.toRat { value := 1, exp := -2 } = 0 →
      ({ payoutsAB with PoolFeeRate := { value := 1, exp := -2 }, PoolFee := 0 } :
          Payouts Int).TakePoolCut 1000000
        = ({ payoutsAB with PoolFeeRate := { value := 1, exp := -2 }, PoolFee := 0 },
            1000000)) ∧
    (Decimal.toRat { value := 1, exp := -2 } ≠ 0 →
      (({ payoutsAB with PoolFeeRate := { value := 1, exp := -2 } } :
          Payouts Int).TakePoolCut 1000000).2
          = 1000000 - ⌊((1000000 : ℤ) : ℚ) * Decimal.toRat { value := 1, exp := -2 }⌋ ∧
      (({ payoutsAB with PoolFeeRate := { value := 1, exp := -2 } } :
          Payouts Int).TakePoolCut 1000000).1.PoolFee
          = ⌊((1000000 : ℤ) : ℚ) * Decimal.toRat { value := 1, exp := -2 }⌋)) :=
  have hfl : ⌊((1000000 : ℤ) : ℚ) * Decimal.toRat { value := 1, exp := -2 }⌋ = 10000 := by
    have : ((1000000 : ℤ) : ℚ) * Decimal.toRat { value := 1, exp := -2 } = ((10000 : ℤ) : ℚ) := by
      norm_num [Decimal.toRat]
    rw [this, Int.floor_intCast]
  ⟨⟨by decide, by decide, by norm_num [Decimal.toRat], by rw [hfl]; decide⟩,
   C11_cut_is_floor payoutsAB 1000000 { value := 1, exp := -2 } (by decide) (by decide)
     (by norm_num [Decimal.toRat]) (by rw [hfl]; decide)⟩


/-! ### The counter region of the nonce -/

/-- The loop of NextNonce started on the last byte `d` of the counter region
`ds.reverse ++ [d]`, with bytes `lo` already passed: the region becomes the
incremented counter, and the loop returns. -/
theorem nextLoop_inc (p : List Nat) (hp : p.length = 5) :
    ∀ (ds : List Nat) (d : Nat) (lo : List Nat),
      NonceIncrementer.nextLoop 4 (p ++ (ds.reverse ++ d :: lo)) (5 + ds.length)
        = some (p ++ ((incLE (d :: ds)).reverse ++ lo)) := by
  intro ds
  induction ds with
  | nil =>
    intro d lo
    have hlt : 5 + ([] : List Nat).length < (p ++ (([] : List Nat).reverse ++ d :: lo)).length := by
      simp [hp]
    have hget : (p ++ (([] : List Nat).reverse ++ d :: lo)).getD (5 + ([] : List Nat).length) 0
        = d := by
      rw [List.getD_eq_getElem?_getD, List.getElem?_append_right (by rw [hp]; simp)]
      simp [hp]
    have hset : ∀ v, (p ++ (([] : List Nat).reverse ++ d :: lo)).set
        (5 + ([] : List Nat).length) v = p ++ v :: lo := by
      intro v
      rw [List.set_append_right _ _ (by simp [hp])]
      simp [hp]
    by_cases hv : (d + 1) % 256 = 0
    · rw [nextLoop_grow _ _ _ hlt (by rw [hget]; exact hv) (by simp), hset]
      have h5 : ((4 : Int) + 1).toNat = 5 := rfl
      rw [h5, List.take_left' hp, List.drop_left' hp]
      simp [incLE, hv]
    · rw [nextLoop_nowrap _ _ _ hlt (by rw [hget]; exact hv), hset, hget]
      simp [incLE, hv]
  | cons e es ih =>
    intro d lo
    have hlen : (e :: es).reverse.length = es.length + 1 := by simp
    have hlt : 5 + (e :: es).length < (p ++ ((e :: es).reverse ++ d :: lo)).length := by
      simp [hp]
    have hget : (p ++ ((e :: es).reverse ++ d :: lo)).getD (5 + (e :: es).length) 0 = d := by
      rw [List.getD_eq_getElem?_getD, List.getElem?_append_right (by rw [hp]; omega),
        List.getElem?_append_right (by rw [hlen, hp]; simp)]
      simp [hp]
    have hset : ∀ v, (p ++ ((e :: es).reverse ++ d :: lo)).set (5 + (e :: es).length) v
        = p ++ ((e :: es).reverse ++ v :: lo) := by
      intro v
      rw [List.set_append_right _ _ (by rw [hp]; omega),
        List.set_append_right _ _ (by rw [hlen, hp]; simp)]
      simp [hp]
    by_cases hv : (d + 1) % 256 = 0
    · have hidx : 5 + (e :: es).length = (5 + es.length) + 1 := by simp; omega
      rw [hidx] at hlt hget hset ⊢
      rw [nextLoop_carry _ _ _ hlt (by rw [hget]; exact hv) (by push_cast; omega), hset]
      have hre : p ++ ((e :: es).reverse ++ 0 :: lo) = p ++ (es.reverse ++ e :: 0 :: lo) := by
        simp
      rw [hre, ih e (0 :: lo)]
      have hinc : incLE (d :: e :: es) = 0 :: incLE (e :: es) := by
        rw [incLE]
        simp [hv]
      rw [hinc]
      simp
    · rw [nextLoop_nowrap _ _ _ hlt (by rw [hget]; exact hv), hset, hget]
      have hinc : incLE (d :: e :: es) = (d + 1) % 256 :: e :: es := by
        rw [incLE]
        simp [hv]
      rw [hinc]
      simp

/-- NextNonce on a five-byte prefix followed by a non-empty counter region
returns, keeps the prefix and increments the counter. -/
theorem NextNonce_inc (p ctr : List Nat) (hp : p.length = 5) (hc : ctr ≠ []) :
    NonceIncrementer.NextNonce { Nonce := p ++ ctr, lastNonceByte := 1, lastPrefixByte := 4 }
      = some { Nonce := p ++ (incLE ctr.reverse).reverse, lastNonceByte := 1,
               lastPrefixByte := 4 } := by
  obtain ⟨d, ds, hrev⟩ : ∃ d ds, ctr.reverse = d :: ds := by
    cases h : ctr.reverse with
    | nil => exact absurd (List.reverse_eq_nil_iff.mp h) hc
    | cons d ds => exact ⟨d, ds, rfl⟩
  have hctr : ctr = ds.reverse ++ [d] := by
    have := congrArg List.reverse hrev
    simpa using this
  have hloop := nextLoop_inc p hp ds d []
  simp only [List.append_nil] at hloop
  unfold NonceIncrementer.NextNonce
  simp only
  have hidx : (((p ++ ctr).length : Int) - 1).toNat = 5 + ds.length := by
    rw [hctr]
    simp [hp]
    omega
  have hnn : ¬ (((p ++ ctr).length : Int) - 1 < 0) := by
    rw [hctr]
    simp [hp]
    omega
  simp only [hnn, if_false, hidx]
  rw [hrev, hctr, hloop]

theorem incLE_ne_nil (l : List Nat) : incLE l ≠ [] := by
  cases l with
  | nil => simp [incLE]
  | cons d ds =>
    unfold incLE
    split <;> simp

theorem incLE_lt : ∀ l : List Nat, (∀ b ∈ l, b < 256) → ∀ b ∈ incLE l, b < 256 := by
  intro l
  induction l with
  | nil =>
    intro _ b hb
    simp [incLE] at hb
    omega
  | cons d ds ih =>
    intro h b hb
    unfold incLE at hb
    split at hb
    · rcases List.mem_cons.mp hb with rfl | hb
      · omega
      · exact ih (fun x hx => h x (List.mem_cons_of_mem _ hx)) b hb
    · rcases List.mem_cons.mp hb with rfl | hb
      · exact Nat.mod_lt _ (by omega)
      · exact h b (List.mem_cons_of_mem _ hb)

/-- Incrementing the counter adds one to the number it stands for. -/
theorem incLE_ofDigits : ∀ l : List Nat, (∀ b ∈ l, b < 256) →
    Nat.ofDigits 256 (incLE l) = Nat.ofDigits 256 l + 1 := by
  intro l
  induction l with
  | nil => intro _; simp [incLE]
  | cons d ds ih =>
    intro h
    have hd : d < 256 := h d (List.mem_cons_self _ _)
    have ih2 := ih (fun x hx => h x (List.mem_cons_of_mem _ hx))
    unfold incLE
    split
    · rw [Nat.ofDigits_cons, Nat.ofDigits_cons, ih2]
      omega
    · rw [Nat.ofDigits_cons, Nat.ofDigits_cons]
      omega

/-- Incrementing keeps the most significant byte non-zero. -/
theorem incLE_getLast : ∀ l : List Nat, (∀ h : l ≠ [], l.getLast h ≠ 0) →
    ∀ h : incLE l ≠ [], (incLE l).getLast h ≠ 0 := by
  intro l
  induction l with
  | nil =>
    intro _ h
    simp [incLE]
  | cons d ds ih =>
    intro hl h
    by_cases hv : (d + 1) % 256 = 0
    · have hinc : incLE (d :: ds) = 0 :: incLE ds := by
        rw [incLE]
        simp [hv]
      have hds : ∀ h : ds ≠ [], ds.getLast h ≠ 0 := by
        intro hne
        have := hl (List.cons_ne_nil _ _)
        rwa [List.getLast_cons hne] at this
      have hlast : (incLE (d :: ds)).getLast h
          = (incLE ds).getLast (incLE_ne_nil ds) := by
        simp only [hinc]
        exact List.getLast_cons (incLE_ne_nil ds)
      rw [hlast]
      exact ih hds _
    · have hinc : incLE (d :: ds) = (d + 1) % 256 :: ds := by
        rw [incLE]
        simp [hv]
      by_cases hne : ds = []
      · subst hne
        simp only [hinc, List.getLast_singleton]
        exact hv
      · have := hl (List.cons_ne_nil _ _)
        rw [List.getLast_cons hne] at this
        simp only [hinc]
        rw [List.getLast_cons hne]
        exact this
theorem counterLE_ne_nil (n : Nat) : counterLE n ≠ [] := by
  cases n with
  | zero => simp [counterLE]
  | succ n => exact incLE_ne_nil _

theorem counterLE_lt (n : Nat) : ∀ b ∈ counterLE n, b < 256 := by
  induction n with
  | zero =>
    intro b hb
    simp [counterLE] at hb
    omega
  | succ n ih => exact incLE_lt _ ih

theorem counterLE_ofDigits (n : Nat) : Nat.ofDigits 256 (counterLE n) = n := by
  induction n with
  | zero => simp [counterLE]
  | succ n ih =>
    show Nat.ofDigits 256 (incLE (counterLE n)) = n + 1
    rw [incLE_ofDigits _ (counterLE_lt n), ih]

theorem counterLE_getLast (n : Nat) (hn : 1 ≤ n) :
    ∀ h : counterLE n ≠ [], (counterLE n).getLast h ≠ 0 := by
  induction n with
  | zero => omega
  | succ n ih =>
    cases n with
    | zero =>
      intro h
      simp [counterLE, incLE]
    | succ k => exact incLE_getLast _ (ih (by omega))

/-- From the first increment on, the counter is the base-256 digit list of the
number of increments. -/
theorem counterLE_eq_digits (n : Nat) (hn : 1 ≤ n) : counterLE n = Nat.digits 256 n := by
  have h := Nat.digits_ofDigits 256 (by norm_num) (counterLE n) (counterLE_lt n)
    (counterLE_getLast n hn)
  rw [counterLE_ofDigits] at h
  exact h.symm

/-- The incrementer after `n` calls of NextNonce: the prefix, then the counter. -/
theorem iterate_counter (id pid n : Nat) :
    NonceIncrementer.iterate n (NewNonceIncrementer id pid)
      = some { Nonce := noncePrefixBytes id pid ++ (counterLE n).reverse, lastNonceByte := 1,
               lastPrefixByte := 4 } := by
  induction n with
  | zero => rfl
  | succ n ih =>
    simp only [NonceIncrementer.iterate, ih]
    rw [NextNonce_inc _ _ (noncePrefixBytes_length id pid)
      (fun h => counterLE_ne_nil n (List.reverse_eq_nil_iff.mp h))]
    simp [counterLE]

/-- C16 (counter region): after `n >= 1` calls of NextNonce on a fresh
incrementer the bytes after the five-byte prefix are the big-endian base-256
digits of `n`: every byte is below 256, the first is not zero, the number
they stand for is `n`; and the nonce differs from the nonce after any other
number of calls. -/
theorem C16_counter_is_minimal_repr (id pid n : Nat) (hn : 1 ≤ n) :
    ∃ s, NonceIncrementer.iterate n (NewNonceIncrementer id pid) = some s ∧
      s.Nonce.drop 5 = (Nat.digits 256 n).reverse ∧
      (∀ b ∈ s.Nonce.drop 5, b < 256) ∧
      (s.Nonce.drop 5).head? ≠ some 0 ∧
      s.Nonce.drop 5 ≠ [] ∧
      Nat.ofDigits 256 (s.Nonce.drop 5).reverse = n ∧
      ∀ m, m ≠ n → ∃ t, NonceIncrementer.iterate m (NewNonceIncrementer id pid) = some t ∧
        t.Nonce ≠ s.Nonce := by
  refine ⟨_, iterate_counter id pid n, ?_⟩
  have hdrop : (noncePrefixBytes id pid ++ (counterLE n).reverse).drop 5
      = (counterLE n).reverse := List.drop_left' (noncePrefixBytes_length id pid)
  simp only [hdrop]
  refine ⟨by rw [counterLE_eq_digits n hn], ?_, ?_, ?_, ?_, ?_⟩
  · intro b hb
    exact counterLE_lt n b (List.mem_reverse.mp hb)
  · rw [List.head?_reverse, List.getLast?_eq_getLast _ (counterLE_ne_nil n)]
    intro h
    exact counterLE_getLast n hn (counterLE_ne_nil n) (Option.some.inj h)
  · exact fun h => counterLE_ne_nil n (List.reverse_eq_nil_iff.mp h)
  · rw [List.reverse_reverse, counterLE_ofDigits]
  · intro m hm
    refine ⟨_, iterate_counter id pid m, ?_⟩
    intro heq
    have h1 : (counterLE m).reverse = (counterLE n).reverse := List.append_cancel_left heq
    have h2 : counterLE m = counterLE n := List.reverse_injective h1
    have h3 := congrArg (Nat.ofDigits 256) h2
    rw [counterLE_ofDigits, counterLE_ofDigits] at h3
    exact hm h3

theorem iterate_256 :
    NonceIncrementer.iterate 256 (NewNonceIncrementer 1 1)
      = some { Nonce := [0, 0, 0, 1, 1, 1, 0], lastNonceByte := 1, lastPrefixByte := 4 } := by
  rw [iterate_counter]
  have h : counterLE 256 = [0, 1] := by
    rw [counterLE_eq_digits 256 (by norm_num)]
    norm_num
  rw [h]
  rfl

theorem C16_counter_is_minimal_repr_witness :
    1 ≤ 256 ∧
    NonceIncrementer.iterate 256 (NewNonceIncrementer 1 1)
      = some { Nonce := [0, 0, 0, 1, 1, 1, 0], lastNonceByte := 1, lastPrefixByte := 4 } ∧
    ∃ s, NonceIncrementer.iterate 256 (NewNonceIncrementer 1 1) = some s ∧
      s.Nonce.drop 5 = (Nat.digits 256 256).reverse ∧
      (∀ b ∈ s.Nonce.drop 5, b < 256) ∧
      (s.Nonce.drop 5).head? ≠ some 0 ∧
      s.Nonce.drop 5 ≠ [] ∧
      Nat.ofDigits 256 (s.Nonce.drop 5).reverse = 256 ∧
      ∀ m, m ≠ 256 → ∃ t, NonceIncrementer.iterate m (NewNonceIncrementer 1 1) = some t ∧
        t.Nonce ≠ s.Nonce :=
  ⟨by decide, iterate_256, C16_counter_is_minimal_repr 1 1 256 (by decide)⟩

theorem incLE_replicate (k : Nat) :
    incLE (List.replicate k 255) = List.replicate k 0 ++ [1] := by
  induction k with
  | zero => rfl
  | succ k ih =>
    rw [List.replicate_succ, incLE]
    simp [ih, List.replicate_succ]

/-- C17 (counterexample): on the counter bytes [255, 255], a counter that has
already grown once, NextNonce returns, and the nonce it returns is one byte
longer, with counter bytes [1, 0, 0]. -/
theorem C17_counterexample :
    NonceIncrementer.NextNonce
        { Nonce := [0, 0, 0, 1, 1, 255, 255], lastNonceByte := 1, lastPrefixByte := 4 }
      = some { Nonce := [0, 0, 0, 1, 1, 1, 0, 0], lastNonceByte := 1, lastPrefixByte := 4 } := by
  decide

/-- C17 (amended): on a counter region of any length `k >= 1` whose bytes are all
255, NextNonce returns, keeps the five-byte prefix and leaves the counter
1, 0, ..., 0, one byte longer than before. -/
theorem C17_overflow_grows_again (p : List Nat) (k : Nat) (hp : p.length = 5) (hk : 1 ≤ k) :
    NonceIncrementer.NextNonce
        { Nonce := p ++ List.replicate k 255, lastNonceByte := 1, lastPrefixByte := 4 }
      = some { Nonce := p ++ 1 :: List.replicate k 0, lastNonceByte := 1,
               lastPrefixByte := 4 } := by
  have hne : List.replicate k 255 ≠ [] := by
    intro h
    have := congrArg List.length h
    simp at this
    omega
  rw [NextNonce_inc p _ hp hne, List.reverse_replicate, incLE_replicate]
  simp [List.reverse_replicate]

theorem C17_overflow_grows_again_witness :
    [0, 0, 0, 1, 1].length = 5 ∧ 1 ≤ 3 ∧
    NonceIncrementer.NextNonce
        { Nonce := [0, 0, 0, 1, 1] ++ List.replicate 3 255, lastNonceByte := 1,
          lastPrefixByte := 4 }
      = some { Nonce := [0, 0, 0, 1, 1] ++ 1 :: List.replicate 3 0, lastNonceByte := 1,
               lastPrefixByte := 4 } :=
  ⟨rfl, by decide, C17_overflow_grows_again [0, 0, 0, 1, 1] 3 rfl (by decide)⟩

/-! ### Commands -/

/-- The loop over a command slice is the left fold of `handleElem` over its
elements, stopping at the first panic. -/
theorem handleAll_eq_foldlM (now : Nat → Int) :
    ∀ (cs : CommandSlice) (w : MinerWorld),
      PegnetMiner.handleAll now w cs = cs.toList.foldlM (PegnetMiner.handleElem now) w
  | .empty, w => by
    simp [PegnetMiner.handleAll, CommandSlice.toList]
  | .cons c rest, w => by
    rw [PegnetMiner.handleAll, CommandSlice.toList, List.foldlM_cons]
    simp only [PegnetMiner.handleElem]
    cases h : PegnetMiner.HandleCommand now w c with
    | none => rfl
    | some w2 =>
      simp only [Option.bind_eq_bind, Option.some_bind]
      exact handleAll_eq_foldlM now rest w2
  | .consNil rest, w => by
    rw [PegnetMiner.handleAll, CommandSlice.toList, List.foldlM_cons]
    rfl

theorem HandleCommand_batch (now : Nat → Int) (w : MinerWorld) (cs : CommandSlice) :
    PegnetMiner.HandleCommand now w (.mk BatchCommand (.commands cs))
      = PegnetMiner.handleAll now w cs := by
  rw [PegnetMiner.HandleCommand]
  simp only [if_true]

theorem foldlM_handleElem_append (now : Nat → Int) (l1 l2 : List (Option MinerCommand))
    (w : MinerWorld) :
    (l1 ++ l2).foldlM (PegnetMiner.handleElem now) w
      = (l1.foldlM (PegnetMiner.handleElem now) w).bind
          (fun w2 => l2.foldlM (PegnetMiner.handleElem now) w2) := by
  rw [List.foldlM_append]
  rfl

/-- The loop over a command slice is the left fold over its elements with all
nested batches written out in place. -/
theorem handleAll_eq_flatten (now : Nat → Int) :
    ∀ (cs : CommandSlice) (w : MinerWorld),
      PegnetMiner.handleAll now w cs = cs.flatten.foldlM (PegnetMiner.handleElem now) w
  | .empty, w => by
    simp [PegnetMiner.handleAll, CommandSlice.flatten]
  | .cons (.mk tag (.commands inner)) rest, w => by
    rw [PegnetMiner.handleAll, CommandSlice.flatten]
    by_cases ht : tag = BatchCommand
    · subst ht
      simp only [if_true]
      rw [HandleCommand_batch, foldlM_handleElem_append, ← handleAll_eq_flatten now inner w]
      cases h : PegnetMiner.handleAll now w inner with
      | none => rfl
      | some w2 =>
        simp only [Option.some_bind]
        exact handleAll_eq_flatten now rest w2
    · simp only [ht, if_false, List.foldlM_cons, PegnetMiner.handleElem]
      cases h : PegnetMiner.HandleCommand now w (.mk tag (.commands inner)) with
      | none => rfl
      | some w2 =>
        simp only [Option.bind_eq_bind, Option.some_bind]
        exact handleAll_eq_flatten now rest w2
  | .cons (.mk tag .nil) rest, w => by
    rw [PegnetMiner.handleAll, CommandSlice.flatten, List.foldlM_cons] <;>
      try (intro _ _ h; cases h)
    simp only [PegnetMiner.handleElem]
    cases h : PegnetMiner.HandleCommand now w (.mk tag .nil) with
    | none => rfl
    | some w2 =>
      simp only [Option.bind_eq_bind, Option.some_bind]
      exact handleAll_eq_flatten now rest w2
  | .cons (.mk tag (.uint32 v)) rest, w => by
    rw [PegnetMiner.handleAll, CommandSlice.flatten, List.foldlM_cons] <;>
      try (intro _ _ h; cases h)
    simp only [PegnetMiner.handleElem]
    cases h : PegnetMiner.HandleCommand now w (.mk tag (.uint32 v)) with
    | none => rfl
    | some w2 =>
      simp only [Option.bind_eq_bind, Option.some_bind]
      exact handleAll_eq_flatten now rest w2
  | .cons (.mk tag (.uint64 v)) rest, w => by
    rw [PegnetMiner.handleAll, CommandSlice.flatten, List.foldlM_cons] <;>
      try (intro _ _ h; cases h)
    simp only [PegnetMiner.handleElem]
    cases h : PegnetMiner.HandleCommand now w (.mk tag (.uint64 v)) with
    | none => rfl
    | some w2 =>
      simp only [Option.bind_eq_bind, Option.some_bind]
      exact handleAll_eq_flatten now rest w2
  | .cons (.mk tag (.bytes b)) rest, w => by
    rw [PegnetMiner.handleAll, CommandSlice.flatten, List.foldlM_cons] <;>
      try (intro _ _ h; cases h)
    simp only [PegnetMiner.handleElem]
    cases h : PegnetMiner.HandleCommand now w (.mk tag (.bytes b)) with
    | none => rfl
    | some w2 =>
      simp only [Option.bind_eq_bind, Option.some_bind]
      exact handleAll_eq_flatten now rest w2
  | .cons (.mk tag (.statsChan ch st)) rest, w => by
    rw [PegnetMiner.handleAll, CommandSlice.flatten, List.foldlM_cons] <;>
      try (intro _ _ h; cases h)
    simp only [PegnetMiner.handleElem]
    cases h : PegnetMiner.HandleCommand now w (.mk tag (.statsChan ch st)) with
    | none => rfl
    | some w2 =>
      simp only [Option.bind_eq_bind, Option.some_bind]
      exact handleAll_eq_flatten now rest w2
  | .cons (.mk tag (.other t)) rest, w => by
    rw [PegnetMiner.handleAll, CommandSlice.flatten, List.foldlM_cons] <;>
      try (intro _ _ h; cases h)
    simp only [PegnetMiner.handleElem]
    cases h : PegnetMiner.HandleCommand now w (.mk tag (.other t)) with
    | none => rfl
    | some w2 =>
      simp only [Option.bind_eq_bind, Option.some_bind]
      exact handleAll_eq_flatten now rest w2
  | .consNil rest, w => by
    rw [PegnetMiner.handleAll, CommandSlice.flatten, List.foldlM_cons]
    rfl
/-- C13 (batch): HandleCommand on a BatchCommand carrying the commands `cs` is
the left fold of HandleCommand over the elements of `cs` in list order (a nil
element or a panicking command stops it); a nested batch has the effect of its
own elements written out in its place, so the whole batch is the left fold
over the flattened list. -/
theorem C13_batch_is_fold (now : Nat → Int) (w : MinerWorld) (cs : CommandSlice) :
    PegnetMiner.HandleCommand now w (.mk BatchCommand (.commands cs))
        = cs.toList.foldlM (PegnetMiner.handleElem now) w ∧
    PegnetMiner.HandleCommand now w (.mk BatchCommand (.commands cs))
        = cs.flatten.foldlM (PegnetMiner.handleElem now) w := by
  rw [HandleCommand_batch]
  exact ⟨handleAll_eq_foldlM now cs w, handleAll_eq_flatten now cs w⟩

/-- A command whose tag is none of the eight enumerated tags leaves everything
unchanged, whatever its payload. -/
theorem HandleCommand_unknown (now : Nat → Int) (w : MinerWorld) (tag : Int) (data : Payload)
    (h1 : tag ≠ BatchCommand) (h2 : tag ≠ NewNoncePrefix) (h3 : tag ≠ NewOPRHash)
    (h4 : tag ≠ ResetRecords) (h5 : tag ≠ MinimumAccept) (h6 : tag ≠ SubmitStats)
    (h7 : tag ≠ PauseMining) (h8 : tag ≠ ResumeMining) :
    PegnetMiner.HandleCommand now w (.mk tag data) = some w := by
  cases data <;>
    (rw [PegnetMiner.HandleCommand] <;> try (intro _ h; cases h)) <;>
    simp only [h1, h2, h3, h4, h5, h6, h7, h8, if_false]

/-- A command whose tag asserts no type is well formed whatever it carries. -/
theorem wellFormed_of_no_assertion (tag : Int) (data : Payload)
    (h1 : tag ≠ BatchCommand) (h2 : tag ≠ NewNoncePrefix) (h3 : tag ≠ NewOPRHash)
    (h5 : tag ≠ MinimumAccept) (h6 : tag ≠ SubmitStats) :
    (MinerCommand.mk tag data).wellFormed = true := by
  cases data <;>
    (rw [MinerCommand.wellFormed] <;>
      first
      | (intro _ _ h; cases h)
      | (intro _ h; cases h)
      | skip) <;>
    simp only [h1, h2, h3, h5, h6, if_false]

/-- A command other than a batch that carries a command slice returns exactly
when it is well formed, and panics otherwise. -/
theorem HandleCommand_isSome_flat (now : Nat → Int) (w : MinerWorld) (tag : Int)
    (data : Payload) (h : tag = BatchCommand → ∀ inner, data ≠ .commands inner) :
    (PegnetMiner.HandleCommand now w (.mk tag data)).isSome
      = (MinerCommand.mk tag data).wellFormed := by
  by_cases h1 : tag = BatchCommand
  · have hd := h h1
    subst h1
    cases data with
    | commands cs => exact absurd rfl (hd cs)
    | nil => rfl
    | uint32 v => rfl
    | uint64 v => rfl
    | bytes b => rfl
    | statsChan ch st => rfl
    | other t => rfl
  by_cases h2 : tag = NewNoncePrefix
  · subst h2
    cases data <;> rfl
  by_cases h3 : tag = NewOPRHash
  · subst h3
    cases data <;> rfl
  by_cases h5 : tag = MinimumAccept
  · subst h5
    cases data <;> rfl
  by_cases h6 : tag = SubmitStats
  · subst h6
    cases data with
    | statsChan ch st => cases st <;> rfl
    | nil => rfl
    | uint32 v => rfl
    | uint64 v => rfl
    | bytes b => rfl
    | commands cs => rfl
    | other t => rfl
  rw [wellFormed_of_no_assertion tag data h1 h2 h3 h5 h6]
  by_cases h4 : tag = ResetRecords
  · subst h4
    cases data <;> rfl
  by_cases h7 : tag = PauseMining
  · subst h7
    cases data <;> rfl
  by_cases h8 : tag = ResumeMining
  · subst h8
    cases data <;> rfl
  rw [HandleCommand_unknown now w tag data h1 h2 h3 h4 h5 h6 h7 h8]
  rfl

theorem handleAll_cons_step (now : Nat → Int) (w w2 : MinerWorld) (c : MinerCommand)
    (rest : CommandSlice) (h : PegnetMiner.HandleCommand now w c = some w2) :
    PegnetMiner.handleAll now w (.cons c rest) = PegnetMiner.handleAll now w2 rest := by
  rw [PegnetMiner.handleAll, h]

theorem handleAll_cons_none (now : Nat → Int) (w : MinerWorld) (c : MinerCommand)
    (rest : CommandSlice) (h : PegnetMiner.HandleCommand now w c = none) :
    PegnetMiner.handleAll now w (.cons c rest) = none := by
  rw [PegnetMiner.handleAll, h]

theorem wellFormed_batch (cs : CommandSlice) :
    (MinerCommand.mk BatchCommand (.commands cs)).wellFormed = cs.wellFormed := by
  rw [MinerCommand.wellFormed]
  simp only [if_true]

/-- One element of a batch, then the rest: the loop returns exactly when both
are well formed, given that this holds of the element and of the rest. -/
theorem handleAll_isSome_cons (now : Nat → Int) (w : MinerWorld) (c : MinerCommand)
    (rest : CommandSlice)
    (hc : (PegnetMiner.HandleCommand now w c).isSome = c.wellFormed)
    (hrest : ∀ w2, (PegnetMiner.handleAll now w2 rest).isSome = rest.wellFormed) :
    (PegnetMiner.handleAll now w (.cons c rest)).isSome
      = (CommandSlice.cons c rest).wellFormed := by
  rw [CommandSlice.wellFormed]
  cases h : PegnetMiner.HandleCommand now w c with
  | none =>
    rw [h] at hc
    rw [handleAll_cons_none now w c rest h, ← hc]
    rfl
  | some w2 =>
    rw [h] at hc
    rw [handleAll_cons_step now w w2 c rest h, hrest w2, ← hc]
    rfl

/-- The loop over a command slice returns exactly when every element is a
non-nil, well-formed command. -/
theorem handleAll_isSome (now : Nat → Int) :
    ∀ (cs : CommandSlice) (w : MinerWorld),
      (PegnetMiner.handleAll now w cs).isSome = cs.wellFormed
  | .empty, w => by
    rw [PegnetMiner.handleAll, CommandSlice.wellFormed]
    rfl
  | .cons (.mk tag (.commands inner)) rest, w => by
    apply handleAll_isSome_cons now w _ rest _ (fun w2 => handleAll_isSome now rest w2)
    by_cases ht : tag = BatchCommand
    · subst ht
      rw [HandleCommand_batch, wellFormed_batch]
      exact handleAll_isSome now inner w
    · exact HandleCommand_isSome_flat now w tag _ (fun hh => absurd hh ht)
  | .cons (.mk tag .nil) rest, w =>
    handleAll_isSome_cons now w _ rest
      (HandleCommand_isSome_flat now w tag _ (fun _ _ hh => by cases hh))
      (fun w2 => handleAll_isSome now rest w2)
  | .cons (.mk tag (.uint32 v)) rest, w =>
    handleAll_isSome_cons now w _ rest
      (HandleCommand_isSome_flat now w tag _ (fun _ _ hh => by cases hh))
      (fun w2 => handleAll_isSome now rest w2)
  | .cons (.mk tag (.uint64 v)) rest, w =>
    handleAll_isSome_cons now w _ rest
      (HandleCommand_isSome_flat now w tag _ (fun _ _ hh => by cases hh))
      (fun w2 => handleAll_isSome now rest w2)
  | .cons (.mk tag (.bytes b)) rest, w =>
    handleAll_isSome_cons now w _ rest
      (HandleCommand_isSome_flat now w tag _ (fun _ _ hh => by cases hh))
      (fun w2 => handleAll_isSome now rest w2)
  | .cons (.mk tag (.statsChan ch st)) rest, w =>
    handleAll_isSome_cons now w _ rest
      (HandleCommand_isSome_flat now w tag _ (fun _ _ hh => by cases hh))
      (fun w2 => handleAll_isSome now rest w2)
  | .cons (.mk tag (.other t)) rest, w =>
    handleAll_isSome_cons now w _ rest
      (HandleCommand_isSome_flat now w tag _ (fun _ _ hh => by cases hh))
      (fun w2 => handleAll_isSome now rest w2)
  | .consNil rest, w => by
    rw [PegnetMiner.handleAll, CommandSlice.wellFormed]
    rfl

/-- C14 (counterexample): a NewNoncePrefix command whose Data is nil, a
MinimumAccept command whose Data is a uint32 instead of a uint64, and a
SubmitStats command whose channel is closed make HandleCommand panic. -/
theorem C14_counterexample :
    PegnetMiner.HandleCommand (fun _ => 0) exampleWorld (.mk NewNoncePrefix .nil) = none ∧
    PegnetMiner.HandleCommand (fun _ => 0) exampleWorld (.mk MinimumAccept (.uint32 5))
      = none ∧
    PegnetMiner.HandleCommand (fun _ => 0) exampleWorld
      (.mk SubmitStats (.statsChan 0 .closed)) = none := by
  decide

/-- C14 (amended): in every miner state (with the stats block NewPegnetMiner
allocates) HandleCommand returns normally exactly when the command is well
formed, that is when its payload has the type its tag asserts (in a batch:
every element is non-nil and itself well formed) and a SubmitStats channel is
not closed; on every other command it panics.  A command whose tag is outside
1..8 leaves the miner, the clock and the reply channels unchanged whatever its
payload. -/
theorem C14_returns_iff_well_formed (now : Nat → Int) (w : MinerWorld) (c : MinerCommand) :
    (c.wellFormed = true → ∃ w2, PegnetMiner.HandleCommand now w c = some w2) ∧
    (c.wellFormed = false → PegnetMiner.HandleCommand now w c = none) ∧
    ∀ (tag : Int) (data : Payload), (tag < 1 ∨ 8 < tag) →
      PegnetMiner.HandleCommand now w (.mk tag data) = some w := by
  have hiff : (PegnetMiner.HandleCommand now w c).isSome = c.wellFormed := by
    cases c with
    | mk tag data =>
      by_cases ht : tag = BatchCommand
      · cases data with
        | commands cs =>
          subst ht
          rw [HandleCommand_batch, wellFormed_batch]
          exact handleAll_isSome now cs w
        | nil => exact HandleCommand_isSome_flat now w tag _ (fun _ _ hh => by cases hh)
        | uint32 v => exact HandleCommand_isSome_flat now w tag _ (fun _ _ hh => by cases hh)
        | uint64 v => exact HandleCommand_isSome_flat now w tag _ (fun _ _ hh => by cases hh)
        | bytes b => exact HandleCommand_isSome_flat now w tag _ (fun _ _ hh => by cases hh)
        | statsChan ch st =>
          exact HandleCommand_isSome_flat now w tag _ (fun _ _ hh => by cases hh)
        | other t => exact HandleCommand_isSome_flat now w tag _ (fun _ _ hh => by cases hh)
      · exact HandleCommand_isSome_flat now w tag data (fun hh => absurd hh ht)
  refine ⟨?_, ?_, ?_⟩
  · intro h
    rw [h] at hiff
    exact Option.isSome_iff_exists.mp hiff
  · intro h
    rw [h] at hiff
    cases hr : PegnetMiner.HandleCommand now w c with
    | none => rfl
    | some w2 =>
      rw [hr] at hiff
      exact absurd hiff (by simp)
  · intro tag data htag
    apply HandleCommand_unknown <;>
      (simp only [BatchCommand, NewNoncePrefix, NewOPRHash, ResetRecords, MinimumAccept,
        SubmitStats, PauseMining, ResumeMining]
       omega)

/-- C15 (NewNoncePrefix): the command sets ID to the payload `x` and replaces
the incrementer by NewNonceIncrementer(x, PersonalID), whose nonce is the
big-endian `x`, the byte `PersonalID & 0xFF` and a zero byte; PersonalID,
oprhash, stats, minimumDifficulty and paused, the clock and the reply channels
stay as they were. -/
theorem C15_new_nonce_prefix (now : Nat → Int) (w : MinerWorld) (x : Nat) :
    PegnetMiner.HandleCommand now w (.mk NewNoncePrefix (.uint32 x))
      = some
          { miner :=
              { ID := x
                PersonalID := w.miner.PersonalID
                MiningState :=
                  { oprhash := w.miner.MiningState.oprhash
                    NonceIncrementer := NewNonceIncrementer x w.miner.PersonalID
                    stats := w.miner.MiningState.stats
                    minimumDifficulty := w.miner.MiningState.minimumDifficulty }
                paused := w.miner.paused }
            clock := w.clock
            offered := w.offered } ∧
    NewNonceIncrementer x w.miner.PersonalID
      = { Nonce := [x / 16777216 % 256, x / 65536 % 256, x / 256 % 256, x % 256,
                    w.miner.PersonalID % 256, 0]
          lastNonceByte := 1
          lastPrefixByte := 4 } := by
  exact ⟨rfl, rfl⟩

/-! ### The difficulty and the mining step -/

/-- The two `copy` calls of ComputeDifficulty fill the buffer with the
concatenation of the OPR hash and the nonce. -/
theorem ComputeDifficulty_eq (H : List Nat → List Nat) (oprhash nonce : List Nat) :
    ComputeDifficulty H oprhash nonce = highEight (H (oprhash ++ nonce)) := by
  unfold ComputeDifficulty
  simp only
  have h1 : goCopy (List.replicate (oprhash.length + nonce.length) 0) oprhash
      = oprhash ++ List.replicate nonce.length 0 := by
    unfold goCopy
    rw [List.length_replicate, List.take_of_length_le (by omega), List.drop_replicate]
    congr 2
    omega
  have h2 : min (List.replicate (oprhash.length + nonce.length) 0).length oprhash.length
      = oprhash.length := by
    rw [List.length_replicate]
    omega
  rw [h1, h2, List.take_left' rfl, List.drop_left' rfl]
  have h3 : goCopy (List.replicate nonce.length 0) nonce = nonce := by
    unfold goCopy
    rw [List.length_replicate, List.take_of_length_le (le_refl _), List.drop_replicate,
      Nat.sub_self]
    simp
  rw [h3]

theorem lor_shl64 (acc b k : Nat) (hacc : acc < 2 ^ k)
    (hb : b * 2 ^ k < 18446744073709551616) : acc ||| shl64 b k = b * 2 ^ k + acc := by
  unfold shl64
  rw [Nat.shiftLeft_eq, Nat.mod_eq_of_lt hb, Nat.lor_comm, Nat.mul_comm,
    ← Nat.mul_add_lt_is_or hacc]

/-- On eight bytes the OR of the shifted bytes is their big-endian value. -/
theorem highEight_bytes (b0 b1 b2 b3 b4 b5 b6 b7 : Nat) (rest : List Nat)
    (h0 : b0 < 256) (h1 : b1 < 256) (h2 : b2 < 256) (h3 : b3 < 256) (h4 : b4 < 256)
    (h5 : b5 < 256) (h6 : b6 < 256) (h7 : b7 < 256) :
    highEight (b0 :: b1 :: b2 :: b3 :: b4 :: b5 :: b6 :: b7 :: rest)
      = some (b0 * 256 ^ 7 + b1 * 256 ^ 6 + b2 * 256 ^ 5 + b3 * 256 ^ 4 + b4 * 256 ^ 3
          + b5 * 256 ^ 2 + b6 * 256 ^ 1 + b7 * 256 ^ 0) := by
  unfold highEight
  simp only [List.getElem?_cons_succ, List.getElem?_cons_zero]
  rw [lor_shl64 b7 b6 8 (by omega) (by omega),
    lor_shl64 _ b5 16 (by omega) (by omega),
    lor_shl64 _ b4 24 (by omega) (by omega),
    lor_shl64 _ b3 32 (by omega) (by omega),
    lor_shl64 _ b2 40 (by omega) (by omega),
    lor_shl64 _ b1 48 (by omega) (by omega),
    lor_shl64 _ b0 56 (by omega) (by omega)]
  refine congrArg some ?_
  norm_num
  omega

theorem eight_bytes_of_length (b : List Nat) (h : 8 ≤ b.length) :
    ∃ b0 b1 b2 b3 b4 b5 b6 b7 rest, b = b0 :: b1 :: b2 :: b3 :: b4 :: b5 :: b6 :: b7 :: rest := by
  match b, h with
  | b0 :: b1 :: b2 :: b3 :: b4 :: b5 :: b6 :: b7 :: rest, _ =>
    exact ⟨b0, b1, b2, b3, b4, b5, b6, b7, rest, rfl⟩
  | [], h => simp at h
  | [_], h => simp at h
  | [_, _], h => simp at h
  | [_, _, _], h => simp at h
  | [_, _, _, _], h => simp at h
  | [_, _, _, _, _], h => simp at h
  | [_, _, _, _, _, _], h => simp at h
  | [_, _, _, _, _, _, _], h => simp at h

/-- C12 (difficulty): when the hash of the concatenation `opr_hash ++ nonce` has
at least 8 bytes, ComputeDifficulty returns (no index is out of bounds) the
big-endian uint64 value of its first 8 bytes, the sum over i < 8 of
b[i] * 256^(7-i); and two inputs with the same concatenation give the same
result. -/
theorem C12_difficulty_big_endian (H : List Nat → List Nat) (oprhash nonce : List Nat)
    (hlen : 8 ≤ (H (oprhash ++ nonce)).length)
    (hbytes : ∀ x ∈ H (oprhash ++ nonce), x < 256) :
    ComputeDifficulty H oprhash nonce
      = some (((List.range 8).map
          (fun i => (H (oprhash ++ nonce)).getD i 0 * 256 ^ (7 - i))).sum) ∧
    (((List.range 8).map
          (fun i => (H (oprhash ++ nonce)).getD i 0 * 256 ^ (7 - i))).sum
      < 18446744073709551616) ∧
    ∀ o2 n2 : List Nat, o2 ++ n2 = oprhash ++ nonce →
      ComputeDifficulty H o2 n2 = ComputeDifficulty H oprhash nonce := by
  obtain ⟨b0, b1, b2, b3, b4, b5, b6, b7, rest, hb⟩ := eight_bytes_of_length _ hlen
  rw [hb] at hbytes
  have h0 : b0 < 256 := hbytes b0 (by simp)
  have h1 : b1 < 256 := hbytes b1 (by simp)
  have h2 : b2 < 256 := hbytes b2 (by simp)
  have h3 : b3 < 256 := hbytes b3 (by simp)
  have h4 : b4 < 256 := hbytes b4 (by simp)
  have h5 : b5 < 256 := hbytes b5 (by simp)
  have h6 : b6 < 256 := hbytes b6 (by simp)
  have h7 : b7 < 256 := hbytes b7 (by simp)
  have hrange : List.range 8 = [0, 1, 2, 3, 4, 5, 6, 7] := by decide
  refine ⟨?_, ?_, ?_⟩
  · rw [ComputeDifficulty_eq, hb, highEight_bytes b0 b1 b2 b3 b4 b5 b6 b7 rest h0 h1 h2 h3 h4
      h5 h6 h7, hrange]
    simp [List.getD_eq_getElem?_getD]
    omega
  · rw [hb, hrange]
    simp [List.getD_eq_getElem?_getD]
    omega
  · intro o2 n2 heq
    rw [ComputeDifficulty_eq, ComputeDifficulty_eq, heq]
theorem ComputeDifficulty_example :
    ComputeDifficulty exampleHash [171, 205] [0, 0, 0, 1, 1, 1, 0]
      = some 12379550950711427329 := by
  decide

theorem C12_difficulty_big_endian_witness :
    (8 ≤ (exampleHash ([171, 205] ++ [0, 0, 0, 1, 1, 1, 0])).length ∧
      (∀ x ∈ exampleHash ([171, 205] ++ [0, 0, 0, 1, 1, 1, 0]), x < 256)) ∧
    ComputeDifficulty exampleHash [171, 205] [0, 0, 0, 1, 1, 1, 0]
      = some 12379550950711427329 ∧
    (ComputeDifficulty exampleHash [171, 205] [0, 0, 0, 1, 1, 1, 0]
      = some (((List.range 8).map
          (fun i => (exampleHash ([171, 205] ++ [0, 0, 0, 1, 1, 1, 0])).getD i 0
            * 256 ^ (7 - i))).sum) ∧
    (((List.range 8).map
          (fun i => (exampleHash ([171, 205] ++ [0, 0, 0, 1, 1, 1, 0])).getD i 0
            * 256 ^ (7 - i))).sum
      < 18446744073709551616) ∧
    ∀ o2 n2 : List Nat, o2 ++ n2 = [171, 205] ++ [0, 0, 0, 1, 1, 1, 0] →
      ComputeDifficulty exampleHash o2 n2
        = ComputeDifficulty exampleHash [171, 205] [0, 0, 0, 1, 1, 1, 0]) :=
  ⟨⟨by decide, by decide⟩, ComputeDifficulty_example,
   C12_difficulty_big_endian exampleHash [171, 205] [0, 0, 0, 1, 1, 1, 0] (by decide)
     (by decide)⟩

theorem highEight_isSome (b : List Nat) (h : 8 ≤ b.length) : ∃ d, highEight b = some d := by
  obtain ⟨b0, b1, b2, b3, b4, b5, b6, b7, rest, hb⟩ := eight_bytes_of_length b h
  rw [hb]
  unfold highEight
  simp only [List.getElem?_cons_succ, List.getElem?_cons_zero]
  exact ⟨_, rfl⟩

/-- C18 (mining step): for a miner that is not paused, has a non-empty oprhash
and an incrementer of the shape NewNonceIncrementer and NextNonce produce, and
for a hash of at least 8 bytes, one round of the loop of Mine returns; the
nonce advances by one NextNonce, the difficulty `diff` is that of the oprhash
and the new nonce, TotalHashes grows by 1, and exactly when
diff > minimumDifficulty a Winner with the hex of the oprhash, the hex of the
new nonce and `diff` in minimal lowercase hex is sent and TotalSubmissions
grows by 1; otherwise nothing is sent and TotalSubmissions stays. -/
theorem C18_mining_step (H : List Nat → List Nat) (p : PegnetMiner)
    (hpaused : p.paused = false) (hopr : p.MiningState.oprhash ≠ [])
    (hinc : ∃ pre ctr, pre.length = 5 ∧ ctr ≠ [] ∧
      p.MiningState.NonceIncrementer
        = { Nonce := pre ++ ctr, lastNonceByte := 1, lastPrefixByte := 4 })
    (hH : ∀ x, 8 ≤ (H x).length) :
    ∃ inc diff p2 out,
      p.MiningState.NonceIncrementer.NextNonce = some inc ∧
      ComputeDifficulty H p.MiningState.oprhash inc.Nonce = some diff ∧
      PegnetMiner.mineIteration H p = some (p2, out) ∧
      p2.MiningState.NonceIncrementer = inc ∧
      p2.MiningState.stats.TotalHashes = p.MiningState.stats.TotalHashes + 1 ∧
      p2.MiningState.stats.TotalSubmissions
        = p.MiningState.stats.TotalSubmissions
          + (if diff > p.MiningState.minimumDifficulty then 1 else 0) ∧
      out = (if diff > p.MiningState.minimumDifficulty then
              some { OPRHash := hexEncodeToString p.MiningState.oprhash
                     Nonce := hexEncodeToString inc.Nonce
                     Target := sprintfHex diff }
            else none) ∧
      p2.MiningState.oprhash = p.MiningState.oprhash ∧
      p2.MiningState.minimumDifficulty = p.MiningState.minimumDifficulty ∧
      p2.ID = p.ID ∧ p2.PersonalID = p.PersonalID ∧ p2.paused = false := by
  obtain ⟨pre, ctr, hpre, hctr, hshape⟩ := hinc
  have hnext := NextNonce_inc pre ctr hpre hctr
  rw [← hshape] at hnext
  obtain ⟨diff, hdiff⟩ : ∃ d, ComputeDifficulty H p.MiningState.oprhash
      (pre ++ (incLE ctr.reverse).reverse) = some d := by
    rw [ComputeDifficulty_eq]
    exact highEight_isSome _ (hH _)
  have hlen : ¬ p.MiningState.oprhash.length = 0 := by
    intro h
    exact hopr (List.length_eq_zero.mp h)
  have hstep : PegnetMiner.mineIteration H p
      = (if diff > p.MiningState.minimumDifficulty then
          some ({ p with MiningState :=
                    { p.MiningState with
                      NonceIncrementer := { Nonce := pre ++ (incLE ctr.reverse).reverse,
                                            lastNonceByte := 1, lastPrefixByte := 4 }
                      stats :=
                        { (({ p.MiningState.stats with
                              TotalHashes := p.MiningState.stats.TotalHashes + 1 } :
                              SingleMinerStats).NewDifficulty diff) with
                          TotalSubmissions :=
                            (({ p.MiningState.stats with
                              TotalHashes := p.MiningState.stats.TotalHashes + 1 } :
                              SingleMinerStats).NewDifficulty diff).TotalSubmissions + 1 } } },
                some { OPRHash := hexEncodeToString p.MiningState.oprhash
                       Nonce := hexEncodeToString (pre ++ (incLE ctr.reverse).reverse)
                       Target := sprintfHex diff })
        else
          some ({ p with MiningState :=
                    { p.MiningState with
                      NonceIncrementer := { Nonce := pre ++ (incLE ctr.reverse).reverse,
                                            lastNonceByte := 1, lastPrefixByte := 4 }
                      stats := (({ p.MiningState.stats with
                              TotalHashes := p.MiningState.stats.TotalHashes + 1 } :
                              SingleMinerStats).NewDifficulty diff) } },
                none)) := by
    unfold PegnetMiner.mineIteration
    simp only [hlen, if_false, hpaused, Bool.false_eq_true, hnext, hdiff]
  have hnd : ∀ s : SingleMinerStats, (s.NewDifficulty diff).TotalHashes = s.TotalHashes ∧
      (s.NewDifficulty diff).TotalSubmissions = s.TotalSubmissions := by
    intro s
    unfold SingleMinerStats.NewDifficulty
    split <;> exact ⟨rfl, rfl⟩
  by_cases hgt : diff > p.MiningState.minimumDifficulty
  · rw [if_pos hgt] at hstep
    refine ⟨_, diff, _, _, hnext, hdiff, hstep, rfl, ?_, ?_, ?_, rfl, rfl, rfl, rfl, hpaused⟩
    · exact (hnd _).1
    · simp only [hgt, if_true]
      show _ + 1 = _ + 1
      rw [(hnd _).2]
    · simp only [hgt, if_true]
  · rw [if_neg hgt] at hstep
    refine ⟨_, diff, _, _, hnext, hdiff, hstep, rfl, ?_, ?_, ?_, rfl, rfl, rfl, rfl, hpaused⟩
    · exact (hnd _).1
    · simp only [hgt, if_false, Nat.add_zero]
      exact (hnd _).2
    · simp only [hgt, if_false]
theorem exampleHash_length (x : List Nat) : 8 ≤ (exampleHash x).length := by
  unfold exampleHash
  rw [List.length_take, List.length_append, List.length_replicate]
  omega

theorem mineIteration_example :
    (PegnetMiner.mineIteration exampleHash exampleMiner).map (fun r => r.2)
      = some (some { OPRHash := "abcd", Nonce := "00000001010100",
                     Target := "abcd000000010101" }) := by
  decide

theorem C18_mining_step_witness :
    (exampleMiner.paused = false ∧ exampleMiner.MiningState.oprhash ≠ [] ∧
      (∃ pre ctr, pre.length = 5 ∧ ctr ≠ [] ∧
        exampleMiner.MiningState.NonceIncrementer
          = { Nonce := pre ++ ctr, lastNonceByte := 1, lastPrefixByte := 4 }) ∧
      (∀ x, 8 ≤ (exampleHash x).length)) ∧
    (PegnetMiner.mineIteration exampleHash exampleMiner).map (fun r => r.2)
      = some (some { OPRHash := "abcd", Nonce := "00000001010100",
                     Target := "abcd000000010101" }) ∧
    ∃ inc diff p2 out,
      exampleMiner.MiningState.NonceIncrementer.NextNonce = some inc ∧
      ComputeDifficulty exampleHash exampleMiner.MiningState.oprhash inc.Nonce = some diff ∧
      PegnetMiner.mineIteration exampleHash exampleMiner = some (p2, out) ∧
      p2.MiningState.NonceIncrementer = inc ∧
      p2.MiningState.stats.TotalHashes = exampleMiner.MiningState.stats.TotalHashes + 1 ∧
      p2.MiningState.stats.TotalSubmissions
        = exampleMiner.MiningState.stats.TotalSubmissions
          + (if diff > exampleMiner.MiningState.minimumDifficulty then 1 else 0) ∧
      out = (if diff > exampleMiner.MiningState.minimumDifficulty then
              some { OPRHash := hexEncodeToString exampleMiner.MiningState.oprhash
                     Nonce := hexEncodeToString inc.Nonce
                     Target := sprintfHex diff }
            else none) ∧
      p2.MiningState.oprhash = exampleMiner.MiningState.oprhash ∧
      p2.MiningState.minimumDifficulty = exampleMiner.MiningState.minimumDifficulty ∧
      p2.ID = exampleMiner.ID ∧ p2.PersonalID = exampleMiner.PersonalID ∧
      p2.paused = false :=
  ⟨⟨rfl, by decide, ⟨[0, 0, 0, 1, 1], [255], rfl, by decide, rfl⟩, exampleHash_length⟩,
   mineIteration_example,
   C18_mining_step exampleHash exampleMiner rfl (by decide)
     ⟨[0, 0, 0, 1, 1], [255], rfl, by decide, rfl⟩ exampleHash_length⟩

/-! ### InsertSorted and the shares per user -/

/-- C19 (code at failing inputs): InsertSorted panics on the empty slice with
e = 5, on [5] with e = 3 and on [1, 5, 9, 11, 13] with e = 12: the search runs
over the slice with the placeholder 0 appended, finds no larger entry from the
middle on, and returns the new length, so `s[i+1:]` is out of range. -/
theorem C19_insertSorted_panics :
    InsertSorted [] 5 = none ∧ InsertSorted [5] 3 = none ∧
    InsertSorted [1, 5, 9, 11, 13] 12 = none ∧
    InsertSorted [1, 5] 3 = some [1, 3, 5] := by
  decide

theorem Seal_of_sealed {F : Type} (m : ShareMap F) (h : m.Sealed = true) : m.Seal = m := by
  cases m
  simp only [ShareMap.Seal] at h ⊢
  rw [h]

/-- Once the map is sealed no call changes it. -/
theorem foldl_apply_sealed {F : Type} (ops : Float64Ops F) :
    ∀ (l : List (MapOp F)) (m : ShareMap F), m.Sealed = true →
      l.foldl (ShareMap.apply ops) m = m := by
  intro l
  induction l with
  | nil => intro m _; rfl
  | cons op rest ih =>
    intro m hm
    have hstep : ShareMap.apply ops m op = m := by
      cases op with
      | add now1 now2 key s => simp [ShareMap.apply, ShareMap.AddShare, hm]
      | sealOp => exact Seal_of_sealed m hm
    rw [List.foldl_cons, hstep]
    exact ih m hm

theorem lookupSum_updateSum_ne {F : Type} (key k : String) (f : ShareSum F → ShareSum F)
    (hk : k ≠ key) :
    ∀ l : List (String × ShareSum F), lookupSum key (updateSum k f l) = lookupSum key l := by
  intro l
  induction l with
  | nil => rfl
  | cons e rest ih =>
    obtain ⟨a, v⟩ := e
    by_cases ha : a = k
    · subst ha
      simp [lookupSum, updateSum, hk]
    · by_cases hb : a = key
      · subst hb
        simp [lookupSum, updateSum, ha]
      · simp [lookupSum, updateSum, ha, hb, ih]

theorem lookupSum_append_ne {F : Type} (key k : String) (v : ShareSum F) (hk : k ≠ key) :
    ∀ l : List (String × ShareSum F), lookupSum key (l ++ [(k, v)]) = lookupSum key l := by
  intro l
  induction l with
  | nil => simp [lookupSum, hk]
  | cons e rest ih =>
    obtain ⟨a, w⟩ := e
    by_cases hb : a = key
    · simp [lookupSum, hb]
    · simp [lookupSum, hb, ih]

/-- The entry of `key` after AddShare under the same key on an unsealed map. -/
theorem lookupSum_AddShare_same {F : Type} (ops : Float64Ops F) (now1 now2 : Int)
    (m : ShareMap F) (key : String) (s : Share F) (hm : m.Sealed = false) :
    lookupSum key (m.AddShare ops now1 now2 key s).Sums
      = some (ShareSum.AddShare ops now1 now2
          ((lookupSum key m.Sums).getD (ShareSum.new ops)) s) := by
  simp only [ShareMap.AddShare, hm, Bool.false_eq_true, if_false]
  rw [lookupSum_updateSum]
  cases hl : lookupSum key m.Sums with
  | none => simp [lookupSum_append_new key _ m.Sums hl]
  | some v => simp [hl]

/-- The entry of `key` is untouched by AddShare under another key. -/
theorem lookupSum_AddShare_other {F : Type} (ops : Float64Ops F) (now1 now2 : Int)
    (m : ShareMap F) (key k : String) (s : Share F) (hk : k ≠ key) :
    lookupSum key (m.AddShare ops now1 now2 k s).Sums = lookupSum key m.Sums := by
  unfold ShareMap.AddShare
  split
  · rfl
  · simp only
    rw [lookupSum_updateSum_ne key k _ hk]
    split
    · exact lookupSum_append_ne key k _ hk m.Sums
    · rfl

theorem AddShare_sealed_false {F : Type} (ops : Float64Ops F) (now1 now2 : Int)
    (m : ShareMap F) (k : String) (s : Share F) (hm : m.Sealed = false) :
    (m.AddShare ops now1 now2 k s).Sealed = false := by
  simp [ShareMap.AddShare, hm]

/-- The entry of `key` after a sequence of calls on an unsealed map: the
previous entry (or a zero ShareSum) after the AddShare calls under that key
that precede the first Seal. -/
theorem lookupSum_foldl {F : Type} (ops : Float64Ops F) (key : String) :
    ∀ (l : List (MapOp F)) (m : ShareMap F), m.Sealed = false →
      lookupSum key (l.foldl (ShareMap.apply ops) m).Sums
        = if (callsFor key l).isEmpty then lookupSum key m.Sums
          else some (ShareSum.addAll ops (callsFor key l)
            ((lookupSum key m.Sums).getD (ShareSum.new ops))) := by
  intro l
  induction l with
  | nil =>
    intro m _
    simp [callsFor]
  | cons op rest ih =>
    intro m hm
    cases op with
    | sealOp =>
      rw [List.foldl_cons]
      have hs : (ShareMap.apply ops m MapOp.sealOp).Sealed = true := rfl
      rw [foldl_apply_sealed ops rest _ hs]
      simp [callsFor, ShareMap.apply, ShareMap.Seal]
    | add now1 now2 k s =>
      rw [List.foldl_cons]
      have hm2 : (ShareMap.apply ops m (MapOp.add now1 now2 k s)).Sealed = false :=
        AddShare_sealed_false ops now1 now2 m k s hm
      rw [ih _ hm2]
      by_cases hk : k = key
      · subst hk
        have hl : lookupSum k (ShareMap.apply ops m (MapOp.add now1 now2 k s)).Sums
            = some (ShareSum.AddShare ops now1 now2
                ((lookupSum k m.Sums).getD (ShareSum.new ops)) s) :=
          lookupSum_AddShare_same ops now1 now2 m k s hm
        rw [hl]
        simp only [callsFor, if_true]
        cases hr : callsFor k rest with
        | nil => simp [ShareSum.addAll]
        | cons c cs => simp [ShareSum.addAll]
      · have hl : lookupSum key (ShareMap.apply ops m (MapOp.add now1 now2 k s)).Sums
            = lookupSum key m.Sums :=
          lookupSum_AddShare_other ops now1 now2 m key k s hk
        rw [hl]
        simp only [callsFor, hk, if_false]

theorem callsFor_length_le {F : Type} (key : String) :
    ∀ l : List (MapOp F), (callsFor key l).length ≤ l.length := by
  intro l
  induction l with
  | nil => simp [callsFor]
  | cons op rest ih =>
    cases op with
    | sealOp => simp [callsFor]
    | add now1 now2 k s =>
      simp only [callsFor]
      split
      · simp only [List.length_cons]
        omega
      · simp only [List.length_cons]
        omega

theorem updateSum_keys {F : Type} (k : String) (f : ShareSum F → ShareSum F) :
    ∀ l : List (String × ShareSum F), (updateSum k f l).map Prod.fst = l.map Prod.fst := by
  intro l
  induction l with
  | nil => rfl
  | cons e rest ih =>
    obtain ⟨a, v⟩ := e
    by_cases ha : a = k
    · simp [updateSum, ha]
    · simp [updateSum, ha, ih]

theorem lookupSum_none_not_mem {F : Type} (key : String) :
    ∀ l : List (String × ShareSum F), lookupSum key l = none → key ∉ l.map Prod.fst := by
  intro l
  induction l with
  | nil => intro _; simp
  | cons e rest ih =>
    obtain ⟨a, v⟩ := e
    intro h
    by_cases ha : a = key
    · simp [lookupSum, ha] at h
    · simp only [lookupSum, ha, if_false] at h
      simp only [List.map_cons, List.mem_cons, not_or]
      exact ⟨fun hh => ha hh.symm, ih h⟩

theorem lookupSum_of_mem {F : Type} (key : String) (v : ShareSum F) :
    ∀ l : List (String × ShareSum F), (l.map Prod.fst).Nodup → (key, v) ∈ l →
      lookupSum key l = some v := by
  intro l
  induction l with
  | nil => intro _ h; simp at h
  | cons e rest ih =>
    obtain ⟨a, w⟩ := e
    intro hnd hmem
    simp only [List.map_cons, List.nodup_cons] at hnd
    rcases List.mem_cons.mp hmem with heq | hmem
    · simp only [Prod.mk.injEq] at heq
      obtain ⟨rfl, rfl⟩ := heq
      simp [lookupSum]
    · have hne : a ≠ key := by
        intro ha
        apply hnd.1
        rw [ha]
        exact List.mem_map.mpr ⟨(key, v), hmem, rfl⟩
      simp only [lookupSum, hne, if_false]
      exact ih hnd.2 hmem

/-- Every call keeps the keys of Sums distinct. -/
theorem apply_keys_nodup {F : Type} (ops : Float64Ops F) (m : ShareMap F) (op : MapOp F)
    (h : (m.Sums.map Prod.fst).Nodup) :
    ((ShareMap.apply ops m op).Sums.map Prod.fst).Nodup := by
  cases op with
  | sealOp => exact h
  | add now1 now2 k s =>
    simp only [ShareMap.apply, ShareMap.AddShare]
    split
    · exact h
    · simp only
      rw [updateSum_keys]
      cases hl : lookupSum k m.Sums with
      | none =>
        simp only [Option.isNone_none, if_true, List.map_append, List.map_cons, List.map_nil]
        rw [List.nodup_append]
        refine ⟨h, List.nodup_singleton _, ?_⟩
        intro a ha hb
        have hk : a = k := by simpa using hb
        rw [hk] at ha
        exact lookupSum_none_not_mem k m.Sums hl ha
      | some v =>
        simp only [Option.isNone_some, Bool.false_eq_true, if_false]
        exact h

theorem foldl_keys_nodup {F : Type} (ops : Float64Ops F) :
    ∀ (l : List (MapOp F)) (m : ShareMap F), (m.Sums.map Prod.fst).Nodup →
      ((l.foldl (ShareMap.apply ops) m).Sums.map Prod.fst).Nodup := by
  intro l
  induction l with
  | nil => intro m h; exact h
  | cons op rest ih =>
    intro m h
    rw [List.foldl_cons]
    exact ih _ (apply_keys_nodup ops m op h)

/-- C20 (shares per user): in the map built from NewShareMap by any sequence of
fewer than 2^63 AddShare and Seal calls, every entry of Sums has TotalShares
equal to the number of AddShare calls under its key before the first Seal, at
least 1, and an array of 20 targets; so the index min(TotalShares, 20) - 1 used
by Payouts lies in [0, 19] and the lookup finds an entry. -/
theorem C20_total_shares_positive {F : Type} (ops : Float64Ops F) (l : List (MapOp F))
    (hlen : l.length < 9223372036854775808) (key : String) (sum : ShareSum F)
    (hmem : (key, sum) ∈ (ShareMap.run ops l).Sums) :
    sum.TotalShares = ((callsFor key l).length : Int) ∧
    1 ≤ sum.TotalShares ∧
    sum.Targets.length = 20 ∧
    0 ≤ (if sum.TotalShares < 20 then sum.TotalShares else 20) - 1 ∧
    (if sum.TotalShares < 20 then sum.TotalShares else 20) - 1 ≤ 19 ∧
    ∃ t, sum.Targets[((if sum.TotalShares < 20 then sum.TotalShares else 20) - 1).toNat]?
      = some t := by
  have hnd : ((ShareMap.run ops l).Sums.map Prod.fst).Nodup :=
    foldl_keys_nodup ops l (NewShareMap ops) (by simp [NewShareMap])
  have hlook := lookupSum_of_mem key sum _ hnd hmem
  have hfold := lookupSum_foldl ops key l (NewShareMap ops) rfl
  have hrun : ShareMap.run ops l = l.foldl (ShareMap.apply ops) (NewShareMap ops) := rfl
  rw [← hrun, hlook] at hfold
  cases hc : callsFor key l with
  | nil =>
    rw [hc] at hfold
    simp [NewShareMap, lookupSum] at hfold
  | cons c cs =>
    rw [hc] at hfold
    simp only [List.isEmpty_cons, Bool.false_eq_true, if_false, NewShareMap, lookupSum,
      Option.getD_none, Option.some.injEq] at hfold
    have hcl : (c :: cs).length < 9223372036854775808 := by
      have := callsFor_length_le key l
      rw [hc] at this
      omega
    obtain ⟨S, _, _, hT, hn⟩ := addAll_ring ops (c :: cs) hcl
    rw [← hfold] at hT hn
    have hlen20 : sum.Targets.length = 20 := by
      rw [hT]
      exact ring_length S
    have hpos : (1 : Int) ≤ ((c :: cs).length : Int) := by
      simp only [List.length_cons]
      omega
    refine ⟨hn, by rw [hn]; exact hpos, hlen20, ?_, ?_, ?_⟩
    · split <;> omega
    · split <;> omega
    · have hidx : ((if sum.TotalShares < 20 then sum.TotalShares else 20) - 1).toNat
          < sum.Targets.length := by
        rw [hlen20]
        split <;> omega
      exact ⟨_, List.getElem?_eq_getElem hidx⟩

theorem exampleOps_run :
    (ShareMap.run intFloat64 exampleOps).Sums = [("A", exampleSumA), ("B", exampleSumB)] := by
  decide

theorem C20_total_shares_positive_witness :
    (exampleOps.length < 9223372036854775808 ∧
      ("A", exampleSumA) ∈ (ShareMap.run intFloat64 exampleOps).Sums) ∧
    (exampleSumA.TotalShares = ((callsFor "A" exampleOps).length : Int) ∧
    1 ≤ exampleSumA.TotalShares ∧
    exampleSumA.Targets.length = 20 ∧
    0 ≤ (if exampleSumA.TotalShares < 20 then exampleSumA.TotalShares else 20) - 1 ∧
    (if exampleSumA.TotalShares < 20 then exampleSumA.TotalShares else 20) - 1 ≤ 19 ∧
    ∃ t, exampleSumA.Targets[((if exampleSumA.TotalShares < 20 then exampleSumA.TotalShares
      else 20) - 1).toNat]? = some t) :=
  have hmem : ("A", exampleSumA) ∈ (ShareMap.run intFloat64 exampleOps).Sums := by
    rw [exampleOps_run]
    exact List.mem_cons_self _ _
  ⟨⟨by decide, hmem⟩,
    C20_total_shares_positive intFloat64 exampleOps (by decide) "A" exampleSumA hmem⟩

/-! ### Payouts of the maps built by AddShare -/

theorem minNormal_pos : 0 < minNormal := by
  unfold minNormal
  positivity

theorem sharesOf_cons_add {F : Type} (now1 now2 : Int) (key : String) (s : Share F)
    (rest : List (MapOp F)) :
    sharesOf (MapOp.add now1 now2 key s :: rest) = s :: sharesOf rest := rfl

theorem sharesOf_cons_seal {F : Type} (rest : List (MapOp F)) :
    sharesOf (MapOp.sealOp :: rest) = sharesOf rest := rfl

/-- AddShare with a normal positive difficulty keeps the totals ordered. -/
theorem AddShare_totalsOrdered {F : Type} (ops : Float64Ops F) (val : F → ℚ)
    (hfl : Float64Sound ops val) (m : ShareMap F) (now1 now2 : Int) (key : String)
    (s : Share F) (hd : minNormal ≤ val s.Difficulty) (h : m.totalsOrdered val) :
    (m.AddShare ops now1 now2 key s).totalsOrdered val := by
  have hd0 : 0 ≤ val s.Difficulty := le_trans minNormal_pos.le hd
  cases hm : m.Sealed with
  | true =>
    have hsame : m.AddShare ops now1 now2 key s = m := by
      simp [ShareMap.AddShare, hm]
    rw [hsame]
    exact h
  | false =>
    obtain ⟨hT, hall⟩ := h
    have hTD : (m.AddShare ops now1 now2 key s).TotalDiff
        = ops.add m.TotalDiff s.Difficulty := by
      simp [ShareMap.AddShare, hm]
    have hTge : val m.TotalDiff ≤ val (ops.add m.TotalDiff s.Difficulty) :=
      (hfl.add_ge _ _ hT hd0).1
    refine ⟨by rw [hTD]; exact le_trans hT hTge, ?_⟩
    intro k sum hk
    rw [hTD]
    by_cases hkk : k = key
    · subst hkk
      rw [lookupSum_AddShare_same ops now1 now2 m k s hm] at hk
      simp only [Option.some.injEq] at hk
      subst hk
      have hold : 0 ≤ val ((lookupSum k m.Sums).getD (ShareSum.new ops)).TotalDifficulty ∧
          val ((lookupSum k m.Sums).getD (ShareSum.new ops)).TotalDifficulty
            ≤ val m.TotalDiff := by
        cases hl : lookupSum k m.Sums with
        | none =>
          simp only [Option.getD_none, ShareSum.new, hfl.zero_val]
          exact ⟨le_refl _, hT⟩
        | some v =>
          obtain ⟨a, b⟩ := hall k v hl
          exact ⟨le_trans minNormal_pos.le a, b⟩
      exact ⟨le_trans hd (hfl.add_ge _ _ hold.1 hd0).2,
        hfl.add_mono _ _ _ hold.1 hold.2 hd0⟩
    · rw [lookupSum_AddShare_other ops now1 now2 m k key s (fun hh => hkk hh.symm)] at hk
      obtain ⟨a, b⟩ := hall k sum hk
      exact ⟨a, le_trans b hTge⟩

/-- Every sequence of calls with normal positive difficulties keeps the totals
ordered. -/
theorem foldl_totalsOrdered {F : Type} (ops : Float64Ops F) (val : F → ℚ)
    (hfl : Float64Sound ops val) :
    ∀ (l : List (MapOp F)) (m : ShareMap F),
      (∀ s ∈ sharesOf l, minNormal ≤ val s.Difficulty) → m.totalsOrdered val →
      (l.foldl (ShareMap.apply ops) m).totalsOrdered val := by
  intro l
  induction l with
  | nil => intro m _ h; exact h
  | cons op rest ih =>
    intro m hpos h
    rw [List.foldl_cons]
    cases op with
    | sealOp =>
      exact ih _ (fun s hs => hpos s (by rw [sharesOf_cons_seal]; exact hs)) h
    | add now1 now2 key s =>
      rw [sharesOf_cons_add] at hpos
      exact ih _ (fun x hx => hpos x (List.mem_cons_of_mem _ hx))
        (AddShare_totalsOrdered ops val hfl m now1 now2 key s
          (hpos s (List.mem_cons_self _ _)) h)

/-- In a map built from NewShareMap by calls with normal positive difficulties
every user's total is a normal positive number that is at most TotalDiff. -/
theorem run_entry_values {F : Type} (ops : Float64Ops F) (val : F → ℚ)
    (hfl : Float64Sound ops val) (l : List (MapOp F))
    (hpos : ∀ s ∈ sharesOf l, minNormal ≤ val s.Difficulty) :
    ∀ e ∈ (ShareMap.run ops l).Sums,
      minNormal ≤ val e.2.TotalDifficulty ∧
      val e.2.TotalDifficulty ≤ val (ShareMap.run ops l).TotalDiff := by
  have hinit : (NewShareMap ops).totalsOrdered val := by
    refine ⟨by simp [NewShareMap, hfl.zero_val], ?_⟩
    intro k sum hk
    simp [NewShareMap, lookupSum] at hk
  have hord := foldl_totalsOrdered ops val hfl l (NewShareMap ops) hpos hinit
  have hnd : ((ShareMap.run ops l).Sums.map Prod.fst).Nodup :=
    foldl_keys_nodup ops l (NewShareMap ops) (by simp [NewShareMap])
  intro e he
  exact hord.2 e.1 e.2 (lookupSum_of_mem e.1 e.2 _ hnd he)

/-- The decimal value of a normal positive float64 lies within `x / 2^53` of it. -/
theorem decimalValue_bounds {F : Type} (ops : Float64Ops F) (val : F → ℚ)
    (hfl : Float64Sound ops val) (x : F) (hx : minNormal ≤ val x) :
    0 ≤ decimalValue ops x ∧
    9007199254740992 * decimalValue ops x ≤ 9007199254740993 * val x ∧
    ∀ d, ops.NewFromFloat x = some d →
      9007199254740991 * val x ≤ 9007199254740992 * decimalValue ops x := by
  have hx0 : 0 < val x := lt_of_lt_of_le minNormal_pos hx
  unfold decimalValue
  cases hd : ops.NewFromFloat x with
  | none =>
    refine ⟨le_refl _, by simp only; linarith, ?_⟩
    intro d h
    cases h
  | some d =>
    have hc := hfl.decimal_close x d hx hd
    have hp : (0 : ℚ) ≤ 2 ^ 53 := by positivity
    have e1 : (d.toRat - val x) * 2 ^ 53 ≤ val x :=
      le_trans (mul_le_mul_of_nonneg_right (le_abs_self _) hp) hc
    have e2 : (-(d.toRat - val x)) * 2 ^ 53 ≤ val x :=
      le_trans (mul_le_mul_of_nonneg_right (neg_le_abs _) hp) hc
    norm_num at e1 e2
    refine ⟨?_, ?_, ?_⟩
    · simp only
      linarith
    · simp only
      linarith
    · intro d2 _
      simp only
      linarith

theorem payoutOf_pool_some {F : Type} (ops : Float64Ops F) (poolDiff : F) (remaining : Int)
    (e : String × ShareSum F) (pay : UserPayout F)
    (h : PayoutOf ops poolDiff remaining e pay) :
    ∃ d, ops.NewFromFloat poolDiff = some d := by
  obtain ⟨hprop, _, _, _⟩ := h
  unfold userProportion at hprop
  cases ha : ops.NewFromFloat e.2.TotalDifficulty with
  | none => simp [ha] at hprop
  | some a =>
    cases hd : ops.NewFromFloat poolDiff with
    | none => simp [ha, hd] at hprop
    | some d => exact ⟨d, rfl⟩

theorem forall₂_exists_right {α β : Type} {R : α → β → Prop} {l1 : List α} {l2 : List β}
    (h : List.Forall₂ R l1 l2) : ∀ e ∈ l1, ∃ u ∈ l2, R e u := by
  induction h with
  | nil =>
    intro e he
    exact absurd he (List.not_mem_nil e)
  | @cons a b l1 l2 hhead _ ih =>
    intro e he
    rcases List.mem_cons.mp he with rfl | he
    · exact ⟨b, List.mem_cons_self _ _, hhead⟩
    · obtain ⟨u, hu, hr⟩ := ih e he
      exact ⟨u, List.mem_cons_of_mem _ hu, hr⟩

/-- The decimal values of a user total and of the pool total, for numbers
`t <= T` of which the pool total converts: the user's share of the pool is at
most 1 + 10^-9. -/
theorem entry_decimal_facts {F : Type} (ops : Float64Ops F) (val : F → ℚ)
    (hfl : Float64Sound ops val) (t T : F) (d : Decimal)
    (ht : minNormal ≤ val t) (htT : val t ≤ val T) (hd : ops.NewFromFloat T = some d) :
    0 ≤ decimalValue ops t ∧ 0 ≤ decimalValue ops T ∧
    decimalValue ops t * 10 ^ 9 ≤ decimalValue ops T * (10 ^ 9 + 1) := by
  obtain ⟨a0, a1, _⟩ := decimalValue_bounds ops val hfl t ht
  obtain ⟨b0, _, b2⟩ := decimalValue_bounds ops val hfl T (le_trans ht htT)
  have b3 := b2 d hd
  have ht0 : 0 < val t := lt_of_lt_of_le minNormal_pos ht
  refine ⟨a0, b0, ?_⟩
  norm_num
  linarith

/-- Each payout of the loop, when every user's decimal share of the pool is at
most 1 + 10^-9: the proportion is between 0 and 1 in units of 10^-8, and the
payout is `remaining * proportion` rounded down, without a wrap. -/
theorem payout_terms {F : Type} (ops : Float64Ops F) (poolDiff : F) (remaining : Int)
    (hrem0 : 0 ≤ remaining) (hrem1 : remaining ≤ 9223372036854775807)
    (sums : List (String × ShareSum F)) (pays : List (UserPayout F))
    (hall : List.Forall₂ (PayoutOf ops poolDiff remaining) sums pays)
    (hfacts : ∀ e ∈ sums, 0 ≤ decimalValue ops e.2.TotalDifficulty ∧
      0 ≤ decimalValue ops poolDiff ∧
      decimalValue ops e.2.TotalDifficulty * 10 ^ 9
        ≤ decimalValue ops poolDiff * (10 ^ 9 + 1)) :
    ∀ u ∈ pays, 0 ≤ u.Proportion.value ∧ u.Proportion.value ≤ 100000000 ∧
      u.Payout = remaining * u.Proportion.value / 100000000 ∧
      0 ≤ u.Payout ∧ u.Payout ≤ remaining := by
  intro u hu
  obtain ⟨e, he, hrel⟩ := forall₂_exists_left hall u hu
  obtain ⟨f1, f2, f3⟩ := hfacts e he
  obtain ⟨ue, uv, hDpos, hb⟩ := payoutOf_proportion ops poolDiff remaining e u hrel f1 f2
  have hle : u.Proportion.value ≤ 100000000 := by
    have h4 : (2 * 10 ^ 8 - 1) * (u.Proportion.value : ℚ) * decimalValue ops poolDiff
        ≤ (2 * 10 ^ 16 + 2 * 10 ^ 7) * decimalValue ops poolDiff := by
      norm_num at hb f3 ⊢
      linarith
    have h5 : (2 * 10 ^ 8 - 1) * (u.Proportion.value : ℚ) ≤ 2 * 10 ^ 16 + 2 * 10 ^ 7 :=
      le_of_mul_le_mul_right h4 hDpos
    have h6 : (2 * 10 ^ 8 - 1) * u.Proportion.value ≤ 2 * 10 ^ 16 + 2 * 10 ^ 7 := by
      exact_mod_cast h5
    omega
  have hcut := hrel.2.1
  have hPeq : u.Proportion = { value := u.Proportion.value, exp := -8 } := by
    cases hprop : u.Proportion with
    | mk v ex =>
      rw [hprop] at ue
      simp only at ue
      rw [ue]
  rw [hPeq, cut_spec _ _ hrem0 uv] at hcut
  have hq0 : 0 ≤ remaining * u.Proportion.value / 100000000 :=
    Int.ediv_nonneg (Int.mul_nonneg hrem0 uv) (by omega)
  have hq1 : remaining * u.Proportion.value / 100000000 ≤ remaining := by
    apply Int.ediv_le_of_le_mul (by omega)
    nlinarith
  rw [wrap64_of_range _ (by omega) (by omega)] at hcut
  exact ⟨uv, hle, hcut, by rw [hcut]; exact hq0, by rw [hcut]; exact hq1⟩

theorem payouts_sum_le_length {F : Type} (remaining : Int) :
    ∀ pays : List (UserPayout F), (∀ u ∈ pays, u.Payout ≤ remaining) →
      (pays.map (fun u => u.Payout)).sum ≤ (pays.length : Int) * remaining := by
  intro pays
  induction pays with
  | nil =>
    intro _
    simp
  | cons u rest ih =>
    intro h
    have h1 := h u (List.mem_cons_self _ _)
    have h2 := ih (fun x hx => h x (List.mem_cons_of_mem _ hx))
    simp only [List.map_cons, List.sum_cons, List.length_cons]
    push_cast
    rw [add_mul]
    omega

theorem sum_decimal_le {F : Type} (ops : Float64Ops F) (val : F → ℚ) :
    ∀ sums : List (String × ShareSum F),
      (∀ e ∈ sums, 9007199254740992 * decimalValue ops e.2.TotalDifficulty
        ≤ 9007199254740993 * val e.2.TotalDifficulty) →
      9007199254740992 * (sums.map (fun e => decimalValue ops e.2.TotalDifficulty)).sum
        ≤ 9007199254740993 * (sums.map (fun e => val e.2.TotalDifficulty)).sum := by
  intro sums
  induction sums with
  | nil =>
    intro _
    simp
  | cons e rest ih =>
    intro h
    have h1 := h e (List.mem_cons_self _ _)
    have h2 := ih (fun x hx => h x (List.mem_cons_of_mem _ hx))
    simp only [List.map_cons, List.sum_cons]
    linarith

/-- The arithmetic of a returning NewPayout on a map built from NewShareMap by
calls with normal positive difficulties, for a reward in [0, 2^63) and a fee
rate in [0, 1]: fee, proportions and payouts are in range; the proportions sum
to at most 1 when the user totals sum exactly to TotalDiff; and Dust is the
plain difference when the payouts sum to less than 2^63. -/
theorem built_payout_core {F : Type} (ops : Float64Ops F) (val : F → ℚ)
    (hfl : Float64Sound ops val) (l : List (MapOp F)) (r : Reward) (rate : Decimal)
    (p : Payouts F)
    (hr0 : 0 ≤ r.PoolReward) (hr1 : r.PoolReward ≤ 9223372036854775807)
    (h0 : 0 ≤ rate.toRat) (h1 : rate.toRat ≤ 1)
    (hpos : ∀ s ∈ sharesOf l, minNormal ≤ val s.Difficulty)
    (h : NewPayout ops r rate (ShareMap.run ops l) = some p) :
    (0 ≤ p.PoolFee ∧ p.PoolFee ≤ r.PoolReward) ∧
    p.UserPayouts.length = (ShareMap.run ops l).Sums.length ∧
    (∀ u ∈ p.UserPayouts, 0 ≤ u.Payout ∧ u.Payout ≤ r.PoolReward - p.PoolFee) ∧
    100000000 * (p.UserPayouts.map (fun u => u.Payout)).sum
      ≤ (r.PoolReward - p.PoolFee) * (p.UserPayouts.map (fun u => u.Proportion.value)).sum ∧
    (r.PoolReward - p.PoolFee) * (p.UserPayouts.map (fun u => u.Proportion.value)).sum
      ≤ 100000000 * (p.UserPayouts.map (fun u => u.Payout)).sum
        + 99999999 * (p.UserPayouts.length : Int) ∧
    (((ShareMap.run ops l).Sums.map (fun e => val e.2.TotalDifficulty)).sum
        = val (ShareMap.run ops l).TotalDiff →
      (p.UserPayouts.map (fun u => u.Proportion.value)).sum ≤ 100000000) ∧
    ((p.UserPayouts.map (fun u => u.Payout)).sum ≤ 9223372036854775807 →
      p.Dust = r.PoolReward - p.PoolFee - (p.UserPayouts.map (fun u => u.Payout)).sum) := by
  obtain ⟨hall, hfee, hdust, _, _, _⟩ := NewPayout_inv ops r rate _ p h
  obtain ⟨f0, f1, hrem⟩ := fee_bounds r.PoolReward rate hr0 hr1 h0 h1
  rw [← hfee] at f0 f1 hrem
  rw [hrem] at hall hdust
  have hrem0 : 0 ≤ r.PoolReward - p.PoolFee := by omega
  have hentries := run_entry_values ops val hfl l hpos
  have hfacts : ∀ e ∈ (ShareMap.run ops l).Sums,
      0 ≤ decimalValue ops e.2.TotalDifficulty ∧
      0 ≤ decimalValue ops (ShareMap.run ops l).TotalDiff ∧
      decimalValue ops e.2.TotalDifficulty * 10 ^ 9
        ≤ decimalValue ops (ShareMap.run ops l).TotalDiff * (10 ^ 9 + 1) := by
    intro e he
    obtain ⟨u, _, hrel⟩ := forall₂_exists_right hall e he
    obtain ⟨d, hd⟩ := payoutOf_pool_some ops _ _ e u hrel
    obtain ⟨a, b⟩ := hentries e he
    exact entry_decimal_facts ops val hfl _ _ d a b hd
  have hterms := payout_terms ops _ _ hrem0 (by omega) _ _ hall hfacts
  obtain ⟨b1, b2, b3⟩ := payouts_sum_bounds (r.PoolReward - p.PoolFee) hrem0 p.UserPayouts
    (fun u hu => ⟨(hterms u hu).1, (hterms u hu).2.2.1⟩)
  refine ⟨⟨f0, f1⟩, hall.length_eq.symm, fun u hu => ⟨(hterms u hu).2.2.2.1,
    (hterms u hu).2.2.2.2⟩, b2, b3, ?_, ?_⟩
  · intro hsum
    cases hpays : p.UserPayouts with
    | nil => simp
    | cons u0 rest0 =>
      rw [← hpays]
      have hu0 : u0 ∈ p.UserPayouts := by
        rw [hpays]
        exact List.mem_cons_self _ _
      obtain ⟨e0, he0, hrel0⟩ := forall₂_exists_left hall u0 hu0
      obtain ⟨d, hd⟩ := payoutOf_pool_some ops _ _ e0 u0 hrel0
      obtain ⟨_, hD0, _⟩ := hfacts e0 he0
      obtain ⟨_, h2, h3⟩ := proportions_sum ops _ _ hD0 _ _ hall
        (fun e he => (hfacts e he).1)
      have hDpos := h2 (by rw [hpays]; exact List.cons_ne_nil _ _)
      have hup := sum_decimal_le ops val (ShareMap.run ops l).Sums
        (fun e he => (decimalValue_bounds ops val hfl _ (hentries e he).1).2.1)
      rw [hsum] at hup
      have hTnorm : minNormal ≤ val (ShareMap.run ops l).TotalDiff :=
        le_trans (hentries e0 he0).1 (hentries e0 he0).2
      have hlow := (decimalValue_bounds ops val hfl _ hTnorm).2.2 d hd
      have h4 : (2 * 10 ^ 8 - 1)
          * (((p.UserPayouts.map (fun u => u.Proportion.value)).sum : ℤ) : ℚ)
          * decimalValue ops (ShareMap.run ops l).TotalDiff
          ≤ (2 * 10 ^ 16 + 2 * 10 ^ 7) * decimalValue ops (ShareMap.run ops l).TotalDiff := by
        have hT0 : 0 < val (ShareMap.run ops l).TotalDiff :=
          lt_of_lt_of_le minNormal_pos hTnorm
        norm_num at h3 ⊢
        linarith
      have h5 : (2 * 10 ^ 8 - 1)
          * (((p.UserPayouts.map (fun u => u.Proportion.value)).sum : ℤ) : ℚ)
          ≤ 2 * 10 ^ 16 + 2 * 10 ^ 7 := le_of_mul_le_mul_right h4 hDpos
      have h6 : (2 * 10 ^ 8 - 1) * (p.UserPayouts.map (fun u => u.Proportion.value)).sum
          ≤ 2 * 10 ^ 16 + 2 * 10 ^ 7 := by exact_mod_cast h5
      omega
  · intro hle
    have hy0 : 0 ≤ (p.UserPayouts.map (fun u => u.Payout)).sum := by
      apply List.sum_nonneg
      intro x hx
      obtain ⟨v, hv, rfl⟩ := List.mem_map.mp hx
      exact b1 v hv
    have hsp : sumPayouts p.UserPayouts = (p.UserPayouts.map (fun u => u.Payout)).sum := by
      unfold sumPayouts
      rw [sumPayouts_eq_sum p.UserPayouts 0 (le_refl _) b1 (by omega)]
      omega
    rw [hsp, wrap64_of_range _ (by omega) (by omega)] at hdust
    exact hdust

theorem intFloat64_sound : Float64Sound intFloat64 (fun x : Int => (x : ℚ)) where
  zero_val := by simp [intFloat64]
  add_ge := by
    intro a b ha hb
    simp only [intFloat64]
    push_cast
    constructor <;> linarith
  add_mono := by
    intro a a2 b _ h _
    simp only [intFloat64]
    push_cast
    linarith
  decimal_close := by
    intro x d hx hd
    simp only [intFloat64, Option.some.injEq] at hd
    subst hd
    have hx0 : (0 : ℚ) < (x : ℚ) := lt_of_lt_of_le minNormal_pos hx
    simp only [Decimal.toRat, zpow_zero, mul_one, sub_self, abs_zero, zero_mul]
    exact hx0.le

theorem minNormal_le_one : minNormal ≤ 1 := by
  unfold minNormal
  rw [div_le_one (by positivity)]
  exact one_le_pow₀ (by norm_num)

theorem opsAB_run : ShareMap.run intFloat64 opsAB = mapAB.Seal := by
  decide

theorem opsAB_shares :
    ∀ s ∈ sharesOf opsAB, minNormal ≤ ((s.Difficulty : Int) : ℚ) := by
  intro s hs
  simp only [opsAB, sharesOf, List.mem_cons, List.mem_singleton, List.not_mem_nil,
    or_false] at hs
  rcases hs with rfl | rfl
  · simp only [mkShare]
    exact le_trans minNormal_le_one (by norm_num)
  · simp only [mkShare]
    exact le_trans minNormal_le_one (by norm_num)

theorem opsAB_exact :
    ((ShareMap.run intFloat64 opsAB).Sums.map
        (fun e => ((e.2.TotalDifficulty : Int) : ℚ))).sum
      = (((ShareMap.run intFloat64 opsAB).TotalDiff : Int) : ℚ) := by
  rw [opsAB_run, mapAB_seal_eq]
  norm_num

theorem NewPayout_opsAB :
    NewPayout intFloat64 { JobID := 0, PoolReward := 1000000, Winning := 0, Graded := 0 }
      { value := 1, exp := -2 } (ShareMap.run intFloat64 opsAB) = some payoutsAB := by
  decide

theorem NewPayout_opsAB300 :
    NewPayout intFloat64 { JobID := 0, PoolReward := 300, Winning := 0, Graded := 0 }
      { value := 0, exp := 0 } (ShareMap.run intFloat64 opsAB) = some payoutsAB300 := by
  decide

/-- C5 (non-negativity): for a reward in [0, 2^63), a fee rate in [0, 1] and a
map built from NewShareMap by AddShare (and Seal) calls whose difficulties are
normal positive float64 values, with the users' TotalDifficulty values summing
exactly, as numbers, to TotalDiff: a returning NewPayout has PoolFee >= 0,
every Payout >= 0, Dust >= 0, and the payouts sum to at most the amount left
after the fee.  The float64 operations are any that have the properties of
IEEE 754 addition and of NewFromFloat collected in Float64Sound. -/
theorem C5_non_negativity {F : Type} (ops : Float64Ops F) (val : F → ℚ)
    (l : List (MapOp F)) (r : Reward) (rate : Decimal) (p : Payouts F)
    (hfl : Float64Sound ops val)
    (hr0 : 0 ≤ r.PoolReward) (hr1 : r.PoolReward ≤ 9223372036854775807)
    (h0 : 0 ≤ rate.toRat) (h1 : rate.toRat ≤ 1)
    (hpos : ∀ s ∈ sharesOf l, minNormal ≤ val s.Difficulty)
    (hsum : ((ShareMap.run ops l).Sums.map (fun e => val e.2.TotalDifficulty)).sum
      = val (ShareMap.run ops l).TotalDiff)
    (h : NewPayout ops r rate (ShareMap.run ops l) = some p) :
    0 ≤ p.PoolFee ∧ (∀ u ∈ p.UserPayouts, 0 ≤ u.Payout) ∧ 0 ≤ p.Dust ∧
    (p.UserPayouts.map (fun u => u.Payout)).sum ≤ r.PoolReward - p.PoolFee := by
  obtain ⟨⟨f0, f1⟩, _, hu, b2, _, hone, hdust⟩ :=
    built_payout_core ops val hfl l r rate p hr0 hr1 h0 h1 hpos h
  have hpsum := hone hsum
  have hysum : (p.UserPayouts.map (fun u => u.Payout)).sum ≤ r.PoolReward - p.PoolFee := by
    have : (r.PoolReward - p.PoolFee) * (p.UserPayouts.map (fun u => u.Proportion.value)).sum
        ≤ (r.PoolReward - p.PoolFee) * 100000000 :=
      Int.mul_le_mul_of_nonneg_left hpsum (by omega)
    omega
  have hd := hdust (by omega)
  exact ⟨f0, fun u hx => (hu u hx).1, by omega, hysum⟩

theorem C5_non_negativity_witness :
    (Float64Sound intFloat64 (fun x : Int => (x : ℚ)) ∧
      (0 : Int) ≤ 1000000 ∧ (1000000 : Int) ≤ 9223372036854775807 ∧
      0 ≤ Decimal.toRat { value := 1, exp := -2 } ∧
      Decimal.toRat { value := 1, exp := -2 } ≤ 1 ∧
      (∀ s ∈ sharesOf opsAB, minNormal ≤ ((s.Difficulty : Int) : ℚ)) ∧
      ((ShareMap.run intFloat64 opsAB).Sums.map
          (fun e => ((e.2.TotalDifficulty : Int) : ℚ))).sum
        = (((ShareMap.run intFloat64 opsAB).TotalDiff : Int) : ℚ) ∧
      NewPayout intFloat64 { JobID := 0, PoolReward := 1000000, Winning := 0, Graded := 0 }
        { value := 1, exp := -2 } (ShareMap.run intFloat64 opsAB) = some payoutsAB) ∧
    (0 ≤ payoutsAB.PoolFee ∧ (∀ u ∈ payoutsAB.UserPayouts, 0 ≤ u.Payout) ∧
      0 ≤ payoutsAB.Dust ∧
      (payoutsAB.UserPayouts.map (fun u => u.Payout)).sum
        ≤ (1000000 : Int) - payoutsAB.PoolFee) :=
  ⟨⟨intFloat64_sound, by decide, by decide, by norm_num [Decimal.toRat],
     by norm_num [Decimal.toRat], opsAB_shares, opsAB_exact, NewPayout_opsAB⟩,
   C5_non_negativity intFloat64 (fun x : Int => (x : ℚ)) opsAB
     { JobID := 0, PoolReward := 1000000, Winning := 0, Graded := 0 } { value := 1, exp := -2 }
     payoutsAB intFloat64_sound (by decide) (by decide) (by norm_num [Decimal.toRat])
     (by norm_num [Decimal.toRat]) opsAB_shares opsAB_exact NewPayout_opsAB⟩

/-- C6 (amended): for a reward in [0, 2^63), a fee rate in [0, 1] and a map
built from NewShareMap by AddShare (and Seal) calls whose difficulties are
normal positive float64 values: whenever the payouts sum to less than 2^63, so
that the int64 total of the payouts does not wrap, Dust stays below
max(1, number of UserPayouts) + remaining * (1 - sum of the proportions), where
remaining = PoolReward - PoolFee and the proportions are counted in units of
10^-8, and in particular Dust < max(1, number of UserPayouts) when the
truncated proportions sum to exactly 1.  The payouts do sum to less than 2^63
when the number of users times PoolReward is below 2^63, and for every
PoolReward when the users' TotalDifficulty values sum exactly to TotalDiff. -/
theorem C6_dust_bound {F : Type} (ops : Float64Ops F) (val : F → ℚ)
    (l : List (MapOp F)) (r : Reward) (rate : Decimal) (p : Payouts F)
    (hfl : Float64Sound ops val)
    (hr0 : 0 ≤ r.PoolReward) (hr1 : r.PoolReward ≤ 9223372036854775807)
    (h0 : 0 ≤ rate.toRat) (h1 : rate.toRat ≤ 1)
    (hpos : ∀ s ∈ sharesOf l, minNormal ≤ val s.Difficulty)
    (h : NewPayout ops r rate (ShareMap.run ops l) = some p) :
    ((p.UserPayouts.map (fun u => u.Payout)).sum ≤ 9223372036854775807 →
      p.Dust * 100000000
        < max 1 (p.UserPayouts.length : Int) * 100000000
          + (r.PoolReward - p.PoolFee)
            * (100000000 - (p.UserPayouts.map (fun u => u.Proportion.value)).sum) ∧
      ((p.UserPayouts.map (fun u => u.Proportion.value)).sum = 100000000 →
        p.Dust < max 1 (p.UserPayouts.length : Int))) ∧
    ((((ShareMap.run ops l).Sums.length : Int) * r.PoolReward ≤ 9223372036854775807 ∨
        ((ShareMap.run ops l).Sums.map (fun e => val e.2.TotalDifficulty)).sum
          = val (ShareMap.run ops l).TotalDiff) →
      (p.UserPayouts.map (fun u => u.Payout)).sum ≤ 9223372036854775807) := by
  obtain ⟨⟨f0, f1⟩, hlen, hu, b2, b3, hone, hdust⟩ :=
    built_payout_core ops val hfl l r rate p hr0 hr1 h0 h1 hpos h
  constructor
  · intro hle
    have hd := hdust hle
    have hmain : p.Dust * 100000000
        < max 1 (p.UserPayouts.length : Int) * 100000000
          + (r.PoolReward - p.PoolFee)
            * (100000000 - (p.UserPayouts.map (fun u => u.Proportion.value)).sum) := by
      rw [mul_sub]
      have hmax : (p.UserPayouts.length : Int) ≤ max 1 (p.UserPayouts.length : Int) :=
        le_max_right _ _
      have hmax1 : (1 : Int) ≤ max 1 (p.UserPayouts.length : Int) := le_max_left _ _
      generalize max 1 (p.UserPayouts.length : Int) = mx at hmax hmax1 ⊢
      generalize (r.PoolReward - p.PoolFee)
        * (p.UserPayouts.map (fun u => u.Proportion.value)).sum = X at b2 b3 ⊢
      rw [hd]
      omega
    refine ⟨hmain, ?_⟩
    intro heq
    rw [heq] at hmain
    omega
  · intro hwrap
    rcases hwrap with hw | hsum
    · have hs := payouts_sum_le_length (r.PoolReward - p.PoolFee) p.UserPayouts
        (fun u hx => (hu u hx).2)
      rw [hlen] at hs
      have hmono : ((ShareMap.run ops l).Sums.length : Int) * (r.PoolReward - p.PoolFee)
          ≤ ((ShareMap.run ops l).Sums.length : Int) * r.PoolReward :=
        Int.mul_le_mul_of_nonneg_left (by omega) (Int.natCast_nonneg _)
      omega
    · have hpsum := hone hsum
      have : (r.PoolReward - p.PoolFee) * (p.UserPayouts.map (fun u => u.Proportion.value)).sum
          ≤ (r.PoolReward - p.PoolFee) * 100000000 :=
        Int.mul_le_mul_of_nonneg_left hpsum (by omega)
      omega

theorem C6_dust_bound_witness :
    (Float64Sound intFloat64 (fun x : Int => (x : ℚ)) ∧
      (0 : Int) ≤ 300 ∧ (300 : Int) ≤ 9223372036854775807 ∧
      0 ≤ Decimal.toRat { value := 0, exp := 0 } ∧
      Decimal.toRat { value := 0, exp := 0 } ≤ 1 ∧
      (∀ s ∈ sharesOf opsAB, minNormal ≤ ((s.Difficulty : Int) : ℚ)) ∧
      NewPayout intFloat64 { JobID := 0, PoolReward := 300, Winning := 0, Graded := 0 }
        { value := 0, exp := 0 } (ShareMap.run intFloat64 opsAB) = some payoutsAB300) ∧
    (((payoutsAB300.UserPayouts.map (fun u => u.Payout)).sum ≤ 9223372036854775807 →
      payoutsAB300.Dust * 100000000
        < max 1 (payoutsAB300.UserPayouts.length : Int) * 100000000
          + ((300 : Int) - payoutsAB300.PoolFee)
            * (100000000
              - (payoutsAB300.UserPayouts.map (fun u => u.Proportion.value)).sum) ∧
      ((payoutsAB300.UserPayouts.map (fun u => u.Proportion.value)).sum = 100000000 →
        payoutsAB300.Dust < max 1 (payoutsAB300.UserPayouts.length : Int))) ∧
    ((((ShareMap.run intFloat64 opsAB).Sums.length : Int) * 300 ≤ 9223372036854775807 ∨
        ((ShareMap.run intFloat64 opsAB).Sums.map
            (fun e => ((e.2.TotalDifficulty : Int) : ℚ))).sum
          = (((ShareMap.run intFloat64 opsAB).TotalDiff : Int) : ℚ)) →
      (payoutsAB300.UserPayouts.map (fun u => u.Payout)).sum ≤ 9223372036854775807)) :=
  ⟨⟨intFloat64_sound, by decide, by decide, by norm_num [Decimal.toRat],
     by norm_num [Decimal.toRat], opsAB_shares, NewPayout_opsAB300⟩,
   C6_dust_bound intFloat64 (fun x : Int => (x : ℚ)) opsAB
     { JobID := 0, PoolReward := 300, Winning := 0, Graded := 0 } { value := 0, exp := 0 }
     payoutsAB300 intFloat64_sound (by decide) (by decide) (by norm_num [Decimal.toRat])
     (by norm_num [Decimal.toRat]) opsAB_shares NewPayout_opsAB300⟩

end ProsperPool
